import Mathlib

/-!
Donation bundle of the distributed dual-tree task list.

A shallow embedding of `core/parallel/distributed_dualtree_task_list.h` and of the subtable of
`core/table/sub_table.h`: its identity, aliasing, locking, destruction, copying, and the tree
and point-range part of its `save` and `load`. It is followed by the sorted linked lists and
the column partition of `cart/training_set.h` (namespace `TrainingSet`) and by the sort policy
of `neighbor_search/sort_policies/nearest_neighbor_sort.hpp`.

Conventions of the embedding.

* A C++ `int` is an `Int`; a point count (`TreeType::count()`) is a `Nat`, it is never negative.
  In `TrainingSet`, where a sum of two indices is formed, a result outside the range of `int`
  is undefined behaviour (`is_int`).
* A `double` is a `Double`: NaN, an infinity, or a finite value given as a rational number;
  only comparisons of `double` values are used.
* A loop or recursion that is not structural takes a number of turns it may use (`fuel`);
  that it ends is proved where a result is claimed.
* An `unsigned long` is a `Nat` below `2 ^ 64`; an addition that may wrap is written `% ULONG_SIZE`.
* A pointer that may be null is an `Option` (for a tree pointer: the constructor `TreeType.null`).
* Every operation whose C++ behaviour is undefined on some input (a null dereference, an index
  outside a vector, a dereferenced `end()` iterator) returns `none` there.
-/

namespace core

/-- Number of values of an `unsigned long`. -/
def ULONG_SIZE : Nat := 2 ^ 64

namespace table

/-- A value of type `TreeType *`: the null pointer, or a node with its `begin()`, its `count()`
and its two child pointers. -/
inductive TreeType where
  | null : TreeType
  | node (begin : Int) (count : Nat) (left right : TreeType) : TreeType
  deriving DecidableEq

/-- Source: `node->begin()`; undefined on the null pointer. -/
def TreeType.begin? : TreeType → Option Int
  | .null => none
  | .node b _ _ _ => some b

/-- Source: `node->count()`; undefined on the null pointer. -/
def TreeType.count? : TreeType → Option Nat
  | .null => none
  | .node _ c _ _ => some c

/-- The part of the table object that the subtable reads: its MPI rank. -/
structure TableType where
  rank : Int
  deriving DecidableEq

/-- Source: `SubTable::PointSerializeFlagType`: a (begin, count) range of points. -/
structure PointSerializeFlagType where
  begin_ : Int
  count_ : Int
  deriving DecidableEq

/-- Source: `SubTable::SubTableIDType`, a `boost::tuple<int, int, int>`: (rank, begin, count). -/
abbrev SubTableIDType := Int × Int × Int

/-- The fields of `SubTable`. The five raw buffers (`data_`, `weights_`, `old_from_new_`,
`new_from_old_`, `tree_`) are kept as addresses, `0` being the null pointer. -/
structure SubTable where
  serialize_new_from_old_mapping_ : Bool
  cache_block_id_ : Int
  locked_mpi_rank_ : Int
  table_ : Option TableType
  start_node_ : TreeType
  data_ : Nat
  weights_ : Nat
  old_from_new_ : Nat
  new_from_old_ : Nat
  originating_rank_ : Int
  tree_ : Nat
  is_alias_ : Bool
  serialize_points_per_terminal_node_ : List PointSerializeFlagType
  deriving DecidableEq

/-- The default constructor `SubTable()`. -/
def SubTable.new : SubTable :=
  { serialize_new_from_old_mapping_ := true
    cache_block_id_ := 0
    locked_mpi_rank_ := -1
    table_ := none
    start_node_ := .null
    data_ := 0
    weights_ := 0
    old_from_new_ := 0
    new_from_old_ := 0
    originating_rank_ := -1
    tree_ := 0
    is_alias_ := true
    serialize_points_per_terminal_node_ := [] }

/-- Source: `SubTable::subtable_id`: (table rank, start node begin, start node count). It dereferences
`table_` and `start_node_`. -/
def SubTable.subtable_id (self : SubTable) : Option SubTableIDType :=
  match self.table_, self.start_node_ with
  | some t, .node b c _ _ => some (t.rank, b, (c : Int))
  | _, _ => none

/-- Source: `SubTable::Alias`: every field is taken from the incoming subtable, and the result is an
alias. -/
def SubTable.Alias (_self subtable_in : SubTable) : SubTable :=
  { serialize_new_from_old_mapping_ := subtable_in.serialize_new_from_old_mapping_
    cache_block_id_ := subtable_in.cache_block_id_
    locked_mpi_rank_ := subtable_in.locked_mpi_rank_
    originating_rank_ := subtable_in.originating_rank_
    table_ := subtable_in.table_
    start_node_ := subtable_in.start_node_
    data_ := subtable_in.data_
    weights_ := subtable_in.weights_
    old_from_new_ := subtable_in.old_from_new_
    new_from_old_ := subtable_in.new_from_old_
    tree_ := subtable_in.tree_
    is_alias_ := true
    serialize_points_per_terminal_node_ := subtable_in.serialize_points_per_terminal_node_ }

/-- Source: `SubTable::Lock`. -/
def SubTable.Lock (self : SubTable) (mpi_rank_in : Int) : SubTable :=
  { self with locked_mpi_rank_ := mpi_rank_in }

/-- Source: `SubTable::is_locked`. -/
def SubTable.is_locked (self : SubTable) : Bool :=
  decide (self.locked_mpi_rank_ ≥ 0)

end table

namespace parallel

open core.table

/-- Source: `KeyType`, the subtable ID. -/
abbrev KeyType := SubTableIDType

/-- Source: `ValueType`, a position in `sub_tables_`. -/
abbrev ValueType := Int

/-- Source: `ComparatorType::operator()`. -/
def ComparatorType (k1 k2 : KeyType) : Bool :=
  decide (k1.1 < k2.1) ||
    (decide (k1.1 = k2.1) && decide (k1.2.1 < k2.2.1)) ||
    (decide (k1.1 = k2.1) && decide (k1.2.1 = k2.2.1) && decide (k1.2.2 < k2.2.2))

/-- The key equivalence a `std::map` derives from its comparator: neither key is ordered
before the other. -/
def keyEquiv (k1 k2 : KeyType) : Bool :=
  !ComparatorType k1 k2 && !ComparatorType k2 k1

/-- Source: `MapType`, a `std::map<KeyType, ValueType, ComparatorType>`: its entries, listed in the
order of the comparator. -/
abbrev MapType := List (KeyType × ValueType)

/-- Source: `std::map::find`: the value of the entry whose key is equivalent to `k`; `none` stands for
`end()`. -/
def MapType.find : MapType → KeyType → Option ValueType
  | [], _ => none
  | (k1, v1) :: m, k => if keyEquiv k k1 then some v1 else MapType.find m k

/-- Source: `std::map::erase(key)`. -/
def MapType.erase : MapType → KeyType → MapType
  | [], _ => []
  | (k1, v1) :: m, k => if keyEquiv k k1 then MapType.erase m k else (k1, v1) :: MapType.erase m k

/-- The assignment `map[k] = v`: overwrite the entry of an equivalent key, or insert a new
entry at its place in the order. -/
def MapType.assign : MapType → KeyType → ValueType → MapType
  | [], k, v => [(k, v)]
  | (k1, v1) :: m, k, v =>
    if ComparatorType k k1 then (k, v) :: (k1, v1) :: m
    else if ComparatorType k1 k then (k1, v1) :: MapType.assign m k v
    else (k, v) :: m

/-- An element of `sub_tables_`: the subtable, whether it is referenced as a query, and the
number of times it is referenced as a reference set. -/
abbrev SlotType := SubTable × Bool × Int

/-- Source: `v[i]` for an `int` index; undefined outside the vector. -/
def vecGet? {α : Type} (v : List α) (i : Int) : Option α :=
  if i < 0 then none else v[i.toNat]?

/-- The store `v[i] = x` for an `int` index that is inside the vector. -/
def vecSet {α : Type} (v : List α) (i : Int) (x : α) : List α :=
  v.set i.toNat x

/-- The data members of `DistributedDualtreeTaskList`. The task queue the list points to is
passed to the operations that use it. -/
structure DistributedDualtreeTaskList where
  destination_rank_ : Int
  donated_task_list_ : List (Int × List Int)
  id_to_position_map_ : MapType
  remaining_extra_points_to_hold_ : Nat
  sub_tables_ : List SlotType
  deriving DecidableEq

namespace DistributedDualtreeTaskList

/-- The default constructor. -/
def new : DistributedDualtreeTaskList :=
  { destination_rank_ := 0
    donated_task_list_ := []
    id_to_position_map_ := []
    remaining_extra_points_to_hold_ := 0
    sub_tables_ := [] }

/-- Source: `Init`: sets the destination rank and the number of extra points that can be held. -/
def Init (self : DistributedDualtreeTaskList) (destination_rank_in : Int)
    (remaining_extra_points_to_hold_in : Nat) : DistributedDualtreeTaskList :=
  { self with
    destination_rank_ := destination_rank_in
    remaining_extra_points_to_hold_ := remaining_extra_points_to_hold_in }

/-- Source: `FindSubTable_`: `some position` for (true, position), `none` for (false, -1). -/
def FindSubTable_ (self : DistributedDualtreeTaskList) (subtable_id : KeyType) :
    Option ValueType :=
  self.id_to_position_map_.find subtable_id

/-- Source: `pop_`: removes the subtable with the given ID as a query or as a reference. -/
def pop_ (self : DistributedDualtreeTaskList) (subtable_id : KeyType) (count_as_query : Bool) :
    Option DistributedDualtreeTaskList :=
  if self.sub_tables_.length > 0 then
    match self.id_to_position_map_.find subtable_id with
    | none => none
    | some remove_position =>
      match vecGet? self.sub_tables_ remove_position with
      | none => none
      | some slot =>
        let slot1 : SlotType :=
          if count_as_query then (slot.1, false, slot.2.2) else (slot.1, slot.2.1, slot.2.2 - 1)
        let sub_tables1 := vecSet self.sub_tables_ remove_position slot1
        if (!slot1.2.1) && decide (slot1.2.2 = 0) then
          match sub_tables1.getLast?, slot1.1.start_node_.count?, slot1.1.subtable_id with
          | some back, some count, some removed_id =>
            match back.1.subtable_id with
            | none => none
            | some last_subtable_id =>
              let remaining := (self.remaining_extra_points_to_hold_ + count) % ULONG_SIZE
              let map1 := self.id_to_position_map_.erase removed_id
              let sub_tables2 := (vecSet sub_tables1 remove_position back).dropLast
              let map2 :=
                if sub_tables2.length > 0 then map1.assign last_subtable_id remove_position
                else map1.erase last_subtable_id
              some { self with
                id_to_position_map_ := map2
                remaining_extra_points_to_hold_ := remaining
                sub_tables_ := sub_tables2 }
          | _, _, _ => none
        else
          some { self with sub_tables_ := sub_tables1 }
  else
    some self

/-- Source: `push_back_`: the assigned position of the subtable if it can be transferred within the
limit, `-1` otherwise; together with the task list after the call. -/
def push_back_ (self : DistributedDualtreeTaskList) (test_subtable_in : SubTable)
    (count_as_query : Bool) : Option (DistributedDualtreeTaskList × Int) :=
  match test_subtable_in.subtable_id with
  | none => none
  | some subtable_id =>
    match self.FindSubTable_ subtable_id with
    | some existing_position =>
      match vecGet? self.sub_tables_ existing_position with
      | none => none
      | some slot =>
        let slot1 : SlotType :=
          if !count_as_query then (slot.1, slot.2.1, slot.2.2 + 1)
          else (slot.1.Alias test_subtable_in, true, slot.2.2)
        some ({ self with sub_tables_ := vecSet self.sub_tables_ existing_position slot1 },
          existing_position)
    | none =>
      match test_subtable_in.start_node_.count? with
      | none => none
      | some count =>
        if count ≤ self.remaining_extra_points_to_hold_ then
          let slot : SlotType :=
            if count_as_query then (SubTable.new.Alias test_subtable_in, true, 0)
            else (SubTable.new.Alias test_subtable_in, false, 1)
          let sub_tables1 := self.sub_tables_ ++ [slot]
          some ({ self with
                  sub_tables_ := sub_tables1
                  id_to_position_map_ :=
                    self.id_to_position_map_.assign subtable_id ((sub_tables1.length : Int) - 1)
                  remaining_extra_points_to_hold_ :=
                    self.remaining_extra_points_to_hold_ - count },
            (sub_tables1.length : Int) - 1)
        else
          some (self, -1)

end DistributedDualtreeTaskList

/-- Modelled from the spec: the task type `TaskType` of the priority queue is not part of the
sources at hand. A task names the reference subtable still to visit and carries its work
estimate (section 3, "TaskQueue entry"); the estimate is an `unsigned long`. -/
structure TaskType where
  reference_subtable_ : SubTable
  work_ : Nat
  deriving DecidableEq

/-- Modelled from the spec: `TaskType::reference_subtable`, the reference subtable of the task. -/
def TaskType.reference_subtable (self : TaskType) : SubTable := self.reference_subtable_

/-- Modelled from the spec: `TaskType::work`, the work estimate of the task. -/
def TaskType.work (self : TaskType) : Nat := self.work_

/-- Modelled from the spec: `DistributedDualtreeTaskQueue` is only forward-declared in the
sources at hand. Following section 4.2 it holds, for every query slot, the query subtable and
its reference tasks not yet visited, listed in the order in which `top`/`pop` deliver them
(the priority policy is external), and the rank-global counter of remaining local
computation. A query slot is locked when its query subtable is (`SubTable::is_locked`); the
queue fails a `pop` from a locked slot and a second lock of it (sections 4.2, 7 and 8). -/
structure DistributedDualtreeTaskQueue where
  query_subtables_ : List SubTable
  tasks_ : List (List TaskType)
  remaining_local_computation_ : Nat
  deriving DecidableEq

namespace DistributedDualtreeTaskQueue

/-- Modelled from the spec: `query_subtable(probe_index)`, the query subtable of a slot. -/
def query_subtable (self : DistributedDualtreeTaskQueue) (probe_index : Int) : Option SubTable :=
  vecGet? self.query_subtables_ probe_index

/-- Modelled from the spec: `size(probe_index)`, the number of reference tasks of a slot that
are not yet visited. -/
def size (self : DistributedDualtreeTaskQueue) (probe_index : Int) : Option Nat :=
  (vecGet? self.tasks_ probe_index).map List.length

/-- Modelled from the spec: `top(probe_index)`, the next task of a slot (section 4.2,
`pop_highest_priority` without the removal). -/
def top (self : DistributedDualtreeTaskQueue) (probe_index : Int) : Option TaskType :=
  (vecGet? self.tasks_ probe_index).bind List.head?

/-- Modelled from the spec: `pop(probe_index)`, removes the next task of a slot (section 4.2,
`pop_highest_priority`). The call fails when the slot does not exist, when its query
subtable is locked (sections 4.2 and 8: a pop from a locked query slot fails until it is
unlocked; section 7: a logic fault) and when the slot has no task left; `none` stands for
a failed call, after which the caller has no defined behaviour. -/
def pop (self : DistributedDualtreeTaskQueue) (probe_index : Int) :
    Option DistributedDualtreeTaskQueue :=
  match vecGet? self.query_subtables_ probe_index with
  | none => none
  | some query =>
    if query.is_locked = true then none
    else
      match vecGet? self.tasks_ probe_index with
      | some (_ :: rest) => some { self with tasks_ := vecSet self.tasks_ probe_index rest }
      | _ => none

/-- Modelled from the spec: `decrement_remaining_local_computation(amount)` (section 4.2,
`decrement_outstanding_work`), a subtraction of `unsigned long` values. -/
def decrement_remaining_local_computation (self : DistributedDualtreeTaskQueue) (amount : Nat) :
    DistributedDualtreeTaskQueue :=
  { self with
    remaining_local_computation_ :=
      (self.remaining_local_computation_ + (ULONG_SIZE - amount % ULONG_SIZE)) % ULONG_SIZE }

/-- Modelled from the spec: `LockQuerySubTable(probe_index, rank)` (section 4.2, `lock_query`):
marks the query subtable of the slot as claimed by the rank, with `SubTable::Lock`. The call
fails when the slot does not exist and when its query subtable is locked already (sections
4.2 and 8: a second lock fails until the slot is unlocked); `none` stands for a failed
call. -/
def LockQuerySubTable (self : DistributedDualtreeTaskQueue) (probe_index : Int) (rank : Int) :
    Option DistributedDualtreeTaskQueue :=
  match vecGet? self.query_subtables_ probe_index with
  | some query =>
    if query.is_locked = true then none
    else some { self with
      query_subtables_ := vecSet self.query_subtables_ probe_index (query.Lock rank) }
  | none => none

end DistributedDualtreeTaskQueue

namespace DistributedDualtreeTaskList

/-- The statement `donated_task_list_.back().second.push_back(position)`. -/
def donated_back_push (donated : List (Int × List Int)) (position : Int) :
    List (Int × List Int) :=
  match donated.getLast? with
  | some back => donated.dropLast ++ [(back.1, back.2 ++ [position])]
  | none => donated

/-- The `while` loop of `push_back`. The first argument is the list of tasks the queue holds
for the probed slot when the loop is entered, in `top` order: its head is the task `top`
returns, and each `pop` of the loop body removes it, so the loop runs once per task until an
iteration breaks. -/
def push_back_while (probe_index : Int) :
    List TaskType → DistributedDualtreeTaskList × DistributedDualtreeTaskQueue →
      Option (DistributedDualtreeTaskList × DistributedDualtreeTaskQueue)
  | [], state => some state
  | test_task :: rest, (self, queue) =>
    let stolen_local_computation := test_task.work
    match self.push_back_ test_task.reference_subtable false with
    | none => none
    | some (self1, reference_subtable_position) =>
      if reference_subtable_position < 0 then some (self1, queue)
      else
        match queue.pop probe_index with
        | none => none
        | some queue1 =>
          push_back_while probe_index rest
            ({ self1 with
                donated_task_list_ :=
                  donated_back_push self1.donated_task_list_ reference_subtable_position },
              queue1.decrement_remaining_local_computation stolen_local_computation)

/-- Source: `push_back`: tries to fit in as many tasks as possible from the query subtable of the
probed slot. Returns the task list and the queue after the call and the Boolean result. -/
def push_back (self : DistributedDualtreeTaskList) (queue : DistributedDualtreeTaskQueue)
    (probe_index : Int) :
    Option (DistributedDualtreeTaskList × DistributedDualtreeTaskQueue × Bool) :=
  match queue.query_subtable probe_index with
  | none => none
  | some query_subtable =>
    match self.push_back_ query_subtable true with
    | none => none
    | some (self1, query_subtable_position) =>
      if query_subtable_position < 0 then some (self1, queue, false)
      else
        let self2 := { self1 with
          donated_task_list_ := self1.donated_task_list_ ++ [(query_subtable_position, [])] }
        match vecGet? queue.tasks_ probe_index with
        | none => none
        | some tasks =>
          match push_back_while probe_index tasks (self2, queue) with
          | none => none
          | some (self3, queue3) =>
            match self3.donated_task_list_.getLast?, query_subtable.subtable_id with
            | some back, some query_id =>
              if back.2.length = 0 then
                match self3.pop_ query_id true with
                | none => none
                | some self4 =>
                  some ({ self4 with donated_task_list_ := self4.donated_task_list_.dropLast },
                    queue3, false)
              else
                match queue3.LockQuerySubTable probe_index self3.destination_rank_ with
                | none => none
                | some queue4 => some (self3, queue4, true)
            | _, _ => none

/-- The sum of `start_node()->count()` over the subtables held in `sub_tables_`. -/
def held_points (self : DistributedDualtreeTaskList) : Nat :=
  (self.sub_tables_.map (fun slot : SlotType => (slot.1.start_node_.count?).getD 0)).sum

/-- Whether some element of `sub_tables_` holds a subtable with the given ID. -/
def resident (self : DistributedDualtreeTaskList) (subtable_id : KeyType) : Bool :=
  self.sub_tables_.any (fun slot : SlotType => decide (slot.1.subtable_id = some subtable_id))

/-- A call of one of the two private cache operations, with its arguments. -/
inductive CacheCall where
  | push (test_subtable_in : SubTable) (count_as_query : Bool) : CacheCall
  | pop (subtable_id : KeyType) (count_as_query : Bool) : CacheCall
  deriving DecidableEq

/-- Runs a sequence of `push_back_` and `pop_` calls. Every `pop_` must name a resident ID;
the run is `none` if one does not, or if a call has undefined behaviour. -/
def run_cache_calls : DistributedDualtreeTaskList → List CacheCall →
    Option DistributedDualtreeTaskList
  | self, [] => some self
  | self, .push t q :: rest =>
    match self.push_back_ t q with
    | none => none
    | some (self1, _) => run_cache_calls self1 rest
  | self, .pop id q :: rest =>
    if self.resident id then
      match self.pop_ id q with
      | none => none
      | some self1 => run_cache_calls self1 rest
    else none

/-- Runs a sequence of `push_back_` calls, each given by its subtable and its role. -/
def run_push_back_ : DistributedDualtreeTaskList → List (SubTable × Bool) →
    Option DistributedDualtreeTaskList
  | self, [] => some self
  | self, (t, q) :: rest =>
    match self.push_back_ t q with
    | none => none
    | some (self1, _) => run_push_back_ self1 rest

/-- Runs a sequence of `push_back` calls on the same queue, each given by its probe index. -/
def run_push_back : DistributedDualtreeTaskList × DistributedDualtreeTaskQueue → List Int →
    Option (DistributedDualtreeTaskList × DistributedDualtreeTaskQueue)
  | state, [] => some state
  | (self, queue), probe_index :: rest =>
    match self.push_back queue probe_index with
    | none => none
    | some (self1, queue1, _) => run_push_back (self1, queue1) rest

/-- Whether the reference subtables of the given tasks are all taken in, one after another,
by `push_back_` as references. -/
def fits_all : DistributedDualtreeTaskList → List TaskType → Bool
  | _, [] => true
  | self, t :: rest =>
    match self.push_back_ t.reference_subtable false with
    | some (self1, position) => decide (0 ≤ position) && fits_all self1 rest
    | none => false

/-- The task list after `push_back_` has taken in, as references, the reference subtables of
the given tasks one after another. -/
def push_all : DistributedDualtreeTaskList → List TaskType → Option DistributedDualtreeTaskList
  | self, [] => some self
  | self, t :: rest =>
    match self.push_back_ t.reference_subtable false with
    | some (self1, _) => push_all self1 rest
    | none => none

/-- The map and the vector agree: an ID the map sends to a position is the ID of the subtable
stored at that position, and every stored subtable is found under its ID at its own
position. -/
def Consistent (self : DistributedDualtreeTaskList) : Prop :=
  (∀ (id : KeyType) (p : Int), self.FindSubTable_ id = some p →
      ∃ slot : SlotType, vecGet? self.sub_tables_ p = some slot ∧ slot.1.subtable_id = some id) ∧
  (∀ (i : Nat) (slot : SlotType), self.sub_tables_[i]? = some slot →
      ∃ id : KeyType, slot.1.subtable_id = some id ∧ self.FindSubTable_ id = some (i : Int))

/-- A subtable of the given rank whose start node is a leaf with the given begin and count;
the other fields are those of the default constructor. -/
def leaf_subtable (rank begin : Int) (count : Nat) : SubTable :=
  { SubTable.new with
    table_ := some { rank := rank }
    start_node_ := .node begin count .null .null }

/-- The three reference tasks of the example scenario of the specification: reference
subtables of 30, 50 and 10 points, in that priority order. -/
def example_tasks : List TaskType :=
  [{ reference_subtable_ := leaf_subtable 0 40 30, work_ := 1200 },
   { reference_subtable_ := leaf_subtable 0 70 50, work_ := 2000 },
   { reference_subtable_ := leaf_subtable 0 120 10, work_ := 400 }]

/-- The queue of the example scenario of the specification: one query subtable of 40 points
with the three reference tasks. -/
def example_queue : DistributedDualtreeTaskQueue :=
  { query_subtables_ := [leaf_subtable 0 0 40]
    tasks_ := [example_tasks]
    remaining_local_computation_ := 5000 }

/-- The task list of the example scenario once the query subtable has been taken in. -/
def example_after_query : DistributedDualtreeTaskList :=
  { destination_rank_ := 1
    donated_task_list_ := []
    id_to_position_map_ := [((0, 0, 40), 0)]
    remaining_extra_points_to_hold_ := 60
    sub_tables_ := [(SubTable.new.Alias (leaf_subtable 0 0 40), true, 0)] }

/-- The task list the example scenario ends with. -/
def example_bundle : DistributedDualtreeTaskList :=
  { destination_rank_ := 1
    donated_task_list_ := [(0, [1])]
    id_to_position_map_ := [((0, 0, 40), 0), ((0, 40, 30), 1)]
    remaining_extra_points_to_hold_ := 30
    sub_tables_ := [(SubTable.new.Alias (leaf_subtable 0 0 40), true, 0),
                    (SubTable.new.Alias (leaf_subtable 0 40 30), false, 1)] }

/-- The queue the example scenario ends with: the first task popped, its work taken off the
remaining local computation, the query subtable locked for rank 1. -/
def example_queue_after : DistributedDualtreeTaskQueue :=
  { query_subtables_ := [(leaf_subtable 0 0 40).Lock 1]
    tasks_ := [example_tasks.drop 1]
    remaining_local_computation_ := 3800 }

/-- A queue with two query subtables: the first, of 40 points, has one reference task of 30
points; the second, of 5 points, has one reference task of 50 points. -/
def two_query_queue : DistributedDualtreeTaskQueue :=
  { query_subtables_ := [leaf_subtable 0 0 40, leaf_subtable 0 200 5]
    tasks_ := [[{ reference_subtable_ := leaf_subtable 0 40 30, work_ := 1200 }],
               [{ reference_subtable_ := leaf_subtable 0 70 50, work_ := 250 }]]
    remaining_local_computation_ := 5000 }

/-- The slot after the first step of `pop_`: the query flag cleared (as a query) or the
reference count lowered by one (as a reference). -/
def released_slot (slot : SlotType) (count_as_query : Bool) : SlotType :=
  if count_as_query then (slot.1, false, slot.2.2) else (slot.1, slot.2.1, slot.2.2 - 1)

/-- Runs a sequence of `push_back_` and `pop_` calls; the run is `none` if a call has
undefined behaviour. -/
def run_cache_ops : DistributedDualtreeTaskList → List CacheCall →
    Option DistributedDualtreeTaskList
  | self, [] => some self
  | self, .push t q :: rest =>
    match self.push_back_ t q with
    | none => none
    | some (self1, _) => run_cache_ops self1 rest
  | self, .pop id q :: rest =>
    match self.pop_ id q with
    | none => none
    | some self1 => run_cache_ops self1 rest

/-- Whether every `pop_` of the sequence matches an earlier `push_back_` of the same ID in
the same role that no `pop_` in between has matched. The first argument lists the
`push_back_` calls not yet matched. -/
def releases_matched : List (KeyType × Bool) → List CacheCall → Bool
  | _, [] => true
  | held, .push t q :: rest =>
    match t.subtable_id with
    | some id => releases_matched ((id, q) :: held) rest
    | none => false
  | held, .pop id q :: rest =>
    if (id, q) ∈ held then releases_matched (held.erase (id, q)) rest else false

/-- A queue with three query subtables: the first, of 40 points, has one reference task of 30
points; the second, of 5 points, has one reference task of 50 points; the third, of 10
points, has one reference task whose reference subtable is the second query subtable. -/
def three_query_queue : DistributedDualtreeTaskQueue :=
  { query_subtables_ := [leaf_subtable 0 0 40, leaf_subtable 0 200 5, leaf_subtable 0 300 10]
    tasks_ := [[{ reference_subtable_ := leaf_subtable 0 40 30, work_ := 1200 }],
               [{ reference_subtable_ := leaf_subtable 0 70 50, work_ := 250 }],
               [{ reference_subtable_ := leaf_subtable 0 200 5, work_ := 50 }]]
    remaining_local_computation_ := 5000 }

/-- A queue with three query subtables: the first, of 40 points, has one reference task of 30
points; the second, of 20 points, has one reference task of 50 points; the third, of 10
points, has one reference task of 15 points. All subtables are distinct. -/
def stale_query_queue : DistributedDualtreeTaskQueue :=
  { query_subtables_ := [leaf_subtable 0 0 40, leaf_subtable 0 200 20, leaf_subtable 0 300 10]
    tasks_ := [[{ reference_subtable_ := leaf_subtable 0 40 30, work_ := 1200 }],
               [{ reference_subtable_ := leaf_subtable 0 70 50, work_ := 1000 }],
               [{ reference_subtable_ := leaf_subtable 0 400 15, work_ := 150 }]]
    remaining_local_computation_ := 5000 }

end DistributedDualtreeTaskList

/-- Modelled from the spec: the receiving side of `DistributedDualtreeTaskQueue` as `Export`
uses it, which is not part of the sources at hand (section 4.4, import, and section 2: every
imported fragment receives a fresh local cache slot). It consists of the subtable cache,
whose entries carry the reference count they were pushed with, and of the queue proper. -/
structure ReceivingQueue where
  subtable_cache_ : List (SubTable × Int)
  queue_ : DistributedDualtreeTaskQueue
  deriving DecidableEq

namespace ReceivingQueue

/-- Modelled from the spec: `push_subtable(subtable, count)` hands the subtable to the cache,
where it receives a fresh slot, and returns the cache block id of that slot. -/
def push_subtable (self : ReceivingQueue) (subtable : SubTable) (count : Int) :
    ReceivingQueue × Int :=
  ({ self with subtable_cache_ := self.subtable_cache_ ++ [(subtable, count)] },
    (self.subtable_cache_.length : Int))

/-- Modelled from the spec: `FindSubTable(cache_id)`, the subtable in the given cache slot. -/
def FindSubTable (self : ReceivingQueue) (cache_id : Int) : Option SubTable :=
  (vecGet? self.subtable_cache_ cache_id).map Prod.fst

/-- Modelled from the spec: `PushNewQueue(source_rank, query_subtable)` creates a brand-new
queue entry, without tasks, for the query subtable, tagged with the sending rank as its
point of origin, and returns the position of the entry. -/
def PushNewQueue (self : ReceivingQueue) (source_rank : Int) (query_subtable : SubTable) :
    ReceivingQueue × Int :=
  ({ self with
      queue_ := { self.queue_ with
        query_subtables_ := self.queue_.query_subtables_ ++
          [{ query_subtable with originating_rank_ := source_rank }]
        tasks_ := self.queue_.tasks_ ++ [[]] } },
    (self.queue_.query_subtables_.length : Int))

/-- Modelled from the spec: `PushTask(world, metric, position, reference_subtable)` pushes a
new task, on the given reference subtable, into the queue entry at the position. Its work
estimate is a function `work` of the query and the reference subtable, which stands for the
metric. -/
def PushTask (work : SubTable → SubTable → Nat) (self : ReceivingQueue) (position : Int)
    (reference_subtable : SubTable) : Option ReceivingQueue :=
  match vecGet? self.queue_.query_subtables_ position, vecGet? self.queue_.tasks_ position with
  | some query, some tasks =>
    some { self with
      queue_ := { self.queue_ with
        tasks_ := vecSet self.queue_.tasks_ position
          (tasks ++ [{ reference_subtable_ := reference_subtable
                       work_ := work query reference_subtable }]) } }
  | _, _ => none

end ReceivingQueue

namespace DistributedDualtreeTaskList

/-- The first loop of `Export`: every subtable is pushed, with its reference count, into the
receiving queue, and the cache block id it is assigned is recorded. -/
def Export_subtables : List SlotType → ReceivingQueue × List Int → ReceivingQueue × List Int
  | [], state => state
  | slot :: rest, (dest, assigned_cache_indices) =>
    Export_subtables rest
      ((dest.push_subtable slot.1 slot.2.2).1,
        assigned_cache_indices ++ [(dest.push_subtable slot.1 slot.2.2).2])

/-- The inner loop of `Export`: one task per reference position of a donated entry. -/
def Export_tasks (work : SubTable → SubTable → Nat) (assigned_cache_indices : List Int)
    (new_position : Int) : List Int → ReceivingQueue → Option ReceivingQueue
  | [], dest => some dest
  | reference_subtable_position :: rest, dest =>
    match vecGet? assigned_cache_indices reference_subtable_position with
    | none => none
    | some cache_id =>
      match dest.FindSubTable cache_id with
      | none => none
      | some reference_subtable_in_cache =>
        match dest.PushTask work new_position reference_subtable_in_cache with
        | none => none
        | some dest1 => Export_tasks work assigned_cache_indices new_position rest dest1

/-- The second loop of `Export`: one new queue per donated entry, filled by the inner loop. -/
def Export_queues (work : SubTable → SubTable → Nat) (source_rank_in : Int)
    (assigned_cache_indices : List Int) :
    List (Int × List Int) → ReceivingQueue → Option ReceivingQueue
  | [], dest => some dest
  | entry :: rest, dest =>
    match vecGet? assigned_cache_indices entry.1 with
    | none => none
    | some cache_id =>
      match dest.FindSubTable cache_id with
      | none => none
      | some query_subtable_in_cache =>
        match Export_tasks work assigned_cache_indices
            (dest.PushNewQueue source_rank_in query_subtable_in_cache).2 entry.2
            (dest.PushNewQueue source_rank_in query_subtable_in_cache).1 with
        | none => none
        | some dest1 => Export_queues work source_rank_in assigned_cache_indices rest dest1

/-- Source: `Export`, which exports the task list to the receiving queue. -/
def Export (self : DistributedDualtreeTaskList) (work : SubTable → SubTable → Nat)
    (source_rank_in : Int) (dest : ReceivingQueue) : Option ReceivingQueue :=
  Export_queues work source_rank_in (Export_subtables self.sub_tables_ (dest, [])).2
    self.donated_task_list_ (Export_subtables self.sub_tables_ (dest, [])).1

/-- The tasks a queue holds, each as the pair of the ID of its query subtable and the ID of
its reference subtable. -/
def task_identities (queue : DistributedDualtreeTaskQueue) :
    List (Option KeyType × Option KeyType) :=
  (queue.query_subtables_.zip queue.tasks_).flatMap
    (fun entry => entry.2.map
      (fun task : TaskType => (entry.1.subtable_id, task.reference_subtable.subtable_id)))

/-- The tasks that were popped between two states of a queue, each as the pair of the ID of
its query subtable and the ID of its reference subtable, with its work estimate. -/
def popped_tasks (before after : DistributedDualtreeTaskQueue) :
    List ((Option KeyType × Option KeyType) × Nat) :=
  ((before.query_subtables_.zip before.tasks_).zip after.tasks_).flatMap
    (fun entry => (entry.1.2.take (entry.1.2.length - entry.2.length)).map
      (fun task : TaskType =>
        ((entry.1.1.subtable_id, task.reference_subtable.subtable_id), task.work)))

/-- A work estimate that is a function of the pair of subtables: the product of their point
counts. -/
def point_product (query reference : SubTable) : Nat :=
  (query.start_node_.count?).getD 0 * (reference.start_node_.count?).getD 0

/-- An item of a serialization archive, as the task list writes and reads it: an `int`, or
the block that `ar & subtable` writes for a subtable. The block is kept as the subtable that
was written. -/
inductive ArchiveItem where
  | int (value : Int) : ArchiveItem
  | subtable (value : SubTable) : ArchiveItem
  deriving DecidableEq

/-- The first loop of `save`: for every slot, the subtable and its reference count. -/
def save_sub_tables : List SlotType → List ArchiveItem
  | [] => []
  | slot :: rest => .subtable slot.1 :: .int slot.2.2 :: save_sub_tables rest

/-- The second loop of `save`: for every donated entry, the query position, the number of
reference positions and the reference positions. -/
def save_donated : List (Int × List Int) → List ArchiveItem
  | [] => []
  | entry :: rest =>
    .int entry.1 :: .int (entry.2.length : Int) ::
      (entry.2.map ArchiveItem.int ++ save_donated rest)

/-- Source: `save`, as the archive items written for the task list. -/
def save (self : DistributedDualtreeTaskList) : List ArchiveItem :=
  .int (self.sub_tables_.length : Int) ::
    (if self.sub_tables_.length > 0 then
      save_sub_tables self.sub_tables_ ++
        (.int (self.donated_task_list_.length : Int) :: save_donated self.donated_task_list_)
    else [])

/-- The first loop of `load`, for the positions from `i` on, `n` of them. The vector has been
resized, which keeps the query flag of a slot that existed before and gives false to a new
one; the subtable of the slot is replaced and its reference count is read. The function
`load_subtable` stands for `new SubTableType()`, `Init(i, false)` and `ar & subtable`: it
gives the subtable that position `i` holds after reading the block of a written subtable. -/
def load_sub_tables (load_subtable : Int → SubTable → SubTable) (old : List SlotType) :
    Nat → Nat → List ArchiveItem → Option (List SlotType × List ArchiveItem)
  | 0, _, ar => some ([], ar)
  | n + 1, i, .subtable written :: .int count :: ar =>
    match load_sub_tables load_subtable old n (i + 1) ar with
    | some (slots, ar1) =>
      some ((load_subtable (i : Int) written,
          (match old[i]? with
            | some slot => slot.2.1
            | none => false), count) :: slots, ar1)
    | none => none
  | _ + 1, _, _ => none

/-- The innermost loop of `load`: `n` reference positions. -/
def load_sublist : Nat → List ArchiveItem → Option (List Int × List ArchiveItem)
  | 0, ar => some ([], ar)
  | n + 1, .int value :: ar =>
    match load_sublist n ar with
    | some (values, ar1) => some (value :: values, ar1)
    | none => none
  | _ + 1, _ => none

/-- The second loop of `load`: `n` donated entries. A negative list size cannot be resized
to. -/
def load_donated : Nat → List ArchiveItem → Option (List (Int × List Int) × List ArchiveItem)
  | 0, ar => some ([], ar)
  | n + 1, .int first :: .int sublist_size :: ar =>
    if sublist_size < 0 then none
    else
      match load_sublist sublist_size.toNat ar with
      | some (second, ar1) =>
        match load_donated n ar1 with
        | some (entries, ar2) => some ((first, second) :: entries, ar2)
        | none => none
      | none => none
  | _ + 1, _ => none

/-- Source: `load`, which reads the task list from the archive; returns the task list and the rest of the
archive. -/
def load (load_subtable : Int → SubTable → SubTable) (self : DistributedDualtreeTaskList)
    (ar : List ArchiveItem) : Option (DistributedDualtreeTaskList × List ArchiveItem) :=
  match ar with
  | .int num_subtables :: ar1 =>
    if num_subtables > 0 then
      match load_sub_tables load_subtable self.sub_tables_ num_subtables.toNat 0 ar1 with
      | some (slots, .int num_donated_lists :: ar2) =>
        if num_donated_lists < 0 then none
        else
          match load_donated num_donated_lists.toNat ar2 with
          | some (entries, ar3) =>
            some ({ self with sub_tables_ := slots, donated_task_list_ := entries }, ar3)
          | none => none
      | _ => none
    else some (self, ar1)
  | _ => none

end DistributedDualtreeTaskList

end parallel

end core

namespace core

namespace table

/-- Source: `SubTable::Destruct`, the manual destruction. The second component tells whether
the call released the table (`DestroyPtr(table_)` or `delete table_`). -/
def SubTable.Destruct (self : SubTable) : SubTable × Bool :=
  ({ self with is_alias_ := true, table_ := none },
    decide (self.is_alias_ = false) && self.table_.isSome)

/-- The destructor `SubTable::~SubTable`: whether it releases the table. -/
def SubTable.destructor (self : SubTable) : Bool :=
  decide (self.is_alias_ = false) && self.table_.isSome

end table

end core

namespace core

namespace parallel

open core.table

namespace DistributedDualtreeTaskList

/-- Source: `ReleaseCache`. For every slot, in order, the queue is asked to release the cache
block of the subtable by the reference count of the slot. The operation
`ReleaseCache(world, cache_block_id, count)` of the queue, which is not part of the sources
at hand, is the parameter `queue_ReleaseCache`, acting on a queue state of any type. -/
def ReleaseCache {Q : Type} (self : DistributedDualtreeTaskList)
    (queue_ReleaseCache : Q → Int → Int → Q) (queue : Q) : Q :=
  self.sub_tables_.foldl
    (fun q (slot : SlotType) => queue_ReleaseCache q slot.1.cache_block_id_ slot.2.2) queue

/-- Modelled from the spec: the release operation of the donor queue (section 4.5): the
reference count of the named cache block is decremented by the given amount. The cache is
given by the reference count of every cache block id. -/
def release_cache_block (cache : Int → Int) (cache_block_id count : Int) : Int → Int :=
  fun id => if id = cache_block_id then cache id - count else cache id

/-- A queue operation that only records the release it is asked for. -/
def record_release (calls : List (Int × Int)) (cache_block_id count : Int) : List (Int × Int) :=
  calls ++ [(cache_block_id, count)]

/-- The sum of the reference counts that the slots of the task list record for a cache
block id. -/
def claimed (self : DistributedDualtreeTaskList) (cache_block_id : Int) : Int :=
  ((self.sub_tables_.filter
    (fun slot : SlotType => decide (slot.1.cache_block_id_ = cache_block_id))).map
    (fun slot : SlotType => slot.2.2)).sum

end DistributedDualtreeTaskList

end parallel

end core

namespace core

namespace parallel

open core.table

namespace DistributedDualtreeTaskList

/-- The subtable stored at a position of a vector of slots (the default subtable outside the
vector). -/
def subtable_at (slots : List SlotType) (position : Int) : SubTable :=
  ((vecGet? slots position).map Prod.fst).getD SubTable.new

/-- The query subtable of a new queue: the given subtable tagged with the sending rank. -/
def tagged_query (source_rank_in : Int) (query_subtable : SubTable) : SubTable :=
  { query_subtable with originating_rank_ := source_rank_in }

end DistributedDualtreeTaskList

end parallel

end core

namespace core

namespace table

open core.parallel

/-- Modelled from the spec: the tree class is not part of the sources. The call
`node->is_leaf()` holds of a node without children. -/
def TreeType.is_leaf : TreeType → Bool
  | .node _ _ .null .null => true
  | _ => false

/-- The number of nodes of the tree under a pointer. -/
def TreeType.size : TreeType → Nat
  | .null => 0
  | .node _ _ left right => 1 + left.size + right.size

/-- The trees of the round-trip claim: a leaf, or a node with a left child that starts at
the begin index of the node and a right child that starts at a strictly larger begin index,
both children being such trees. -/
def TreeType.binary_shape : TreeType → Bool
  | .null => false
  | .node b _ left right =>
    (decide (left = .null) && decide (right = .null)) ||
      (decide (left.begin? = some b) &&
        (match right.begin? with
         | some right_begin => decide (b < right_begin)
         | none => false) &&
        left.binary_shape && right.binary_shape)

/-- Source: `SubTable::FillTreeNodes_`. The two vectors it appends to are passed as a pair
(`sorted_nodes`, `serialize_points_per_terminal_node_in`); `level` is not read. -/
def SubTable.FillTreeNodes_ :
    TreeType → Int → List (TreeType × Int) × List PointSerializeFlagType → Bool →
      List (TreeType × Int) × List PointSerializeFlagType
  | .null, _, state, _ => state
  | .node b c left right, parent_node_index, state, add_serialize_points_per_terminal_node =>
    let ranges :=
      if parent_node_index < 0 ∧ add_serialize_points_per_terminal_node = true then
        state.2 ++ [{ begin_ := b, count_ := (c : Int) }]
      else state.2
    let sorted_nodes := state.1 ++ [(.node b c left right, parent_node_index)]
    if (TreeType.node b c left right).is_leaf = false then
      SubTable.FillTreeNodes_ right ((sorted_nodes.length : Int) - 1)
        (SubTable.FillTreeNodes_ left ((sorted_nodes.length : Int) - 1)
          (sorted_nodes, ranges) add_serialize_points_per_terminal_node)
        add_serialize_points_per_terminal_node
    else (sorted_nodes, ranges)

/-- Source: `SubTable::set_start_node`; it dereferences the incoming pointer. -/
def SubTable.set_start_node (self : SubTable) (start_node_in : TreeType) : Option SubTable :=
  match start_node_in with
  | .null => none
  | .node b c left right =>
    some { self with
      start_node_ := .node b c left right
      serialize_points_per_terminal_node_ := [{ begin_ := b, count_ := (c : Int) }] }

/-- What `SubTable::save` writes, up to the data blocks: the rank, the list of the tree nodes
with their parent indices, the list of point ranges and the flag of the new-from-old
mapping. Modelled from the spec: of a tree node (`ar & *node`, in the tree class, which is
not part of the sources) the archive holds the shape, here its begin index and its count,
and no child pointer. The data, the weights and the index mappings, which go through
classes outside the sources, are not modelled; the buffer pointers they go through are
taken to be valid. -/
structure SubTableArchive where
  rank : Int
  tree_nodes : List ((Int × Nat) × Int)
  serialize_points_per_terminal_node : List PointSerializeFlagType
  serialize_new_from_old_mapping : Bool
  deriving DecidableEq

/-- Source: `SubTable::save`. It dereferences `table_`; through the `const_cast` it appends to the
range list of the subtable it is called on, so the subtable after the call is returned with
what was written. -/
def SubTable.save (self : SubTable) : Option (SubTable × SubTableArchive) :=
  match self.table_ with
  | none => none
  | some table =>
    let filled := SubTable.FillTreeNodes_ self.start_node_ (-1)
      ([], self.serialize_points_per_terminal_node_) self.is_alias_
    some ({ self with serialize_points_per_terminal_node_ := filled.2 },
      { rank := table.rank
        tree_nodes := filled.1.map
          (fun entry => ((entry.1.begin?.getD 0, entry.1.count?.getD 0), entry.2))
        serialize_points_per_terminal_node := filled.2
        serialize_new_from_old_mapping := self.serialize_new_from_old_mapping_ })

/-- A tree node constructed by `SubTable::load`. Its child pointers can only point to nodes of
the vector `tree_nodes` of the same call, so a non-null child pointer is given as the index
of its target in that vector. -/
structure LoadedNode where
  begin_ : Int
  count_ : Nat
  left_ : Option Nat
  right_ : Option Nat
  deriving DecidableEq

/-- First loop of `SubTable::load`: one new node per archived node, with the archived parent
index. Modelled from the spec: a new node has no child. -/
def SubTable.load_tree_nodes (archived : List ((Int × Nat) × Int)) : List (LoadedNode × Int) :=
  archived.map (fun entry =>
    ({ begin_ := entry.1.1, count_ := entry.1.2, left_ := none, right_ := none }, entry.2))

/-- One turn of the pointer-correction loop of `SubTable::load`, for the node at index `i`.
Modelled from the spec: `set_left_child` and `set_right_child` store the child pointer. -/
def SubTable.load_pointer_correction (tree_nodes : List (LoadedNode × Int)) (i : Nat) :
    Option (List (LoadedNode × Int)) :=
  match tree_nodes[i]? with
  | none => none
  | some child =>
    match vecGet? tree_nodes child.2 with
    | none => none
    | some parent =>
      if parent.1.begin_ = child.1.begin_ then
        some (vecSet tree_nodes child.2 ({ parent.1 with left_ := some i }, parent.2))
      else
        some (vecSet tree_nodes child.2 ({ parent.1 with right_ := some i }, parent.2))

/-- The pointer-correction loop of `SubTable::load`, over the indices it has yet to visit. -/
def SubTable.load_pointer_corrections :
    List Nat → List (LoadedNode × Int) → Option (List (LoadedNode × Int))
  | [], tree_nodes => some tree_nodes
  | i :: rest, tree_nodes =>
    match SubTable.load_pointer_correction tree_nodes i with
    | none => none
    | some tree_nodes1 => SubTable.load_pointer_corrections rest tree_nodes1

/-- The tree part of `SubTable::load`: the nodes are constructed, the child pointers are
corrected for `i = 1, ..., size - 1`, and element 0 is read. -/
def SubTable.load_tree (archived : List ((Int × Nat) × Int)) :
    Option (List (LoadedNode × Int)) :=
  match SubTable.load_pointer_corrections (List.range' 1 (archived.length - 1))
      (SubTable.load_tree_nodes archived) with
  | none => none
  | some tree_nodes =>
    match tree_nodes[0]? with
    | none => none
    | some _ => some tree_nodes

/-- The tree that a child pointer of a loaded node points to, followed through at most
`depth` nodes. -/
def LoadedNode.tree (tree_nodes : List (LoadedNode × Int)) : Nat → Option Nat → TreeType
  | 0, _ => .null
  | _ + 1, none => .null
  | depth + 1, some i =>
    match tree_nodes[i]? with
    | none => .null
    | some node =>
      .node node.1.begin_ node.1.count_
        (LoadedNode.tree tree_nodes depth node.1.left_)
        (LoadedNode.tree tree_nodes depth node.1.right_)

/-- Source: `SubTable::load`. It dereferences `table_`. The loaded nodes are returned with the
subtable, whose start node is the tree under element 0, followed to the depth of the number
of nodes. -/
def SubTable.load (self : SubTable) (ar : SubTableArchive) :
    Option (SubTable × List (LoadedNode × Int)) :=
  match self.table_ with
  | none => none
  | some table =>
    match SubTable.load_tree ar.tree_nodes with
    | none => none
    | some tree_nodes =>
      some ({ self with
          table_ := some { table with rank := ar.rank }
          start_node_ := LoadedNode.tree tree_nodes tree_nodes.length (some 0)
          serialize_points_per_terminal_node_ := ar.serialize_points_per_terminal_node
          serialize_new_from_old_mapping_ := ar.serialize_new_from_old_mapping },
        tree_nodes)

/-- The list `FillTreeNodes_` appends for a tree whose root gets the index `position` and the
parent index `parent_node_index`. -/
def sorted_nodes_of : TreeType → Int → Nat → List (TreeType × Int)
  | .null, _, _ => []
  | .node b c left right, parent_node_index, position =>
    (.node b c left right, parent_node_index) ::
      (sorted_nodes_of left (position : Int) (position + 1) ++
        sorted_nodes_of right (position : Int) (position + 1 + left.size))

/-- The nodes `SubTable::load` constructs for a tree whose root has the index `position`, before
the child pointers are corrected. -/
def fresh_nodes_of : TreeType → Int → Nat → List (LoadedNode × Int)
  | .null, _, _ => []
  | .node b c left right, parent_node_index, position =>
    ({ begin_ := b, count_ := c, left_ := none, right_ := none }, parent_node_index) ::
      (fresh_nodes_of left (position : Int) (position + 1) ++
        fresh_nodes_of right (position : Int) (position + 1 + left.size))

/-- The point range of the node under a pointer, as a list: empty for the null pointer. -/
def root_range : TreeType → List PointSerializeFlagType
  | .null => []
  | .node b c _ _ => [{ begin_ := b, count_ := (c : Int) }]

/-- What the archive and the loaded nodes have in common: begin index, count and parent
index of every node. -/
def archived_of (tree_nodes : List (LoadedNode × Int)) : List ((Int × Nat) × Int) :=
  tree_nodes.map (fun entry => ((entry.1.begin_, entry.1.count_), entry.2))

/-- The loaded nodes of a tree whose root has the index `position`, with the child pointers
of the tree. -/
def linked_nodes_of : TreeType → Int → Nat → List (LoadedNode × Int)
  | .null, _, _ => []
  | .node b c left right, parent_node_index, position =>
    ({ begin_ := b, count_ := c
       left_ := if left = .null then none else some (position + 1)
       right_ := if right = .null then none else some (position + 1 + left.size) },
      parent_node_index) ::
      (linked_nodes_of left (position : Int) (position + 1) ++
        linked_nodes_of right (position : Int) (position + 1 + left.size))

/-- A subtable of rank 0 over a root of four points with two leaves of two points. -/
def small_subtable : SubTable :=
  { SubTable.new with
    table_ := some { rank := 0 }
    start_node_ := .node 0 4 (.node 0 2 .null .null) (.node 2 2 .null .null) }

end table

end core

namespace core

namespace table

/-- Source: `SubTable::operator=`, which steals the ownership of the incoming subtable. The
assignment writes every field of the receiver and, through the `const_cast`, the alias flag
of the incoming subtable; both subtables after the call are returned, the receiver first.
The two subtables are different objects. -/
def SubTable.assign (_self subtable_in : SubTable) : SubTable × SubTable :=
  ({ serialize_new_from_old_mapping_ := subtable_in.serialize_new_from_old_mapping_
     cache_block_id_ := subtable_in.cache_block_id_
     locked_mpi_rank_ := subtable_in.locked_mpi_rank_
     originating_rank_ := subtable_in.originating_rank_
     table_ := subtable_in.table_
     start_node_ := subtable_in.start_node_
     data_ := subtable_in.data_
     weights_ := subtable_in.weights_
     old_from_new_ := subtable_in.old_from_new_
     new_from_old_ := subtable_in.new_from_old_
     tree_ := subtable_in.tree_
     is_alias_ := subtable_in.is_alias_
     serialize_points_per_terminal_node_ := subtable_in.serialize_points_per_terminal_node_ },
   { subtable_in with is_alias_ := true })

/-- The copy constructor `SubTable(const SubTable &)`: the assignment to the object under
construction, none of whose fields is read. -/
def SubTable.copy (subtable_in : SubTable) : SubTable × SubTable :=
  SubTable.assign SubTable.new subtable_in

/-- The nodes under a pointer in pre-order: the node, then its left subtree, then its right
subtree. -/
def TreeType.preorder : TreeType → List TreeType
  | .null => []
  | .node b c left right =>
    .node b c left right :: (left.preorder ++ right.preorder)

/-- Whether the second pointer is a child pointer of the node under the first. -/
def TreeType.has_child : TreeType → TreeType → Bool
  | .null, _ => false
  | .node _ _ left right, child => decide (child = left) || decide (child = right)

end table

namespace parallel

open core.table

namespace DistributedDualtreeTaskList

/-- The number of occurrences of a position in the reference lists of
`donated_task_list_`. -/
def reference_occurrences (self : DistributedDualtreeTaskList) (position : Int) : Nat :=
  (self.donated_task_list_.map (fun entry => entry.2.count position)).sum

/-- Whether a position is the query position of an entry of `donated_task_list_`. -/
def is_query_position (self : DistributedDualtreeTaskList) (position : Int) : Bool :=
  self.donated_task_list_.any (fun entry => decide (entry.1 = position))

/-- Whether the slot at a position mirrors the task list: its reference count is the number
of occurrences of the position in the reference lists and its query flag tells whether the
position is a query position. -/
def slot_mirrors (self : DistributedDualtreeTaskList) (position : Nat) : Bool :=
  match self.sub_tables_[position]? with
  | none => false
  | some slot =>
    decide (slot.2.2 = (self.reference_occurrences (position : Int) : Int)) &&
      (slot.2.1 == self.is_query_position (position : Int))

/-- Whether every slot mirrors the task list. -/
def role_mirrors (self : DistributedDualtreeTaskList) : Bool :=
  (List.range self.sub_tables_.length).all self.slot_mirrors

end DistributedDualtreeTaskList

end parallel

end core

/-- A value of type `double`: not-a-number, an infinity, or a finite value, given as a
rational number (every finite `double` is one). -/
inductive Double where
  | nan : Double
  | neg_inf : Double
  | finite (x : ℚ) : Double
  | pos_inf : Double
  deriving DecidableEq

/-- The comparison `a < b` of two `double` values: false when one of them is not-a-number. -/
def Double.lt : Double → Double → Bool
  | .nan, _ => false
  | _, .nan => false
  | .neg_inf, .neg_inf => false
  | .neg_inf, _ => true
  | .finite _, .neg_inf => false
  | .finite x, .finite y => decide (x < y)
  | .finite _, .pos_inf => true
  | .pos_inf, _ => false

/-- The test `isnan(a)`. -/
def Double.isnan : Double → Bool
  | .nan => true
  | _ => false

/-- The largest value of type `int`. -/
def INT_MAX : Int := 2147483647

/-- The smallest value of type `int`. -/
def INT_MIN : Int := -2147483648

/-- Whether the exact result of an `int` operation is an `int`; when it is not, the
operation overflows and its behaviour is undefined. -/
def is_int (x : Int) : Bool :=
  decide (INT_MIN ≤ x) && decide (x ≤ INT_MAX)

/-- The store `v[i] = x` for an `int` index; undefined outside the vector. -/
def vecSet? {α : Type} (v : List α) (i : Int) (x : α) : Option (List α) :=
  if 0 ≤ i ∧ i < (v.length : Int) then some (core.parallel.vecSet v i x) else none

namespace TrainingSet

open core.parallel

/-- The merge loop of `SortOrdinalFeature_` (`while(left >= 0 & right >= 0)`) together with
the store into `order_[dim][current]` that follows it. The row of the data matrix is
`row`, the vector `order_[dim]` is `order`; its entries are integers. The result is the
vector after the store; `none` stands for undefined behaviour or for a run that needs
more than `fuel` turns. -/
def merge_while (row : List Double) : Nat → List Int → Int → Int → Int → Option (List Int)
  | 0, _, _, _, _ => none
  | fuel + 1, order, current, left, right =>
    if left ≥ 0 ∧ right ≥ 0 then
      match vecGet? row right, vecGet? row left with
      | some right_value, some left_value =>
        if right_value.lt left_value then
          match vecSet? order current right with
          | none => none
          | some order1 =>
            match vecGet? order1 right with
            | none => none
            | some next => merge_while row fuel order1 right left next
        else
          match vecSet? order current left with
          | none => none
          | some order1 =>
            match vecGet? order1 left with
            | none => none
            | some next => merge_while row fuel order1 left next right
      | _, _ => none
    else if left ≥ 0 then vecSet? order current left
    else vecSet? order current right

/-- Source: `TrainingSet::SortOrdinalFeature_`, for the row `row` of the data matrix (the
values of feature `dim`) and the vector `order` (`order_[dim]`). It returns the vector
after the call and the returned index. The depth of the recursion and the number of turns
of a merge loop are limited by `fuel`; `none` stands for undefined behaviour (an index
outside a vector, an `int` overflow) or for a run that needs more than `fuel`. -/
def SortOrdinalFeature_ (row : List Double) :
    Nat → List Int → Int → Int → Option (List Int × Int)
  | 0, _, _, _ => none
  | fuel + 1, order, start_, stop_ =>
    if is_int (stop_ - start_) = false then none
    else if stop_ - start_ = 1 then
      match vecGet? row start_ with
      | none => none
      | some value =>
        if value.isnan = false then
          (vecSet? order start_ (-1)).map (fun order1 => (order1, start_))
        else
          (vecSet? order start_ (-2)).map (fun order1 => (order1, -2))
    else if is_int (start_ + stop_) = false then none
    else
      match SortOrdinalFeature_ row fuel order start_ ((start_ + stop_).tdiv 2) with
      | none => none
      | some (order1, left_start) =>
        match SortOrdinalFeature_ row fuel order1 ((start_ + stop_).tdiv 2) stop_ with
        | none => none
        | some (order2, right_start) =>
          if left_start ≥ 0 then
            if right_start ≥ 0 then
              match vecGet? row left_start, vecGet? row right_start with
              | some left_value, some right_value =>
                if left_value.lt right_value then
                  match vecGet? order2 left_start with
                  | none => none
                  | some left =>
                    (merge_while row (fuel + 1) order2 left_start left right_start).map
                      (fun order3 => (order3, left_start))
                else
                  match vecGet? order2 right_start with
                  | none => none
                  | some right =>
                    (merge_while row (fuel + 1) order2 right_start left_start right).map
                      (fun order3 => (order3, right_start))
              | _, _ => none
            else some (order2, left_start)
          else if right_start ≥ 0 then some (order2, right_start)
          else some (order2, -1)

/-- The back-link loop of `Init` (`while(j_cur > 0)`), on the vectors `order_[i]` and
`back_order_[i]`. -/
def Init_while (order : List Int) : Nat → List Int → Int → Int → Option (List Int)
  | 0, _, _, _ => none
  | fuel + 1, back_order, j_old, j_cur =>
    if j_cur > 0 then
      match vecSet? back_order j_cur j_old with
      | none => none
      | some back_order1 =>
        match vecGet? order j_cur with
        | none => none
        | some next => Init_while order fuel back_order1 j_cur next
    else some back_order

/-- Source: `TrainingSet::Init`, the turn of its loop for an ordinal feature `i` whose values
are the row `row`. The vector `order_[i]` is new, `order` stands for its content, which
`Init` does not set; `back_order_[i]` is new and set to -2. The result is `order_[i]`,
`back_order_[i]` and `firsts[i]` after the turn. -/
def Init_feature (row : List Double) (fuel : Nat) (order : List Int) :
    Option (List Int × List Int × Int) :=
  match SortOrdinalFeature_ row fuel order 0 (row.length : Int) with
  | none => none
  | some (order1, first) =>
    match vecGet? order1 first with
    | none => none
    | some j_cur =>
      match vecSet? (List.replicate row.length (-2)) first (-1) with
      | none => none
      | some back_order =>
        (Init_while order1 fuel back_order first j_cur).map
          (fun back_order1 => (order1, back_order1, first))

/-- The list of indices visited by following the links of `order` from `index` up to the
terminator -1; `none` if a link leads outside the vector or to another negative value, or
if the terminator is not reached within `fuel` steps. -/
def follow (order : List Int) : Nat → Int → Option (List Int)
  | 0, _ => none
  | fuel + 1, index =>
    if index = -1 then some []
    else
      match vecGet? order index with
      | none => none
      | some next => (follow order fuel next).map (fun rest => index :: rest)

/-- The value of a row at an index (not-a-number outside the row). -/
def value_at (row : List Double) (index : Int) : Double :=
  (vecGet? row index).getD .nan

/-- A row of 2^30 + 2 values, all of them 0. -/
def long_row : List Double :=
  List.replicate 1073741826 (.finite 0)

end TrainingSet


namespace TrainingSet

open core.parallel

/-- Following the links of `order` from `head` visits exactly the indices of the list, in
order, and then reaches the terminator -1. -/
def Chain (order : List Int) : List Int → Int → Prop
  | [], head => head = -1
  | index :: rest, head =>
    head = index ∧ ∃ next, vecGet? order index = some next ∧ Chain order rest next

/-- The value at the first index is not larger than the value at the second: the second is
not smaller in the comparison of `double` values. -/
def le_at (row : List Double) (i j : Int) : Prop :=
  (value_at row j).lt (value_at row i) = false

end TrainingSet

namespace TrainingSet

open core.parallel

/-- What a run of the two-pointer loop of `MatrixPartition` ends with: it returns; or it
accesses `split` at an index outside the vector, which is undefined; or it has another
undefined behaviour (a column or an `old_from_new` index outside the array); or it needs
more than the given number of turns. -/
inductive PartitionOutcome (σ : Type) where
  | returned (result : σ) : PartitionOutcome σ
  | split_out_of_range (index : Int) : PartitionOutcome σ
  | undefined : PartitionOutcome σ
  | unfinished : PartitionOutcome σ

/-- The variables of the two-pointer loop of `MatrixPartition`: the two indices, the vector
`split` (its entries are integers), the columns of the data matrix and the array
`old_from_new` (`none` for the null pointer). -/
structure PartitionState (γ : Type) where
  left : Int
  right : Int
  split : List Int
  columns : List γ
  old_from_new : Option (List Int)

/-- Source: `while (split[left - start] > 0 && likely(left <= right)) left++` of
`MatrixPartition`; the entry of `split` is read first. -/
def advance_left (start : Int) (split : List Int) (right : Int) :
    Nat → Int → PartitionOutcome Int
  | 0, _ => .unfinished
  | fuel + 1, left =>
    match vecGet? split (left - start) with
    | none => .split_out_of_range (left - start)
    | some flag =>
      if flag > 0 ∧ left ≤ right then advance_left start split right fuel (left + 1)
      else .returned left

/-- Source: `while (likely(left <= right) && split[right - start] < 1) right--` of
`MatrixPartition`; the entry of `split` is read only if `left <= right`. -/
def retreat_right (start : Int) (split : List Int) (left : Int) :
    Nat → Int → PartitionOutcome Int
  | 0, _ => .unfinished
  | fuel + 1, right =>
    if left ≤ right then
      match vecGet? split (right - start) with
      | none => .split_out_of_range (right - start)
      | some flag =>
        if flag < 1 then retreat_right start split left fuel (right - 1)
        else .returned right
    else .returned right

/-- The exchange of `old_from_new[left]` and `old_from_new[right]`, if the pointer is not
null; `none` if an index is outside the array. -/
def swap_old_from_new (old_from_new : Option (List Int)) (left right : Int) :
    Option (Option (List Int)) :=
  match old_from_new with
  | none => some none
  | some array =>
    match vecGet? array left, vecGet? array right with
    | some t, some other => some (some (vecSet (vecSet array left other) right t))
    | _, _ => none

/-- Source: the loop `for(;;)` of `MatrixPartition`, for a training set without ordinal
features (every `order_[i]` is empty), for which the updates of the linked lists do
nothing. -/
def partition_loop {γ : Type} (start : Int) :
    Nat → PartitionState γ → PartitionOutcome (PartitionState γ)
  | 0, _ => .unfinished
  | fuel + 1, state =>
    match advance_left start state.split state.right (fuel + 1) state.left with
    | .split_out_of_range index => .split_out_of_range index
    | .undefined => .undefined
    | .unfinished => .unfinished
    | .returned left =>
      match retreat_right start state.split left (fuel + 1) state.right with
      | .split_out_of_range index => .split_out_of_range index
      | .undefined => .undefined
      | .unfinished => .unfinished
      | .returned right =>
        if left > right then .returned { state with left := left, right := right }
        else
          match vecGet? state.columns left, vecGet? state.columns right with
          | some left_vector, some right_vector =>
            match vecGet? state.split (left - start) with
            | none => .split_out_of_range (left - start)
            | some temp =>
              match vecGet? state.split (right - start) with
              | none => .split_out_of_range (right - start)
              | some flag =>
                match swap_old_from_new state.old_from_new left right with
                | none => .undefined
                | some old_from_new =>
                  partition_loop start fuel
                    { left := left
                      right := right - 1
                      split := vecSet (vecSet state.split (left - start) flag) (right - start) temp
                      columns := vecSet (vecSet state.columns left right_vector) right left_vector
                      old_from_new := old_from_new }
          | _, _ => .undefined

/-- Source: `TrainingSet::MatrixPartition`, from `index_t left = start` on, for a training set
without ordinal features: the loops over the ordinal features before that line do nothing
then. The result is the returned index with the columns of the data matrix and the array
`old_from_new` after the call. -/
def MatrixPartition {γ : Type} (fuel : Nat) (columns : List γ) (start stop : Int)
    (old_from_new : Option (List Int)) (split : List Int) :
    PartitionOutcome (Int × List γ × Option (List Int)) :=
  match partition_loop start fuel
      { left := start, right := stop - 1, split := split, columns := columns,
        old_from_new := old_from_new } with
  | .returned state => .returned (state.left, state.columns, state.old_from_new)
  | .split_out_of_range index => .split_out_of_range index
  | .undefined => .undefined
  | .unfinished => .unfinished

end TrainingSet

namespace mlpack

namespace neighbor

namespace NearestNeighborSort

/-- The numerator of `DBL_MAX`, `(2^53 - 1) * 2^971`; the power of two is written as a product
of smaller powers. -/
def DBL_MAX_value : Nat := (2 ^ 53 - 1) * (2 ^ 250 * 2 ^ 250 * 2 ^ 250 * 2 ^ 221)

/-- The constant `DBL_MAX` of `<cfloat>`, the largest finite `double`:
`(2 - 2^-52) * 2^1023`. -/
def DBL_MAX : Double := .finite (DBL_MAX_value : ℚ)

/-- Source: `NearestNeighborSort::IsBetter`. -/
def IsBetter (value ref : Double) : Bool := value.lt ref

/-- Source: `NearestNeighborSort::WorstDistance`. -/
def WorstDistance : Double := DBL_MAX

/-- Source: `NearestNeighborSort::BestDistance`. -/
def BestDistance : Double := .finite 0

/-- Whether a value of the model is a `double`: a finite value lies between `-DBL_MAX` and
`DBL_MAX`. -/
def in_range : Double → Bool
  | .finite x => decide (-(DBL_MAX_value : ℚ) ≤ x) && decide (x ≤ (DBL_MAX_value : ℚ))
  | _ => true

/-- Whether a `double` is not negative: plus infinity, or a finite value that is at least
zero. -/
def non_negative : Double → Bool
  | .finite x => decide (0 ≤ x)
  | .pos_inf => true
  | _ => false

end NearestNeighborSort

end neighbor

end mlpack

/-! Theorems. -/

namespace core

namespace parallel

open core.table

theorem keyEquiv_iff (a b : KeyType) : keyEquiv a b = true ↔ a = b := by
  obtain ⟨a1, a2, a3⟩ := a
  obtain ⟨b1, b2, b3⟩ := b
  simp only [keyEquiv, ComparatorType, Bool.and_eq_true, Bool.not_eq_true', Bool.or_eq_false_iff,
    Bool.and_eq_false_iff, decide_eq_false_iff_not, Prod.mk.injEq, decide_eq_true_eq]
  constructor
  · intro h
    refine ⟨?_, ?_, ?_⟩ <;> omega
  · intro h
    omega

theorem keyEquiv_self (a : KeyType) : keyEquiv a a = true := (keyEquiv_iff a a).2 rfl

theorem keyEquiv_eq_decide (a b : KeyType) : keyEquiv a b = decide (a = b) := by
  by_cases h : a = b
  · simp [h, keyEquiv_self]
  · have : keyEquiv a b = false := by
      rw [← Bool.not_eq_true, keyEquiv_iff]; exact h
    simp [h, this]

theorem ComparatorType_irrefl (a : KeyType) : ComparatorType a a = false := by
  simp [ComparatorType]

theorem MapType.find_assign (m : MapType) (k : KeyType) (v : ValueType) (k2 : KeyType) :
    MapType.find (MapType.assign m k v) k2 = if k2 = k then some v else MapType.find m k2 := by
  induction m with
  | nil => simp [MapType.assign, MapType.find, keyEquiv_eq_decide]
  | cons e m ih =>
    obtain ⟨k1, v1⟩ := e
    by_cases h1 : ComparatorType k k1 = true
    · simp [MapType.assign, MapType.find, keyEquiv_eq_decide, h1]
    · by_cases h2 : ComparatorType k1 k = true
      · have hne : k1 ≠ k := by
          intro h
          rw [h, ComparatorType_irrefl] at h2
          exact Bool.noConfusion h2
        simp only [MapType.assign, h1, h2, MapType.find, keyEquiv_eq_decide, ih, if_true,
          if_false, decide_eq_true_eq]
        by_cases h3 : k2 = k1
        · have : k2 ≠ k := fun h => hne (h3 ▸ h)
          simp [h3, hne]
        · simp [h3]
      · have hk : k = k1 := by
          apply (keyEquiv_iff k k1).1
          simp only [keyEquiv, Bool.and_eq_true, Bool.not_eq_true']
          exact ⟨by simpa using h1, by simpa using h2⟩
        subst hk
        simp only [MapType.assign, h1, MapType.find, keyEquiv_eq_decide, if_false,
          decide_eq_true_eq]
        by_cases h3 : k2 = k <;> simp [h3]

theorem MapType.find_erase (m : MapType) (k k2 : KeyType) :
    MapType.find (MapType.erase m k) k2 = if k2 = k then none else MapType.find m k2 := by
  induction m with
  | nil => simp [MapType.erase, MapType.find]
  | cons e m ih =>
    obtain ⟨k1, v1⟩ := e
    by_cases h1 : k = k1
    · subst h1
      simp only [MapType.erase, keyEquiv_eq_decide, decide_True, if_true, ih, MapType.find,
        decide_eq_true_eq]
      by_cases h : k2 = k <;> simp [h]
    · have h1' : ¬ k1 = k := fun h => h1 h.symm
      simp only [MapType.erase, keyEquiv_eq_decide, h1, decide_False, MapType.find, ih,
        decide_eq_true_eq]
      by_cases h : k2 = k1
      · simp [h, h1']
      · simp [h]

theorem SubTable_subtable_id_Alias (a t : SubTable) :
    (a.Alias t).subtable_id = t.subtable_id := rfl

theorem SubTable_start_node_Alias (a t : SubTable) :
    (a.Alias t).start_node_ = t.start_node_ := rfl

theorem vecGet?_eq_some_iff {α : Type} (v : List α) (i : Int) (x : α) :
    vecGet? v i = some x ↔ 0 ≤ i ∧ v[i.toNat]? = some x := by
  unfold vecGet?
  by_cases h : i < 0
  · simp [h]
  · simp [h, Int.not_lt.1 h]

theorem vecGet?_natCast {α : Type} (v : List α) (n : Nat) :
    vecGet? v (n : Int) = v[n]? := by
  simp [vecGet?]

namespace DistributedDualtreeTaskList

theorem push_back__eq_of_absent (self : DistributedDualtreeTaskList) (t : SubTable) (q : Bool)
    (id : KeyType) (c : Nat) (hid : t.subtable_id = some id)
    (hc : t.start_node_.count? = some c) (habsent : self.FindSubTable_ id = none) :
    self.push_back_ t q =
      if c ≤ self.remaining_extra_points_to_hold_ then
        some ({ self with
                sub_tables_ :=
                  self.sub_tables_ ++ [(SubTable.new.Alias t, q, if q then (0 : Int) else 1)]
                id_to_position_map_ :=
                  self.id_to_position_map_.assign id (self.sub_tables_.length : Int)
                remaining_extra_points_to_hold_ := self.remaining_extra_points_to_hold_ - c },
          (self.sub_tables_.length : Int))
      else some (self, -1) := by
  simp only [push_back_, hid, habsent, hc]
  split
  · cases q <;> simp
  · rfl

theorem push_back__eq_of_found (self : DistributedDualtreeTaskList) (t : SubTable) (q : Bool)
    (id : KeyType) (p : Int) (slot : SlotType) (hid : t.subtable_id = some id)
    (hfound : self.FindSubTable_ id = some p) (hslot : vecGet? self.sub_tables_ p = some slot) :
    self.push_back_ t q =
      some ({ self with
              sub_tables_ := vecSet self.sub_tables_ p
                (if q then (slot.1.Alias t, true, slot.2.2) else (slot.1, slot.2.1, slot.2.2 + 1)) },
        p) := by
  simp only [push_back_, hid, hfound, hslot]
  cases q <;> simp

/-- The branch of `push_back_` for an ID that `FindSubTable_` does not find in the map: for
such a subtable `push_back_` succeeds exactly when its point count is at most
`remaining_extra_points_to_hold_`. On success it appends one slot, at the position
`size - 1` which it returns and under which the ID is then found, with role and reference
count (true, 0) for a query and (false, 1) for a reference, and lowers the remaining number
of points by exactly the point count; the donated task list and the destination rank are not
touched. -/
theorem push_back__of_absent (self : DistributedDualtreeTaskList) (t : SubTable) (q : Bool)
    (id : KeyType) (c : Nat) (hid : t.subtable_id = some id)
    (hc : t.start_node_.count? = some c) (habsent : self.FindSubTable_ id = none) :
    ∃ s1 position, self.push_back_ t q = some (s1, position) ∧
      (position ≠ -1 ↔ c ≤ self.remaining_extra_points_to_hold_) ∧
      (c ≤ self.remaining_extra_points_to_hold_ →
        s1.sub_tables_ =
            self.sub_tables_ ++ [(SubTable.new.Alias t, q, if q then (0 : Int) else 1)] ∧
          position = (s1.sub_tables_.length : Int) - 1 ∧
          s1.FindSubTable_ id = some position ∧
          s1.remaining_extra_points_to_hold_ + c = self.remaining_extra_points_to_hold_ ∧
          s1.donated_task_list_ = self.donated_task_list_ ∧
          s1.destination_rank_ = self.destination_rank_) := by
  rw [push_back__eq_of_absent self t q id c hid hc habsent]
  by_cases hfit : c ≤ self.remaining_extra_points_to_hold_
  · rw [if_pos hfit]
    refine ⟨_, _, rfl, ?_, ?_⟩
    · simp only [hfit, iff_true]
      omega
    · intro _
      refine ⟨rfl, ?_, ?_, ?_, rfl, rfl⟩
      · simp only [List.length_append, List.length_singleton]
        omega
      · simp [FindSubTable_, MapType.find_assign]
      · simp only
        omega
  · rw [if_neg hfit]
    refine ⟨self, -1, rfl, ?_, ?_⟩
    · simp [hfit]
    · intro h
      exact absurd h hfit

/-- The branch for an ID that is not in the map, at a concrete input: an empty task list
with room for 100 points takes in a reference subtable of 30 points at position 0. -/
theorem push_back__of_absent_witness :
    (leaf_subtable 0 40 30).subtable_id = some (0, 40, 30) ∧
    (leaf_subtable 0 40 30).start_node_.count? = some 30 ∧
    (new.Init 1 100).FindSubTable_ (0, 40, 30) = none ∧
    ∃ s1 position,
      (new.Init 1 100).push_back_ (leaf_subtable 0 40 30) false = some (s1, position) ∧
      (position ≠ -1 ↔ 30 ≤ (new.Init 1 100).remaining_extra_points_to_hold_) ∧
      (30 ≤ (new.Init 1 100).remaining_extra_points_to_hold_ →
        s1.sub_tables_ =
            (new.Init 1 100).sub_tables_ ++
              [(SubTable.new.Alias (leaf_subtable 0 40 30), false, if false then (0 : Int) else 1)] ∧
          position = (s1.sub_tables_.length : Int) - 1 ∧
          s1.FindSubTable_ (0, 40, 30) = some position ∧
          s1.remaining_extra_points_to_hold_ + 30 =
            (new.Init 1 100).remaining_extra_points_to_hold_ ∧
          s1.donated_task_list_ = (new.Init 1 100).donated_task_list_ ∧
          s1.destination_rank_ = (new.Init 1 100).destination_rank_) :=
  ⟨rfl, rfl, rfl,
    push_back__of_absent (new.Init 1 100) (leaf_subtable 0 40 30) false (0, 40, 30) 30 rfl rfl rfl⟩

theorem push_back__position_nonneg_or (self : DistributedDualtreeTaskList) (t : SubTable)
    (q : Bool) (s1 : DistributedDualtreeTaskList) (position : Int)
    (h : self.push_back_ t q = some (s1, position)) :
    0 ≤ position ∨ (position = -1 ∧ s1 = self ∧
      ∃ id c, t.subtable_id = some id ∧ self.FindSubTable_ id = none ∧
        t.start_node_.count? = some c ∧ self.remaining_extra_points_to_hold_ < c) := by
  cases hid : t.subtable_id with
  | none => simp [push_back_, hid] at h
  | some id =>
    cases hfound : self.FindSubTable_ id with
    | some p =>
      cases hslot : vecGet? self.sub_tables_ p with
      | none => simp [push_back_, hid, hfound, hslot] at h
      | some slot =>
        rw [push_back__eq_of_found self t q id p slot hid hfound hslot] at h
        simp only [Option.some.injEq, Prod.mk.injEq] at h
        left
        rw [← h.2]
        exact ((vecGet?_eq_some_iff _ _ _).1 hslot).1
    | none =>
      cases hc : t.start_node_.count? with
      | none => simp [push_back_, hid, hfound, hc] at h
      | some c =>
        rw [push_back__eq_of_absent self t q id c hid hc hfound] at h
        by_cases hfit : c ≤ self.remaining_extra_points_to_hold_
        · rw [if_pos hfit] at h
          simp only [Option.some.injEq, Prod.mk.injEq] at h
          left
          rw [← h.2]
          omega
        · rw [if_neg hfit] at h
          simp only [Option.some.injEq, Prod.mk.injEq] at h
          right
          exact ⟨h.2.symm, h.1.symm, id, c, rfl, hfound, rfl, by omega⟩

/-- C8. Whenever `push_back_` returns -1, the task list after the call (`sub_tables_`,
`id_to_position_map_`, `donated_task_list_`, `remaining_extra_points_to_hold_`) is exactly
the task list before the call; and this happens only for a subtable whose ID is not in the
map and whose point count exceeds the remaining number of points. -/
theorem push_back__rejected_unchanged (self : DistributedDualtreeTaskList) (t : SubTable)
    (q : Bool) (s1 : DistributedDualtreeTaskList)
    (h : self.push_back_ t q = some (s1, -1)) :
    s1 = self ∧
      ∃ id c, t.subtable_id = some id ∧ self.FindSubTable_ id = none ∧
        t.start_node_.count? = some c ∧ self.remaining_extra_points_to_hold_ < c := by
  rcases push_back__position_nonneg_or self t q s1 (-1) h with h0 | ⟨_, h1, h2⟩
  · omega
  · exact ⟨h1, h2⟩

/-- C8, at a concrete input: a task list with room for 20 points rejects a subtable of 30
points. -/
theorem push_back__rejected_unchanged_witness :
    (new.Init 1 20).push_back_ (leaf_subtable 0 40 30) true = some (new.Init 1 20, -1) ∧
    (new.Init 1 20 = new.Init 1 20 ∧
      ∃ id c, (leaf_subtable 0 40 30).subtable_id = some id ∧
        (new.Init 1 20).FindSubTable_ id = none ∧
        (leaf_subtable 0 40 30).start_node_.count? = some c ∧
        (new.Init 1 20).remaining_extra_points_to_hold_ < c) :=
  ⟨rfl, push_back__rejected_unchanged (new.Init 1 20) (leaf_subtable 0 40 30) true
    (new.Init 1 20) rfl⟩

theorem Consistent_Init (d : Int) (B : Nat) : Consistent (new.Init d B) := by
  constructor
  · intro id p h
    simp [FindSubTable_, Init, new, MapType.find] at h
  · intro i slot h
    simp [Init, new] at h

theorem Consistent_push_back_ (self : DistributedDualtreeTaskList) (t : SubTable) (q : Bool)
    (s1 : DistributedDualtreeTaskList) (position : Int) (hself : Consistent self)
    (h : self.push_back_ t q = some (s1, position)) : Consistent s1 := by
  obtain ⟨hI1, hI2⟩ := hself
  cases hid : t.subtable_id with
  | none => simp [push_back_, hid] at h
  | some id =>
    cases hfound : self.FindSubTable_ id with
    | some p =>
      obtain ⟨slot, hslot, hslotid⟩ := hI1 id p hfound
      rw [push_back__eq_of_found self t q id p slot hid hfound hslot] at h
      simp only [Option.some.injEq, Prod.mk.injEq] at h
      obtain ⟨hp0, hp⟩ := (vecGet?_eq_some_iff _ _ _).1 hslot
      have hlt : p.toNat < self.sub_tables_.length := (List.getElem?_eq_some.1 hp).1
      have hnewid : (if q then (slot.1.Alias t, true, slot.2.2)
          else ((slot.1, slot.2.1, slot.2.2 + 1) : SlotType)).1.subtable_id = some id := by
        cases q
        · simpa using hslotid
        · simpa [SubTable_subtable_id_Alias] using hid
      rw [← h.1]
      constructor
      · intro id1 p1 hf
        have hf1 : self.FindSubTable_ id1 = some p1 := hf
        obtain ⟨slot1, hslot1, hslot1id⟩ := hI1 id1 p1 hf1
        by_cases hpp : p1 = p
        · subst hpp
          have : slot1 = slot := by
            rw [hslot] at hslot1
            exact (Option.some.inj hslot1).symm
          subst this
          have hidid : id1 = id := by
            rw [hslotid] at hslot1id
            exact (Option.some.inj hslot1id).symm
          subst hidid
          refine ⟨_, ?_, hnewid⟩
          rw [vecGet?_eq_some_iff]
          exact ⟨hp0, by simp only [vecSet]; rw [List.getElem?_set_self hlt]⟩
        · refine ⟨slot1, ?_, hslot1id⟩
          obtain ⟨hp10, hp1⟩ := (vecGet?_eq_some_iff _ _ _).1 hslot1
          rw [vecGet?_eq_some_iff]
          refine ⟨hp10, ?_⟩
          simp only [vecSet]
          rw [List.getElem?_set_ne (by omega)]
          exact hp1
      · intro i sloti hi
        simp only [vecSet] at hi
        by_cases hip : p.toNat = i
        · subst hip
          rw [List.getElem?_set_self hlt] at hi
          have := Option.some.inj hi
          subst this
          refine ⟨id, hnewid, ?_⟩
          have : ((p.toNat : Nat) : Int) = p := Int.toNat_of_nonneg hp0
          rw [this]
          exact hfound
        · rw [List.getElem?_set_ne hip] at hi
          exact hI2 i sloti hi
    | none =>
      cases hc : t.start_node_.count? with
      | none => simp [push_back_, hid, hfound, hc] at h
      | some c =>
        rw [push_back__eq_of_absent self t q id c hid hc hfound] at h
        by_cases hfit : c ≤ self.remaining_extra_points_to_hold_
        · rw [if_pos hfit] at h
          simp only [Option.some.injEq, Prod.mk.injEq] at h
          rw [← h.1]
          constructor
          · intro id1 p1 hf
            simp only [FindSubTable_, MapType.find_assign] at hf
            by_cases hidid : id1 = id
            · subst hidid
              simp only [if_true, Option.some.injEq] at hf
              subst hf
              refine ⟨(SubTable.new.Alias t, q, if q then (0 : Int) else 1), ?_, ?_⟩
              · rw [vecGet?_natCast]
                simp
              · simpa [SubTable_subtable_id_Alias] using hid
            · simp only [hidid, if_false] at hf
              obtain ⟨slot1, hslot1, hslot1id⟩ := hI1 id1 p1 hf
              refine ⟨slot1, ?_, hslot1id⟩
              obtain ⟨hp10, hp1⟩ := (vecGet?_eq_some_iff _ _ _).1 hslot1
              rw [vecGet?_eq_some_iff]
              refine ⟨hp10, ?_⟩
              have hlt : p1.toNat < self.sub_tables_.length := (List.getElem?_eq_some.1 hp1).1
              simp only
              rw [List.getElem?_append_left hlt]
              exact hp1
          · intro i sloti hi
            simp only at hi
            by_cases hlt : i < self.sub_tables_.length
            · rw [List.getElem?_append_left hlt] at hi
              obtain ⟨idi, hidi, hfi⟩ := hI2 i sloti hi
              refine ⟨idi, hidi, ?_⟩
              have hne : idi ≠ id := by
                intro heq
                rw [heq, hfound] at hfi
                exact Option.noConfusion hfi
              simp only [FindSubTable_, MapType.find_assign, hne, if_false]
              exact hfi
            · have hlen : i = self.sub_tables_.length := by
                have := (List.getElem?_eq_some.1 hi).1
                simp only [List.length_append, List.length_singleton] at this
                omega
              subst hlen
              simp only [List.getElem?_concat_length, Option.some.injEq] at hi
              subst hi
              refine ⟨id, by simpa [SubTable_subtable_id_Alias] using hid, ?_⟩
              simp [FindSubTable_, MapType.find_assign]
        · rw [if_neg hfit] at h
          simp only [Option.some.injEq, Prod.mk.injEq] at h
          rw [← h.1]
          exact ⟨hI1, hI2⟩

theorem push_back__defined_of_Consistent (self : DistributedDualtreeTaskList) (t : SubTable)
    (q : Bool) (hself : Consistent self) (ht : t.subtable_id ≠ none) :
    ∃ r, self.push_back_ t q = some r := by
  cases hid : t.subtable_id with
  | none => exact absurd hid ht
  | some id =>
    have hc : ∃ c, t.start_node_.count? = some c := by
      unfold SubTable.subtable_id at hid
      cases hn : t.start_node_ with
      | null => simp [hn] at hid
      | node b c l r => exact ⟨c, rfl⟩
    obtain ⟨c, hc⟩ := hc
    cases hfound : self.FindSubTable_ id with
    | some p =>
      obtain ⟨slot, hslot, _⟩ := hself.1 id p hfound
      exact ⟨_, push_back__eq_of_found self t q id p slot hid hfound hslot⟩
    | none =>
      rw [push_back__eq_of_absent self t q id c hid hc hfound]
      by_cases hfit : c ≤ self.remaining_extra_points_to_hold_
      · exact ⟨_, if_pos hfit⟩
      · exact ⟨_, if_neg hfit⟩

theorem Consistent_unique (self : DistributedDualtreeTaskList) (hself : Consistent self)
    (i j : Nat) (a b : SlotType) (ha : self.sub_tables_[i]? = some a)
    (hb : self.sub_tables_[j]? = some b) (hab : a.1.subtable_id = b.1.subtable_id) : i = j := by
  obtain ⟨ida, hida, hfa⟩ := hself.2 i a ha
  obtain ⟨idb, hidb, hfb⟩ := hself.2 j b hb
  rw [hab, hidb] at hida
  have := Option.some.inj hida
  subst this
  rw [hfa] at hfb
  exact Int.ofNat.inj (Option.some.inj hfb)

theorem run_push_back__Consistent (calls : List (SubTable × Bool)) :
    ∀ self : DistributedDualtreeTaskList, Consistent self →
      (∀ call ∈ calls, call.1.subtable_id ≠ none) →
      ∃ s1, run_push_back_ self calls = some s1 ∧ Consistent s1 := by
  induction calls with
  | nil => intro self hself _; exact ⟨self, rfl, hself⟩
  | cons call rest ih =>
    intro self hself hcalls
    obtain ⟨t, q⟩ := call
    obtain ⟨⟨s1, position⟩, hr⟩ := push_back__defined_of_Consistent self t q hself
      (hcalls (t, q) (List.mem_cons_self _ _))
    have hs1 := Consistent_push_back_ self t q s1 position hself hr
    obtain ⟨s2, hs2, hc2⟩ := ih s1 hs1 (fun c hc => hcalls c (List.mem_cons_of_mem _ hc))
    exact ⟨s2, by simp only [run_push_back_, hr]; exact hs2, hc2⟩

/-- C2. Every sequence of `push_back_` calls on a freshly initialised (empty) task list, each
call offering a subtable that has a table and a start node, runs to completion, and
afterwards no two positions of `sub_tables_` hold subtables with the same (rank, begin,
count) ID. -/
theorem push_back__identity_unique (d : Int) (B : Nat) (calls : List (SubTable × Bool))
    (hcalls : ∀ call ∈ calls, call.1.subtable_id ≠ none) :
    ∃ s1, run_push_back_ (new.Init d B) calls = some s1 ∧
      ∀ (i j : Nat) (a b : SlotType), s1.sub_tables_[i]? = some a →
        s1.sub_tables_[j]? = some b → a.1.subtable_id = b.1.subtable_id → i = j := by
  obtain ⟨s1, hs1, hc1⟩ := run_push_back__Consistent calls (new.Init d B) (Consistent_Init d B) hcalls
  exact ⟨s1, hs1, fun i j a b ha hb hab => Consistent_unique s1 hc1 i j a b ha hb hab⟩

/-- C2, at a concrete input: the same subtable offered twice and another one once. -/
theorem push_back__identity_unique_witness :
    (∀ call ∈ [(leaf_subtable 0 0 10, false), (leaf_subtable 0 10 20, true),
        (leaf_subtable 0 0 10, true)], call.1.subtable_id ≠ none) ∧
    ∃ s1, run_push_back_ (new.Init 1 100) [(leaf_subtable 0 0 10, false),
        (leaf_subtable 0 10 20, true), (leaf_subtable 0 0 10, true)] = some s1 ∧
      ∀ (i j : Nat) (a b : SlotType), s1.sub_tables_[i]? = some a →
        s1.sub_tables_[j]? = some b → a.1.subtable_id = b.1.subtable_id → i = j :=
  ⟨by decide, push_back__identity_unique 1 100 _ (by decide)⟩

theorem push_back__donated (self : DistributedDualtreeTaskList) (t : SubTable) (q : Bool)
    (s1 : DistributedDualtreeTaskList) (position : Int)
    (h : self.push_back_ t q = some (s1, position)) :
    s1.donated_task_list_ = self.donated_task_list_ ∧
      s1.destination_rank_ = self.destination_rank_ := by
  cases hid : t.subtable_id with
  | none => simp [push_back_, hid] at h
  | some id =>
    cases hfound : self.FindSubTable_ id with
    | some p =>
      cases hslot : vecGet? self.sub_tables_ p with
      | none => simp [push_back_, hid, hfound, hslot] at h
      | some slot =>
        rw [push_back__eq_of_found self t q id p slot hid hfound hslot] at h
        simp only [Option.some.injEq, Prod.mk.injEq] at h
        rw [← h.1]
        exact ⟨rfl, rfl⟩
    | none =>
      cases hc : t.start_node_.count? with
      | none => simp [push_back_, hid, hfound, hc] at h
      | some c =>
        rw [push_back__eq_of_absent self t q id c hid hc hfound] at h
        split at h <;>
          (simp only [Option.some.injEq, Prod.mk.injEq] at h
           rw [← h.1]
           exact ⟨rfl, rfl⟩)

theorem push_back__with_donated (self : DistributedDualtreeTaskList) (t : SubTable) (q : Bool)
    (D : List (Int × List Int)) :
    ({ self with donated_task_list_ := D } : DistributedDualtreeTaskList).push_back_ t q =
      (self.push_back_ t q).map
        (fun r => (({ r.1 with donated_task_list_ := D } : DistributedDualtreeTaskList), r.2)) := by
  cases hid : t.subtable_id with
  | none => simp [push_back_, hid]
  | some id =>
    cases hfound : self.FindSubTable_ id with
    | some p =>
      cases hslot : vecGet? self.sub_tables_ p with
      | none =>
        have h1 : self.push_back_ t q = none := by simp [push_back_, hid, hfound, hslot]
        have h2 : ({ self with donated_task_list_ := D } :
            DistributedDualtreeTaskList).push_back_ t q = none := by
          have hfound2 : ({ self with donated_task_list_ := D } :
            DistributedDualtreeTaskList).FindSubTable_ id = some p := hfound
          simp [push_back_, hid, hfound2, hslot]
        rw [h1, h2]
        rfl
      | some slot =>
        rw [push_back__eq_of_found { self with donated_task_list_ := D } t q id p slot hid
          hfound hslot, push_back__eq_of_found self t q id p slot hid hfound hslot]
        rfl
    | none =>
      cases hc : t.start_node_.count? with
      | none =>
        have h1 : self.push_back_ t q = none := by simp [push_back_, hid, hfound, hc]
        have h2 : ({ self with donated_task_list_ := D } :
            DistributedDualtreeTaskList).push_back_ t q = none := by
          have hfound2 : ({ self with donated_task_list_ := D } :
            DistributedDualtreeTaskList).FindSubTable_ id = none := hfound
          simp [push_back_, hid, hfound2, hc]
        rw [h1, h2]
        rfl
      | some c =>
        rw [push_back__eq_of_absent { self with donated_task_list_ := D } t q id c hid hc hfound,
          push_back__eq_of_absent self t q id c hid hc hfound]
        by_cases hfit : c ≤ self.remaining_extra_points_to_hold_
        · simp only [hfit, if_true]
          rfl
        · simp only [hfit, if_false]
          rfl

theorem fits_all_with_donated (ts : List TaskType) :
    ∀ (self : DistributedDualtreeTaskList) (D : List (Int × List Int)),
      fits_all { self with donated_task_list_ := D } ts = fits_all self ts := by
  induction ts with
  | nil => intro self D; rfl
  | cons t rest ih =>
    intro self D
    simp only [fits_all, push_back__with_donated]
    cases h : self.push_back_ t.reference_subtable false with
    | none => rfl
    | some r =>
      obtain ⟨s1, position⟩ := r
      simp only [Option.map_some']
      rw [ih s1 D]

theorem push_all_with_donated (ts : List TaskType) :
    ∀ (self : DistributedDualtreeTaskList) (D : List (Int × List Int)),
      push_all { self with donated_task_list_ := D } ts =
        (push_all self ts).map
          (fun r => ({ r with donated_task_list_ := D } : DistributedDualtreeTaskList)) := by
  induction ts with
  | nil => intro self D; rfl
  | cons t rest ih =>
    intro self D
    simp only [push_all, push_back__with_donated]
    cases h : self.push_back_ t.reference_subtable false with
    | none => rfl
    | some r =>
      obtain ⟨s1, position⟩ := r
      simp only [Option.map_some']
      rw [ih s1 D]

theorem pop__donated (self : DistributedDualtreeTaskList) (id : KeyType) (q : Bool)
    (s1 : DistributedDualtreeTaskList) (h : self.pop_ id q = some s1) :
    s1.donated_task_list_ = self.donated_task_list_ ∧
      s1.destination_rank_ = self.destination_rank_ := by
  by_cases hlen : self.sub_tables_.length > 0
  · cases hfind : self.id_to_position_map_.find id with
    | none => simp [pop_, hlen, hfind] at h
    | some p =>
      cases hslot : vecGet? self.sub_tables_ p with
      | none => simp [pop_, hlen, hfind, hslot] at h
      | some slot =>
        cases q <;>
        · simp only [pop_, hlen, hfind, hslot, if_true, if_false, Bool.false_eq_true] at h
          split at h
          · split at h
            · split at h
              · cases h
              · cases h
                exact ⟨rfl, rfl⟩
            · cases h
          · cases h
            exact ⟨rfl, rfl⟩
  · simp only [pop_, hlen, if_false] at h
    cases h
    exact ⟨rfl, rfl⟩

theorem donated_back_push_append (pre : List (Int × List Int)) (a : Int) (r : List Int)
    (position : Int) :
    donated_back_push (pre ++ [(a, r)]) position = pre ++ [(a, r ++ [position])] := by
  simp [donated_back_push]

theorem vecGet?_vecSet_self {α : Type} (v : List α) (i : Int) (x y : α)
    (h : vecGet? v i = some x) : vecGet? (vecSet v i y) i = some y := by
  obtain ⟨h0, h1⟩ := (vecGet?_eq_some_iff _ _ _).1 h
  have hlt : i.toNat < v.length := (List.getElem?_eq_some.1 h1).1
  rw [vecGet?_eq_some_iff]
  exact ⟨h0, by simp only [vecSet]; rw [List.getElem?_set_self hlt]⟩

theorem DistributedDualtreeTaskQueue.pop_eq (queue : DistributedDualtreeTaskQueue)
    (probe_index : Int) (t : TaskType) (rest : List TaskType)
    (h : vecGet? queue.tasks_ probe_index = some (t :: rest))
    (query : core.table.SubTable)
    (hq : vecGet? queue.query_subtables_ probe_index = some query)
    (hfree : query.is_locked = false) :
    queue.pop probe_index =
      some { queue with tasks_ := vecSet queue.tasks_ probe_index rest } := by
  simp [DistributedDualtreeTaskQueue.pop, h, hq, hfree]

theorem DistributedDualtreeTaskQueue.pop_eq_of_some (queue : DistributedDualtreeTaskQueue)
    (probe_index : Int) (t : TaskType) (rest : List TaskType)
    (h : vecGet? queue.tasks_ probe_index = some (t :: rest))
    (queue1 : DistributedDualtreeTaskQueue) (hpop : queue.pop probe_index = some queue1) :
    queue1 = { queue with tasks_ := vecSet queue.tasks_ probe_index rest } := by
  unfold DistributedDualtreeTaskQueue.pop at hpop
  cases hq : vecGet? queue.query_subtables_ probe_index with
  | none => simp [hq] at hpop
  | some query =>
    simp only [hq, h] at hpop
    by_cases hl : query.is_locked = true
    · simp [hl] at hpop
    · simp only [hl, if_false, Option.some.injEq, Bool.false_eq_true] at hpop
      exact hpop.symm

theorem push_back_while_spec (probe_index : Int) (ts : List TaskType) :
    ∀ (self : DistributedDualtreeTaskList) (queue : DistributedDualtreeTaskQueue)
      (s3 : DistributedDualtreeTaskList) (q3 : DistributedDualtreeTaskQueue)
      (pre : List (Int × List Int)) (a : Int) (r : List Int),
      vecGet? queue.tasks_ probe_index = some ts →
      self.donated_task_list_ = pre ++ [(a, r)] →
      push_back_while probe_index ts (self, queue) = some (s3, q3) →
      ∃ (k : Nat) (r1 : List Int), k ≤ ts.length ∧ r1.length = k ∧
        s3.donated_task_list_ = pre ++ [(a, r ++ r1)] ∧
        s3.destination_rank_ = self.destination_rank_ ∧
        vecGet? q3.tasks_ probe_index = some (ts.drop k) ∧
        q3.query_subtables_ = queue.query_subtables_ ∧
        fits_all self (ts.take k) = true ∧
        (k < ts.length → fits_all self (ts.take (k + 1)) = false) ∧
        ∃ s2, push_all self (ts.take k) = some s2 ∧
          s3.sub_tables_ = s2.sub_tables_ ∧
          s3.id_to_position_map_ = s2.id_to_position_map_ ∧
          s3.remaining_extra_points_to_hold_ = s2.remaining_extra_points_to_hold_ := by
  induction ts with
  | nil =>
    intro self queue s3 q3 pre a r hts hd h
    simp only [push_back_while, Option.some.injEq, Prod.mk.injEq] at h
    obtain ⟨h1, h2⟩ := h
    subst h1 h2
    exact ⟨0, [], le_refl _, rfl, by simpa using hd, rfl, by simpa using hts, rfl, rfl,
      fun h => absurd h (by simp), self, rfl, rfl, rfl, rfl⟩
  | cons t rest ih =>
    intro self queue s3 q3 pre a r hts hd h
    simp only [push_back_while] at h
    cases hpb : self.push_back_ t.reference_subtable false with
    | none => simp [hpb] at h
    | some res =>
      obtain ⟨self1, position⟩ := res
      simp only [hpb] at h
      have hframe := push_back__donated self _ _ self1 position hpb
      by_cases hneg : position < 0
      · simp only [hneg, if_true, Option.some.injEq, Prod.mk.injEq] at h
        obtain ⟨h1, h2⟩ := h
        subst h1 h2
        have hsame : self1 = self := by
          rcases push_back__position_nonneg_or self _ _ self1 position hpb with h0 | ⟨_, h1, _⟩
          · omega
          · exact h1
        subst hsame
        refine ⟨0, [], Nat.zero_le _, rfl, by simpa using hd, rfl, by simpa using hts, rfl, rfl,
          ?_, self1, rfl, rfl, rfl, rfl⟩
        intro _
        simp only [List.take_succ_cons, List.take_zero, fits_all, hpb, Bool.and_true,
          decide_eq_false_iff_not]
        omega
      · simp only [hneg, if_false] at h
        obtain ⟨queue1, hpop1⟩ : ∃ queue1, queue.pop probe_index = some queue1 := by
          cases hpop1 : queue.pop probe_index with
          | none => simp [hpop1] at h
          | some queue1 => exact ⟨queue1, rfl⟩
        simp only [hpop1] at h
        have hqueue1 :=
          DistributedDualtreeTaskQueue.pop_eq_of_some queue probe_index t rest hts queue1 hpop1
        subst hqueue1
        have hd1 : ({ self1 with
            donated_task_list_ := donated_back_push self1.donated_task_list_ position } :
            DistributedDualtreeTaskList).donated_task_list_ = pre ++ [(a, r ++ [position])] := by
          simp only [hframe.1, hd, donated_back_push_append]
        have hts1 : vecGet? (({ queue with tasks_ := vecSet queue.tasks_ probe_index rest } :
            DistributedDualtreeTaskQueue).decrement_remaining_local_computation t.work).tasks_
            probe_index = some rest :=
          vecGet?_vecSet_self _ _ _ _ hts
        obtain ⟨k, r1, hk, hr1, hdon, hdest, htasks, hquery, hfits, hstop, s2, hs2, he1, he2, he3⟩ :=
          ih _ _ s3 q3 pre a (r ++ [position]) hts1 hd1 h
        rw [fits_all_with_donated] at hfits
        rw [fits_all_with_donated] at hstop
        rw [push_all_with_donated] at hs2
        cases hpa : push_all self1 (List.take k rest) with
        | none => simp [hpa] at hs2
        | some s2a =>
          simp only [hpa, Option.map_some', Option.some.injEq] at hs2
          refine ⟨k + 1, position :: r1, by simpa using hk, by simp [hr1], ?_, ?_, ?_, hquery,
            ?_, ?_, s2a, ?_, ?_, ?_, ?_⟩
          · simpa using hdon
          · rw [hdest]
            exact hframe.2
          · simpa using htasks
          · simp only [List.take_succ_cons, fits_all, hpb, hfits, Bool.and_true,
              decide_eq_true_eq]
            omega
          · intro hlt
            simp only [List.take_succ_cons, fits_all, hpb]
            rw [hstop (by simpa using hlt)]
            simp
          · simp only [List.take_succ_cons, push_all, hpb]
            exact hpa
          · rw [he1, ← hs2]
          · rw [he2, ← hs2]
          · rw [he3, ← hs2]

theorem push_back_inv (self : DistributedDualtreeTaskList)
    (queue : DistributedDualtreeTaskQueue) (probe_index : Int)
    (s1 : DistributedDualtreeTaskList) (q1 : DistributedDualtreeTaskQueue) (b : Bool)
    (h : self.push_back queue probe_index = some (s1, q1, b)) :
    ∃ (query : SubTable) (selfq : DistributedDualtreeTaskList) (qpos : Int),
      queue.query_subtable probe_index = some query ∧
      self.push_back_ query true = some (selfq, qpos) ∧
      ((qpos < 0 ∧ s1 = selfq ∧ q1 = queue ∧ b = false) ∨
        (0 ≤ qpos ∧ ∃ (ts : List TaskType) (s3 : DistributedDualtreeTaskList)
            (q3 : DistributedDualtreeTaskQueue) (back : Int × List Int) (query_id : KeyType),
          vecGet? queue.tasks_ probe_index = some ts ∧
          push_back_while probe_index ts
            ({ selfq with
                donated_task_list_ := selfq.donated_task_list_ ++ [(qpos, [])] }, queue) =
              some (s3, q3) ∧
          s3.donated_task_list_.getLast? = some back ∧
          query.subtable_id = some query_id ∧
          ((back.2.length = 0 ∧ ∃ s4, s3.pop_ query_id true = some s4 ∧
              s1 = { s4 with donated_task_list_ := s4.donated_task_list_.dropLast } ∧
              q1 = q3 ∧ b = false) ∨
            (back.2.length ≠ 0 ∧ ∃ q4,
              q3.LockQuerySubTable probe_index s3.destination_rank_ = some q4 ∧
              s1 = s3 ∧ q1 = q4 ∧ b = true)))) := by
  unfold push_back at h
  cases hq : queue.query_subtable probe_index with
  | none => simp [hq] at h
  | some query =>
    simp only [hq] at h
    cases hpb : self.push_back_ query true with
    | none => simp [hpb] at h
    | some res =>
      obtain ⟨selfq, qpos⟩ := res
      simp only [hpb] at h
      refine ⟨query, selfq, qpos, rfl, hpb, ?_⟩
      by_cases hneg : qpos < 0
      · simp only [hneg, if_true, Option.some.injEq, Prod.mk.injEq] at h
        exact Or.inl ⟨hneg, h.1.symm, h.2.1.symm, h.2.2.symm⟩
      · simp only [hneg, if_false] at h
        right
        refine ⟨by omega, ?_⟩
        cases hts : vecGet? queue.tasks_ probe_index with
        | none => simp [hts] at h
        | some ts =>
          simp only [hts] at h
          cases hloop : push_back_while probe_index ts
              ({ selfq with
                  donated_task_list_ := selfq.donated_task_list_ ++ [(qpos, [])] }, queue) with
          | none => simp [hloop] at h
          | some res3 =>
            obtain ⟨s3, q3⟩ := res3
            simp only [hloop] at h
            cases hback : s3.donated_task_list_.getLast? with
            | none => simp [hback] at h
            | some back =>
              cases hqid : query.subtable_id with
              | none => simp [hback, hqid] at h
              | some query_id =>
                simp only [hback, hqid] at h
                refine ⟨ts, s3, q3, back, query_id, rfl, hloop, hback, rfl, ?_⟩
                by_cases hvoid : back.2.length = 0
                · simp only [hvoid, if_true] at h
                  left
                  cases hpop : s3.pop_ query_id true with
                  | none => simp [hpop] at h
                  | some s4 =>
                    simp only [hpop, Option.some.injEq, Prod.mk.injEq] at h
                    exact ⟨hvoid, s4, rfl, h.1.symm, h.2.1.symm, h.2.2.symm⟩
                · simp only [hvoid, if_false] at h
                  right
                  cases hlock : q3.LockQuerySubTable probe_index s3.destination_rank_ with
                  | none => simp [hlock] at h
                  | some q4 =>
                    simp only [hlock, Option.some.injEq, Prod.mk.injEq] at h
                    exact ⟨hvoid, q4, rfl, h.1.symm, h.2.1.symm, h.2.2.symm⟩

theorem push_back_donated (self : DistributedDualtreeTaskList)
    (queue : DistributedDualtreeTaskQueue) (probe_index : Int)
    (s1 : DistributedDualtreeTaskList) (q1 : DistributedDualtreeTaskQueue) (b : Bool)
    (h : self.push_back queue probe_index = some (s1, q1, b)) :
    (b = false ∧ s1.donated_task_list_ = self.donated_task_list_) ∨
      (b = true ∧ ∃ (qpos : Int) (refs : List Int), refs ≠ [] ∧
        s1.donated_task_list_ = self.donated_task_list_ ++ [(qpos, refs)]) := by
  obtain ⟨query, selfq, qpos, _, hpb, hcase⟩ := push_back_inv self queue probe_index s1 q1 b h
  have hframe := push_back__donated self query true selfq qpos hpb
  rcases hcase with ⟨_, hs, _, hb⟩ | ⟨_, ts, s3, q3, back, query_id, hts, hloop, hback, _, hcase2⟩
  · left
    rw [hs]
    exact ⟨hb, hframe.1⟩
  · obtain ⟨k, r1, _, _, hdon, _⟩ :=
      push_back_while_spec probe_index ts _ queue s3 q3 selfq.donated_task_list_ qpos [] hts rfl
        hloop
    simp only [List.nil_append] at hdon
    have hback2 : back = (qpos, r1) := by
      rw [hdon] at hback
      simpa using hback.symm
    rcases hcase2 with ⟨hvoid, s4, hpop, hs, _, hb⟩ | ⟨hvoid, q4, _, hs, _, hb⟩
    · left
      refine ⟨hb, ?_⟩
      rw [hs]
      simp only
      rw [(pop__donated s3 query_id true s4 hpop).1, hdon, List.dropLast_concat, hframe.1]
    · right
      refine ⟨hb, qpos, r1, ?_, ?_⟩
      · intro hnil
        apply hvoid
        rw [hback2, hnil]
        rfl
      · rw [hs, hdon, hframe.1]

theorem run_push_back_donated (probes : List Int) :
    ∀ (self : DistributedDualtreeTaskList) (queue : DistributedDualtreeTaskQueue)
      (s1 : DistributedDualtreeTaskList) (q1 : DistributedDualtreeTaskQueue),
      (∀ entry ∈ self.donated_task_list_, entry.2 ≠ []) →
      run_push_back (self, queue) probes = some (s1, q1) →
      ∀ entry ∈ s1.donated_task_list_, entry.2 ≠ [] := by
  induction probes with
  | nil =>
    intro self queue s1 q1 hinv h
    simp only [run_push_back, Option.some.injEq, Prod.mk.injEq] at h
    rw [← h.1]
    exact hinv
  | cons probe_index rest ih =>
    intro self queue s1 q1 hinv h
    simp only [run_push_back] at h
    cases hpb : self.push_back queue probe_index with
    | none => simp [hpb] at h
    | some res =>
      obtain ⟨s2, q2, b⟩ := res
      simp only [hpb] at h
      refine ih s2 q2 s1 q1 ?_ h
      rcases push_back_donated self queue probe_index s2 q2 b hpb with
        ⟨_, hd⟩ | ⟨_, qpos, refs, hrefs, hd⟩
      · rw [hd]
        exact hinv
      · rw [hd]
        intro entry hentry
        rcases List.mem_append.1 hentry with hmem | hmem
        · exact hinv entry hmem
        · rw [List.mem_singleton.1 hmem]
          exact hrefs

/-- C3. After any sequence of `push_back` calls on a freshly initialised task list, every
entry of `donated_task_list_` has a non-empty list of reference positions. -/
theorem push_back_no_empty_donation (d : Int) (B : Nat)
    (queue : DistributedDualtreeTaskQueue) (probes : List Int)
    (s1 : DistributedDualtreeTaskList) (q1 : DistributedDualtreeTaskQueue)
    (h : run_push_back (new.Init d B, queue) probes = some (s1, q1)) :
    ∀ entry ∈ s1.donated_task_list_, entry.2 ≠ [] :=
  run_push_back_donated probes (new.Init d B) queue s1 q1
    (fun entry hentry => absurd hentry (List.not_mem_nil entry)) h

/-- C3, at a concrete input: with 100 points, the first query of `two_query_queue` is donated
with its reference task, the second one finds no room for its reference task and is taken
back. -/
theorem push_back_no_empty_donation_witness :
    ∃ s1 q1, run_push_back (new.Init 1 100, two_query_queue) [0, 1] = some (s1, q1) ∧
      s1.donated_task_list_ = [(0, [1])] ∧
      ∀ entry ∈ s1.donated_task_list_, entry.2 ≠ [] :=
  match hrun : run_push_back (new.Init 1 100, two_query_queue) [0, 1] with
  | some (s1, q1) =>
    ⟨s1, q1, rfl,
      by
        have h2 : (run_push_back (new.Init 1 100, two_query_queue) [0, 1]).map
            (fun r => r.1.donated_task_list_) = some [(0, [1])] := by decide
        rw [hrun] at h2
        exact Option.some.inj h2,
      push_back_no_empty_donation 1 100 two_query_queue [0, 1] s1 q1 hrun⟩
  | none => by
    have h2 : (run_push_back (new.Init 1 100, two_query_queue) [0, 1]).isSome = true := by decide
    rw [hrun] at h2
    exact Bool.noConfusion h2

/-- When `FindSubTable_` does not find the ID of the query subtable of the probed slot in the
map and its point count exceeds the remaining number of points, `push_back` returns false
and leaves both the task list and the queue exactly as they were: no task popped, the
remaining local computation not decremented, the query not locked. -/
theorem push_back_query_too_large (self : DistributedDualtreeTaskList)
    (queue : DistributedDualtreeTaskQueue) (probe_index : Int) (query : SubTable)
    (id : KeyType) (c : Nat) (hq : queue.query_subtable probe_index = some query)
    (hid : query.subtable_id = some id) (hc : query.start_node_.count? = some c)
    (habsent : self.FindSubTable_ id = none)
    (hbig : self.remaining_extra_points_to_hold_ < c) :
    self.push_back queue probe_index = some (self, queue, false) := by
  have hfit : ¬ c ≤ self.remaining_extra_points_to_hold_ := by omega
  simp only [push_back, hq, push_back__eq_of_absent self query true id c hid hc habsent, hfit,
    if_false]
  rfl

/-- The rejected query at a concrete input: a task list with room for 20 points probes the
40-point query of the example queue. -/
theorem push_back_query_too_large_witness :
    example_queue.query_subtable 0 = some (leaf_subtable 0 0 40) ∧
    (leaf_subtable 0 0 40).subtable_id = some (0, 0, 40) ∧
    (new.Init 1 20).FindSubTable_ (0, 0, 40) = none ∧
    (new.Init 1 20).remaining_extra_points_to_hold_ < 40 ∧
    (new.Init 1 20).push_back example_queue 0 = some (new.Init 1 20, example_queue, false) :=
  ⟨rfl, rfl, rfl, by decide,
    push_back_query_too_large (new.Init 1 20) example_queue 0 (leaf_subtable 0 0 40) (0, 0, 40)
      40 rfl rfl rfl rfl (by decide)⟩

theorem fits_all_take_le (ts : List TaskType) :
    ∀ (self : DistributedDualtreeTaskList) (i j : Nat), i ≤ j →
      fits_all self (ts.take j) = true → fits_all self (ts.take i) = true := by
  induction ts with
  | nil => intro self i j _ h; simpa using h
  | cons t rest ih =>
    intro self i j hij h
    cases i with
    | zero => rfl
    | succ i =>
      cases j with
      | zero => omega
      | succ j =>
        simp only [List.take_succ_cons, fits_all] at h ⊢
        cases hpb : self.push_back_ t.reference_subtable false with
        | none => simp [hpb] at h
        | some res =>
          obtain ⟨self1, position⟩ := res
          simp only [hpb, Bool.and_eq_true] at h ⊢
          exact ⟨h.1, ih self1 i j (by omega) h.2⟩

theorem DistributedDualtreeTaskQueue.LockQuerySubTable_tasks
    (queue q4 : DistributedDualtreeTaskQueue) (probe_index rank : Int)
    (h : queue.LockQuerySubTable probe_index rank = some q4) : q4.tasks_ = queue.tasks_ := by
  unfold DistributedDualtreeTaskQueue.LockQuerySubTable at h
  split at h
  · split at h
    · cases h
    · cases h
      rfl
  · cases h

/-- C4. Let the queue hold the tasks `ts` for the probed slot, in `top`/`pop` order, and let
the query subtable be taken in by `push_back_` (leaving the task list `selfq`). Then a
completed `push_back` pops exactly the first `k` tasks, where `k` is the largest number such
that `push_back_` takes in the reference subtables of the first `k` tasks one after another,
starting from `selfq`; the other tasks stay in the queue in their order; and when `k > 0` the
subtables, the map and the remaining number of points are those obtained by taking in these
`k` reference subtables only, so no task after the first rejected one was attempted. -/
theorem push_back_first_fit (self : DistributedDualtreeTaskList)
    (queue : DistributedDualtreeTaskQueue) (probe_index : Int) (query : SubTable)
    (ts : List TaskType) (selfq : DistributedDualtreeTaskList) (qpos : Int)
    (s1 : DistributedDualtreeTaskList) (q1 : DistributedDualtreeTaskQueue) (b : Bool)
    (hq : queue.query_subtable probe_index = some query)
    (hts : vecGet? queue.tasks_ probe_index = some ts)
    (hpb : self.push_back_ query true = some (selfq, qpos)) (hadm : 0 ≤ qpos)
    (h : self.push_back queue probe_index = some (s1, q1, b)) :
    ∃ k : Nat, k ≤ ts.length ∧
      fits_all selfq (ts.take k) = true ∧
      (∀ j : Nat, j ≤ ts.length → fits_all selfq (ts.take j) = true → j ≤ k) ∧
      vecGet? q1.tasks_ probe_index = some (ts.drop k) ∧
      (0 < k → ∃ s2, push_all selfq (ts.take k) = some s2 ∧
        s1.sub_tables_ = s2.sub_tables_ ∧
        s1.id_to_position_map_ = s2.id_to_position_map_ ∧
        s1.remaining_extra_points_to_hold_ = s2.remaining_extra_points_to_hold_) := by
  obtain ⟨query1, selfq1, qpos1, hq1, hpb1, hcase⟩ :=
    push_back_inv self queue probe_index s1 q1 b h
  rw [hq] at hq1
  have hquery := Option.some.inj hq1
  subst hquery
  rw [hpb] at hpb1
  simp only [Option.some.injEq, Prod.mk.injEq] at hpb1
  obtain ⟨hs, hp⟩ := hpb1
  subst hs hp
  rcases hcase with ⟨hneg, _⟩ | ⟨_, ts1, s3, q3, back, query_id, hts1, hloop, hback, _, hcase2⟩
  · omega
  · rw [hts] at hts1
    have htseq := Option.some.inj hts1
    subst htseq
    obtain ⟨k, r1, hk, hr1, hdon, _, htasks, _, hfits, hstop, s2, hs2, he1, he2, he3⟩ :=
      push_back_while_spec probe_index ts _ queue s3 q3 selfq.donated_task_list_ qpos [] hts rfl
        hloop
    rw [fits_all_with_donated] at hfits
    rw [fits_all_with_donated] at hstop
    rw [push_all_with_donated] at hs2
    simp only [List.nil_append] at hdon
    have hback2 : back = (qpos, r1) := by
      rw [hdon] at hback
      simpa using hback.symm
    refine ⟨k, hk, hfits, ?_, ?_, ?_⟩
    · intro j hj hjfits
      by_contra hlt
      have hk1 : k + 1 ≤ j := by omega
      have := fits_all_take_le ts selfq (k + 1) j hk1 hjfits
      rw [hstop (by omega)] at this
      exact Bool.noConfusion this
    · rcases hcase2 with ⟨_, s4, _, _, hq3, _⟩ | ⟨_, q4, hlock, _, hq4, _⟩
      · rw [hq3]
        exact htasks
      · rw [hq4, DistributedDualtreeTaskQueue.LockQuerySubTable_tasks q3 q4 _ _ hlock]
        exact htasks
    · intro hkpos
      rcases hcase2 with ⟨hvoid, _⟩ | ⟨_, q4, _, hs3, _, _⟩
      · rw [hback2] at hvoid
        simp only at hvoid
        omega
      · cases hpa : push_all selfq (List.take k ts) with
        | none => simp [hpa] at hs2
        | some s2a =>
          simp only [hpa, Option.map_some', Option.some.injEq] at hs2
          refine ⟨s2a, rfl, ?_, ?_, ?_⟩
          · rw [hs3, he1, ← hs2]
          · rw [hs3, he2, ← hs2]
          · rw [hs3, he3, ← hs2]

/-- C4, at a concrete input: the example queue probed by a task list with room for 100
points; one task is popped, two stay. -/
theorem push_back_first_fit_witness :
    example_queue.query_subtable 0 = some (leaf_subtable 0 0 40) ∧
    vecGet? example_queue.tasks_ 0 = some example_tasks ∧
    (new.Init 1 100).push_back_ (leaf_subtable 0 0 40) true = some (example_after_query, 0) ∧
    (0 : Int) ≤ 0 ∧
    (new.Init 1 100).push_back example_queue 0 =
      some (example_bundle, example_queue_after, true) ∧
    ∃ k : Nat, k ≤ example_tasks.length ∧
      fits_all example_after_query (example_tasks.take k) = true ∧
      (∀ j : Nat, j ≤ example_tasks.length →
        fits_all example_after_query (example_tasks.take j) = true → j ≤ k) ∧
      vecGet? example_queue_after.tasks_ 0 = some (example_tasks.drop k) ∧
      (0 < k → ∃ s2, push_all example_after_query (example_tasks.take k) = some s2 ∧
        example_bundle.sub_tables_ = s2.sub_tables_ ∧
        example_bundle.id_to_position_map_ = s2.id_to_position_map_ ∧
        example_bundle.remaining_extra_points_to_hold_ = s2.remaining_extra_points_to_hold_) :=
  ⟨rfl, rfl, rfl, le_refl _, rfl,
    push_back_first_fit (new.Init 1 100) example_queue 0 (leaf_subtable 0 0 40) example_tasks
      example_after_query 0 example_bundle example_queue_after true rfl rfl rfl (le_refl _) rfl⟩

theorem SubTable_count?_of_subtable_id (t : SubTable) (rank begin : Int) (count : Nat)
    (h : t.subtable_id = some (rank, begin, (count : Int))) :
    t.start_node_.count? = some count := by
  unfold SubTable.subtable_id at h
  cases ht : t.table_ with
  | none => simp [ht] at h
  | some tb =>
    cases hn : t.start_node_ with
    | null => simp [ht, hn] at h
    | node b c l r =>
      simp only [ht, hn, Option.some.injEq, Prod.mk.injEq, Nat.cast_inj] at h
      simp only [TreeType.count?, h.2.2]

/-- C5. The example scenario of the specification. A freshly initialised task list with room
for 100 points probes an unlocked query subtable of 40 points whose queue holds three
reference tasks with subtables of 30, 50 and 10 points, in that order. `push_back` returns
true; the task list then holds exactly two slots: an alias of the query subtable (every
field of the query, `is_alias_` set) as a query with reference count 0, and an alias of the
first reference subtable as a reference with count 1; `donated_task_list_` is [(0, [1])]
and 30 points remain; the 50-point and the 10-point task are still in the queue, the work of
the first task is taken off the remaining local computation and the query is locked for the
destination rank. -/
theorem push_back_spec_example (d : Int) (query r1 r2 r3 : SubTable) (w1 w2 w3 rlc : Nat)
    (rankq beginq rank1 begin1 rank2 begin2 rank3 begin3 : Int)
    (hq : query.subtable_id = some (rankq, beginq, 40))
    (h1 : r1.subtable_id = some (rank1, begin1, 30))
    (h2 : r2.subtable_id = some (rank2, begin2, 50))
    (_h3 : r3.subtable_id = some (rank3, begin3, 10))
    (hfree : query.is_locked = false) :
    (new.Init d 100).push_back
        { query_subtables_ := [query]
          tasks_ := [[{ reference_subtable_ := r1, work_ := w1 },
                      { reference_subtable_ := r2, work_ := w2 },
                      { reference_subtable_ := r3, work_ := w3 }]]
          remaining_local_computation_ := rlc } 0 =
      some
        ({ destination_rank_ := d
           donated_task_list_ := [(0, [1])]
           id_to_position_map_ :=
             MapType.assign (MapType.assign [] (rankq, beginq, 40) 0) (rank1, begin1, 30) 1
           remaining_extra_points_to_hold_ := 30
           sub_tables_ := [({ query with is_alias_ := true }, true, 0),
                           ({ r1 with is_alias_ := true }, false, 1)] },
          { query_subtables_ := [{ query with locked_mpi_rank_ := d }]
            tasks_ := [[{ reference_subtable_ := r2, work_ := w2 },
                        { reference_subtable_ := r3, work_ := w3 }]]
            remaining_local_computation_ := (rlc + (ULONG_SIZE - w1 % ULONG_SIZE)) % ULONG_SIZE },
          true) := by
  have hcq := SubTable_count?_of_subtable_id query rankq beginq 40 hq
  have hc1 := SubTable_count?_of_subtable_id r1 rank1 begin1 30 h1
  have hc2 := SubTable_count?_of_subtable_id r2 rank2 begin2 50 h2
  have e1 := push_back__eq_of_absent (new.Init d 100) query true _ 40 hq hcq rfl
  simp only [Init, new, show (40 : Nat) ≤ 100 from by decide, if_true, List.nil_append,
    List.length_nil, Nat.cast_zero, show (100 : Nat) - 40 = 60 from rfl] at e1
  have e2 := push_back__eq_of_absent
    { destination_rank_ := d
      donated_task_list_ := [(0, [])]
      id_to_position_map_ := MapType.assign [] (rankq, beginq, 40) 0
      remaining_extra_points_to_hold_ := 60
      sub_tables_ := [(SubTable.new.Alias query, true, 0)] } r1 false _ 30 h1 hc1
    (by simp [FindSubTable_, MapType.find_assign, MapType.find, keyEquiv_eq_decide])
  simp only [show (30 : Nat) ≤ 60 from by decide, if_true, List.length_singleton, Nat.cast_one,
    List.singleton_append, Bool.false_eq_true, if_false, show (60 : Nat) - 30 = 30 from rfl]
    at e2
  have e3 := push_back__eq_of_absent
    { destination_rank_ := d
      donated_task_list_ := [(0, [1])]
      id_to_position_map_ :=
        MapType.assign (MapType.assign [] (rankq, beginq, 40) 0) (rank1, begin1, 30) 1
      remaining_extra_points_to_hold_ := 30
      sub_tables_ := [(SubTable.new.Alias query, true, 0),
                      (SubTable.new.Alias r1, false, 1)] } r2 false _ 50 h2 hc2
    (by simp [FindSubTable_, MapType.find_assign, MapType.find, keyEquiv_eq_decide])
  simp only [show ¬ (50 : Nat) ≤ 30 from by decide, if_false] at e3
  have key : (new.Init d 100).push_back
        { query_subtables_ := [query]
          tasks_ := [[{ reference_subtable_ := r1, work_ := w1 },
                      { reference_subtable_ := r2, work_ := w2 },
                      { reference_subtable_ := r3, work_ := w3 }]]
          remaining_local_computation_ := rlc } 0 =
      some
        ({ destination_rank_ := d
           donated_task_list_ := [(0, [1])]
           id_to_position_map_ :=
             MapType.assign (MapType.assign [] (rankq, beginq, 40) 0) (rank1, begin1, 30) 1
           remaining_extra_points_to_hold_ := 30
           sub_tables_ := [(SubTable.new.Alias query, true, 0),
                           (SubTable.new.Alias r1, false, 1)] },
          { query_subtables_ := [query.Lock d]
            tasks_ := [[{ reference_subtable_ := r2, work_ := w2 },
                        { reference_subtable_ := r3, work_ := w3 }]]
            remaining_local_computation_ := (rlc + (ULONG_SIZE - w1 % ULONG_SIZE)) % ULONG_SIZE },
          true) := by
    simp only [push_back, DistributedDualtreeTaskQueue.query_subtable, vecGet?, Init, new]
    simp [e1, push_back_while, TaskType.reference_subtable, TaskType.work, e2,
      donated_back_push, DistributedDualtreeTaskQueue.pop, vecGet?, vecSet,
      DistributedDualtreeTaskQueue.decrement_remaining_local_computation, e3,
      DistributedDualtreeTaskQueue.LockQuerySubTable, hq, hfree]
  exact key

/-- C5, at a concrete input: the example queue, whose subtables are leaves of rank 0. The
two slots of the task list are written out field by field. -/
theorem push_back_spec_example_witness :
    (leaf_subtable 0 0 40).subtable_id = some (0, 0, 40) ∧
    (leaf_subtable 0 40 30).subtable_id = some (0, 40, 30) ∧
    (leaf_subtable 0 70 50).subtable_id = some (0, 70, 50) ∧
    (leaf_subtable 0 120 10).subtable_id = some (0, 120, 10) ∧
    (leaf_subtable 0 0 40).is_locked = false ∧
    (new.Init 1 100).push_back
        { query_subtables_ := [leaf_subtable 0 0 40]
          tasks_ := [[{ reference_subtable_ := leaf_subtable 0 40 30, work_ := 1200 },
                      { reference_subtable_ := leaf_subtable 0 70 50, work_ := 2000 },
                      { reference_subtable_ := leaf_subtable 0 120 10, work_ := 400 }]]
          remaining_local_computation_ := 5000 } 0 =
      some
        ({ destination_rank_ := 1
           donated_task_list_ := [(0, [1])]
           id_to_position_map_ := MapType.assign (MapType.assign [] (0, 0, 40) 0) (0, 40, 30) 1
           remaining_extra_points_to_hold_ := 30
           sub_tables_ := [({ leaf_subtable 0 0 40 with is_alias_ := true }, true, 0),
                           ({ leaf_subtable 0 40 30 with is_alias_ := true }, false, 1)] },
          { query_subtables_ := [{ leaf_subtable 0 0 40 with locked_mpi_rank_ := 1 }]
            tasks_ := [[{ reference_subtable_ := leaf_subtable 0 70 50, work_ := 2000 },
                        { reference_subtable_ := leaf_subtable 0 120 10, work_ := 400 }]]
            remaining_local_computation_ :=
              (5000 + (ULONG_SIZE - 1200 % ULONG_SIZE)) % ULONG_SIZE },
          true) :=
  ⟨rfl, rfl, rfl, rfl, rfl,
    push_back_spec_example 1 (leaf_subtable 0 0 40) (leaf_subtable 0 40 30)
      (leaf_subtable 0 70 50) (leaf_subtable 0 120 10) 1200 2000 400 5000 0 0 0 40 0 70 0 120
      rfl rfl rfl rfl rfl⟩

/-- C1, evaluated at a failing input. A task list initialised with 100 points takes in A
(10 points) as a reference and B (20 points) as a query, and releases B as a query. B sat in
the last slot, so `pop_` writes `id_to_position_map_[B] = 1` back after erasing it. C (30
points) is then stored at position 1, and B, offered as a query again, is found at position
1 and aliased over C without being charged. The run ends with 60 remaining points and
subtables of 10 and 20 points: 60 + 30 is not 100. -/
theorem budget_invariant_fails_after_last_slot_eviction :
    (run_cache_calls (new.Init 1 100)
        [.push (leaf_subtable 0 0 10) false, .push (leaf_subtable 0 10 20) true,
          .pop (0, 10, 20) true, .push (leaf_subtable 0 30 30) false,
          .push (leaf_subtable 0 10 20) true]).map
      (fun s => (s.remaining_extra_points_to_hold_, held_points s,
        s.sub_tables_.map (fun slot : SlotType => slot.1.subtable_id),
        decide (s.remaining_extra_points_to_hold_ + held_points s = 100))) =
      some (60, 30, [some (0, 0, 10), some (0, 10, 20)], false) := by
  rfl

/-- C6, evaluated at a failing input. A task list initialised with 100 points takes in A
(0, 0, 10) as a reference and B (0, 10, 20) as a query, releases B as a query, and takes in
C (0, 30, 30) as a reference. B sat in the last slot, so `pop_` wrote
`id_to_position_map_[B] = 1` back after erasing it. In the state reached, B is held in no
slot of `sub_tables_`, 60 points remain and B has 20 points, yet `FindSubTable_` finds B at
position 1, where C is. Offered as a reference, B is not appended: `push_back_` returns 1,
the two slots stay two, slot 1 (still C) gets the reference count 2 and the 60 remaining
points stay 60. Offered as a query, B is aliased over C in slot 1, which becomes a query
slot with reference count 1; again no slot is appended and nothing is charged. -/
theorem push_back__finds_evicted_subtable :
    (run_cache_calls (new.Init 1 100)
        [.push (leaf_subtable 0 0 10) false, .push (leaf_subtable 0 10 20) true,
          .pop (0, 10, 20) true, .push (leaf_subtable 0 30 30) false]).map
      (fun s => (s.resident (0, 10, 20), s.FindSubTable_ (0, 10, 20),
        s.remaining_extra_points_to_hold_,
        s.sub_tables_.map (fun slot : SlotType => (slot.1.subtable_id, slot.2)),
        (s.push_back_ (leaf_subtable 0 10 20) false).map
          (fun res => (res.2, res.1.remaining_extra_points_to_hold_,
            res.1.sub_tables_.map (fun slot : SlotType => (slot.1.subtable_id, slot.2)))),
        (s.push_back_ (leaf_subtable 0 10 20) true).map
          (fun res => (res.2, res.1.remaining_extra_points_to_hold_,
            res.1.sub_tables_.map (fun slot : SlotType => (slot.1.subtable_id, slot.2)))))) =
      some (false, some 1, 60,
        [(some (0, 0, 10), false, 1), (some (0, 30, 30), false, 1)],
        some (1, 60, [(some (0, 0, 10), false, 1), (some (0, 30, 30), false, 2)]),
        some (1, 60, [(some (0, 0, 10), false, 1), (some (0, 10, 20), true, 1)])) := by
  rfl

/-- C9, evaluated at a failing input. A task list with 100 points is built on
`stale_query_queue`. The first probe donates the 40-point query with its 30-point reference.
The second probe takes in the 20-point query X = (0, 200, 20), cannot take in its 50-point
reference and releases X from the last slot, so `pop_` leaves `id_to_position_map_[X] = 2`
behind. The third probe donates the 10-point query, stored at position 2, with its 15-point
reference. Now X is held in no slot and 5 points remain, fewer than the 20 points of X.
Probing the second slot again returns false, no task is popped and X is not locked, but the
task list is not as it was: `push_back_` found X at position 2 and aliased it over the
donated 10-point query, and the release that followed evicted that slot and added 20
points, so 25 points remain, three slots are left and the donated entry (2, [3]) now
points at the 15-point reference and at a position that no longer exists. -/
theorem push_back_rejected_query_changes_task_list :
    (run_push_back (new.Init 1 100, stale_query_queue) [0, 1, 2]).map
      (fun built => (built.1.resident (0, 200, 20),
        built.2.query_subtable 1,
        built.1.remaining_extra_points_to_hold_,
        built.1.sub_tables_.map (fun slot : SlotType => slot.1.subtable_id),
        built.1.donated_task_list_,
        (built.1.push_back built.2 1).map
          (fun res => (res.2.2, decide (res.2.1 = built.2), decide (res.1 = built.1),
            res.1.remaining_extra_points_to_hold_,
            res.1.sub_tables_.map (fun slot : SlotType => slot.1.subtable_id),
            res.1.donated_task_list_)))) =
      some (false, some (leaf_subtable 0 200 20), 5,
        [some (0, 0, 40), some (0, 40, 30), some (0, 300, 10), some (0, 400, 15)],
        [(0, [1]), (2, [3])],
        some (false, true, false, 25,
          [some (0, 0, 40), some (0, 40, 30), some (0, 400, 15)],
          [(0, [1]), (2, [3])])) := by
  rfl

/-- C10, evaluated at a failing input. A task list with 100 points first donates the 40-point
query of `two_query_queue` with its 30-point reference task. Probing the second slot then
takes in the 5-point query at position 2, finds no room for the 50-point reference subtable,
and takes the query back: `push_back` returns false, the subtables, the remaining points and
the donated task list are as before the call, but `id_to_position_map_` is not: the ID of
the query, not findable before the call, is now found at position 2, past the end of
`sub_tables_`. -/
theorem void_donation_leaves_stale_map_entry :
    ((new.Init 1 100).push_back two_query_queue 0).bind
      (fun before => (before.1.push_back before.2.1 1).map
        (fun after => (before.2.2, after.2.2,
          decide (after.1.sub_tables_ = before.1.sub_tables_),
          decide (after.1.remaining_extra_points_to_hold_ =
            before.1.remaining_extra_points_to_hold_),
          decide (after.1.donated_task_list_ = before.1.donated_task_list_),
          decide (after.1.id_to_position_map_ = before.1.id_to_position_map_),
          before.1.FindSubTable_ (0, 200, 5), after.1.FindSubTable_ (0, 200, 5),
          after.1.sub_tables_.length))) =
      some (true, false, true, true, true, false, none, some 2, 2) := by
  rfl

theorem fits_all_take_one (self : DistributedDualtreeTaskList) (t : TaskType)
    (rest : List TaskType) :
    fits_all self ((t :: rest).take 1) = true ↔
      ∃ (selfr : DistributedDualtreeTaskList) (rpos : Int),
        self.push_back_ t.reference_subtable false = some (selfr, rpos) ∧ 0 ≤ rpos := by
  simp only [List.take_succ_cons, List.take_zero, fits_all]
  cases hpb : self.push_back_ t.reference_subtable false with
  | none => simp
  | some res =>
    obtain ⟨selfr, rpos⟩ := res
    simp only [fits_all, Bool.and_true, decide_eq_true_eq, Option.some.injEq, Prod.mk.injEq]
    constructor
    · intro h0
      exact ⟨selfr, rpos, ⟨rfl, rfl⟩, h0⟩
    · rintro ⟨_, _, ⟨_, h2⟩, h0⟩
      rw [h2]
      exact h0

/-- C11. A completed `push_back` returns true exactly when the query subtable of the probed
slot was taken in and the first reference task of the slot (the one `top` delivers) was
taken in after it, that is, when at least one reference task was admitted. When it returns
true, the query subtable of the slot is, in the queue after the call, the old one locked for
`destination_rank_`; when it returns false, the query subtables of the queue are untouched,
so the call locked nothing. -/
theorem push_back_true_iff (self : DistributedDualtreeTaskList)
    (queue : DistributedDualtreeTaskQueue) (probe_index : Int)
    (s1 : DistributedDualtreeTaskList) (q1 : DistributedDualtreeTaskQueue) (b : Bool)
    (h : self.push_back queue probe_index = some (s1, q1, b)) :
    (b = true ↔
      ∃ (query : SubTable) (selfq : DistributedDualtreeTaskList) (qpos : Int) (t : TaskType)
        (rest : List TaskType) (selfr : DistributedDualtreeTaskList) (rpos : Int),
        queue.query_subtable probe_index = some query ∧
        self.push_back_ query true = some (selfq, qpos) ∧ 0 ≤ qpos ∧
        vecGet? queue.tasks_ probe_index = some (t :: rest) ∧
        selfq.push_back_ t.reference_subtable false = some (selfr, rpos) ∧ 0 ≤ rpos) ∧
    (b = true →
      ∃ query : SubTable, queue.query_subtable probe_index = some query ∧
        q1.query_subtable probe_index = some (query.Lock self.destination_rank_) ∧
        (query.Lock self.destination_rank_).locked_mpi_rank_ = self.destination_rank_) ∧
    (b = false → q1.query_subtables_ = queue.query_subtables_) := by
  obtain ⟨query, selfq, qpos, hq, hpb, hcase⟩ := push_back_inv self queue probe_index s1 q1 b h
  have hframe := push_back__donated self query true selfq qpos hpb
  rcases hcase with ⟨hneg, _, hq1, hb⟩ | ⟨hpos, ts, s3, q3, back, query_id, hts, hloop, hback, _,
    hcase2⟩
  · refine ⟨?_, ?_, ?_⟩
    · constructor
      · intro hbt
        rw [hb] at hbt
        exact Bool.noConfusion hbt
      · rintro ⟨query2, selfq2, qpos2, _, _, _, _, hq2, hpb2, hpos2, _⟩
        rw [hq] at hq2
        have := Option.some.inj hq2
        subst this
        rw [hpb] at hpb2
        simp only [Option.some.injEq, Prod.mk.injEq] at hpb2
        omega
    · intro hbt
      rw [hb] at hbt
      exact Bool.noConfusion hbt
    · intro _
      rw [hq1]
  · obtain ⟨k, r1, hk, hr1, hdon, hdest, _, hquery, hfits, hstop, _⟩ :=
      push_back_while_spec probe_index ts _ queue s3 q3 selfq.donated_task_list_ qpos [] hts rfl
        hloop
    rw [fits_all_with_donated] at hfits
    rw [fits_all_with_donated] at hstop
    simp only [List.nil_append] at hdon
    have hback2 : back = (qpos, r1) := by
      rw [hdon] at hback
      simpa using hback.symm
    have hbk : b = true ↔ 0 < k := by
      rcases hcase2 with ⟨hvoid, _, _, _, _, hb⟩ | ⟨hvoid, _, _, _, _, hb⟩
      · rw [hback2] at hvoid
        simp only at hvoid
        rw [hb]
        constructor
        · intro hbt
          exact Bool.noConfusion hbt
        · intro hk0
          omega
      · rw [hback2] at hvoid
        simp only at hvoid
        rw [hb]
        constructor
        · intro _
          omega
        · intro _
          rfl
    refine ⟨?_, ?_, ?_⟩
    · rw [hbk]
      constructor
      · intro hk0
        cases ts with
        | nil => simp at hk; omega
        | cons t rest =>
          have h1 := fits_all_take_le (t :: rest) selfq 1 k (by omega) hfits
          obtain ⟨selfr, rpos, hr, hrpos⟩ := (fits_all_take_one selfq t rest).1 h1
          exact ⟨query, selfq, qpos, t, rest, selfr, rpos, hq, hpb, hpos, hts, hr, hrpos⟩
      · rintro ⟨query2, selfq2, qpos2, t, rest, selfr, rpos, hq2, hpb2, _, hts2, hr, hrpos⟩
        rw [hq] at hq2
        have := Option.some.inj hq2
        subst this
        rw [hpb] at hpb2
        simp only [Option.some.injEq, Prod.mk.injEq] at hpb2
        obtain ⟨hs, _⟩ := hpb2
        subst hs
        rw [hts] at hts2
        have := Option.some.inj hts2
        subst this
        by_contra hk0
        have hk0 : k = 0 := by omega
        subst hk0
        have h1 := hstop (by simp)
        have h2 := (fits_all_take_one selfq t rest).2 ⟨selfr, rpos, hr, hrpos⟩
        rw [h1] at h2
        exact Bool.noConfusion h2
    · intro hbt
      rcases hcase2 with ⟨_, _, _, _, _, hb⟩ | ⟨_, q4, hlock, _, hq4, _⟩
      · rw [hb] at hbt
        exact Bool.noConfusion hbt
      · refine ⟨query, hq, ?_, rfl⟩
        have hq3 : vecGet? q3.query_subtables_ probe_index = some query := by
          rw [hquery]
          exact hq
        simp only [DistributedDualtreeTaskQueue.LockQuerySubTable, hq3] at hlock
        by_cases hl : query.is_locked = true
        · simp [hl] at hlock
        simp only [hl, if_false, Option.some.injEq, Bool.false_eq_true] at hlock
        rw [hq4, ← hlock]
        simp only [DistributedDualtreeTaskQueue.query_subtable]
        rw [hdest]
        simp only
        rw [hframe.2]
        exact vecGet?_vecSet_self _ _ _ _ hq3
    · intro hbf
      rcases hcase2 with ⟨_, _, _, _, hq3, _⟩ | ⟨_, _, _, _, _, hb⟩
      · rw [hq3, hquery]
      · rw [hb] at hbf
        exact Bool.noConfusion hbf

/-- C11, at a concrete input: the example scenario returns true and locks the query for
rank 1. -/
theorem push_back_true_iff_witness :
    (new.Init 1 100).push_back example_queue 0 =
      some (example_bundle, example_queue_after, true) ∧
    example_queue_after.query_subtable 0 = some ((leaf_subtable 0 0 40).Lock 1) ∧
    ((true = true ↔
      ∃ (query : SubTable) (selfq : DistributedDualtreeTaskList) (qpos : Int) (t : TaskType)
        (rest : List TaskType) (selfr : DistributedDualtreeTaskList) (rpos : Int),
        example_queue.query_subtable 0 = some query ∧
        (new.Init 1 100).push_back_ query true = some (selfq, qpos) ∧ 0 ≤ qpos ∧
        vecGet? example_queue.tasks_ 0 = some (t :: rest) ∧
        selfq.push_back_ t.reference_subtable false = some (selfr, rpos) ∧ 0 ≤ rpos) ∧
    (true = true →
      ∃ query : SubTable, example_queue.query_subtable 0 = some query ∧
        example_queue_after.query_subtable 0 =
          some (query.Lock (new.Init 1 100).destination_rank_) ∧
        (query.Lock (new.Init 1 100).destination_rank_).locked_mpi_rank_ =
          (new.Init 1 100).destination_rank_) ∧
    (true = false → example_queue_after.query_subtables_ = example_queue.query_subtables_)) :=
  ⟨rfl, rfl,
    push_back_true_iff (new.Init 1 100) example_queue 0 example_bundle example_queue_after true
      rfl⟩

theorem List_set_of_getElem? {α : Type} (l : List α) :
    ∀ (i : Nat) (x : α), l[i]? = some x → l.set i x = l := by
  induction l with
  | nil => intro i x _; rfl
  | cons a l ih =>
    intro i x h
    cases i with
    | zero =>
      simp only [List.getElem?_cons_zero, Option.some.injEq] at h
      simp [h]
    | succ i =>
      simp only [List.getElem?_cons_succ] at h
      simp [ih i x h]

theorem vecSet_self {α : Type} (v : List α) (i : Int) (x : α) (h : vecGet? v i = some x) :
    vecSet v i x = v := by
  obtain ⟨_, h1⟩ := (vecGet?_eq_some_iff _ _ _).1 h
  exact List_set_of_getElem? v _ x h1

theorem vecSet_vecSet {α : Type} (v : List α) (i : Int) (x y : α) :
    vecSet (vecSet v i x) i y = vecSet v i y := by
  simp only [vecSet, List.set_set]

theorem DistributedDualtreeTaskQueue.foldl_decrement (l : List TaskType) :
    ∀ queue : DistributedDualtreeTaskQueue,
      l.foldl (fun q t => q.decrement_remaining_local_computation t.work) queue =
        { queue with
          remaining_local_computation_ :=
            l.foldl (fun c t => (c + (ULONG_SIZE - t.work % ULONG_SIZE)) % ULONG_SIZE)
              queue.remaining_local_computation_ } := by
  induction l with
  | nil => intro queue; rfl
  | cons t rest ih =>
    intro queue
    simp only [List.foldl_cons]
    rw [ih]
    rfl

theorem foldl_decrement_sum (l : List TaskType) :
    ∀ c : Nat,
      (l.foldl (fun c t => (c + (ULONG_SIZE - t.work % ULONG_SIZE)) % ULONG_SIZE) c +
          (l.map TaskType.work).sum) % ULONG_SIZE = c % ULONG_SIZE := by
  induction l with
  | nil => intro c; simp
  | cons t rest ih =>
    intro c
    simp only [List.foldl_cons, List.map_cons, List.sum_cons]
    have h1 := ih ((c + (ULONG_SIZE - t.work % ULONG_SIZE)) % ULONG_SIZE)
    generalize List.foldl (fun c t => (c + (ULONG_SIZE - t.work % ULONG_SIZE)) % ULONG_SIZE)
      ((c + (ULONG_SIZE - t.work % ULONG_SIZE)) % ULONG_SIZE) rest = x at h1 ⊢
    generalize (List.map TaskType.work rest).sum = y at h1 ⊢
    generalize t.work = w at h1 ⊢
    simp only [ULONG_SIZE] at h1 ⊢
    omega

theorem push_back_while_queue (probe_index : Int) (ts : List TaskType) :
    ∀ (self : DistributedDualtreeTaskList) (queue : DistributedDualtreeTaskQueue)
      (s3 : DistributedDualtreeTaskList) (q3 : DistributedDualtreeTaskQueue)
      (pre : List (Int × List Int)) (a : Int) (r : List Int),
      vecGet? queue.tasks_ probe_index = some ts →
      self.donated_task_list_ = pre ++ [(a, r)] →
      push_back_while probe_index ts (self, queue) = some (s3, q3) →
      ∃ (k : Nat) (r1 : List Int), k ≤ ts.length ∧ r1.length = k ∧
        s3.donated_task_list_ = pre ++ [(a, r ++ r1)] ∧
        q3 = (ts.take k).foldl (fun q t => q.decrement_remaining_local_computation t.work)
          { queue with tasks_ := vecSet queue.tasks_ probe_index (ts.drop k) } := by
  induction ts with
  | nil =>
    intro self queue s3 q3 pre a r hts hd h
    simp only [push_back_while, Option.some.injEq, Prod.mk.injEq] at h
    obtain ⟨h1, h2⟩ := h
    subst h1 h2
    refine ⟨0, [], le_refl _, rfl, by simpa using hd, ?_⟩
    simp only [List.take_nil, List.drop_nil, List.foldl_nil, vecSet_self _ _ _ hts]
  | cons t rest ih =>
    intro self queue s3 q3 pre a r hts hd h
    simp only [push_back_while] at h
    cases hpb : self.push_back_ t.reference_subtable false with
    | none => simp [hpb] at h
    | some res =>
      obtain ⟨self1, position⟩ := res
      simp only [hpb] at h
      have hframe := push_back__donated self _ _ self1 position hpb
      by_cases hneg : position < 0
      · simp only [hneg, if_true, Option.some.injEq, Prod.mk.injEq] at h
        obtain ⟨h1, h2⟩ := h
        subst h1 h2
        refine ⟨0, [], Nat.zero_le _, rfl, ?_, ?_⟩
        · rw [hframe.1]
          simpa using hd
        · simp only [List.take_zero, List.drop_zero, List.foldl_nil, vecSet_self _ _ _ hts]
      · simp only [hneg, if_false] at h
        obtain ⟨queue1, hpop1⟩ : ∃ queue1, queue.pop probe_index = some queue1 := by
          cases hpop1 : queue.pop probe_index with
          | none => simp [hpop1] at h
          | some queue1 => exact ⟨queue1, rfl⟩
        simp only [hpop1] at h
        have hqueue1 :=
          DistributedDualtreeTaskQueue.pop_eq_of_some queue probe_index t rest hts queue1 hpop1
        subst hqueue1
        have hd1 : ({ self1 with
            donated_task_list_ := donated_back_push self1.donated_task_list_ position } :
            DistributedDualtreeTaskList).donated_task_list_ = pre ++ [(a, r ++ [position])] := by
          simp only [hframe.1, hd, donated_back_push_append]
        have hts1 : vecGet? (({ queue with tasks_ := vecSet queue.tasks_ probe_index rest } :
            DistributedDualtreeTaskQueue).decrement_remaining_local_computation t.work).tasks_
            probe_index = some rest :=
          vecGet?_vecSet_self _ _ _ _ hts
        obtain ⟨k, r1, hk, hr1, hdon, hq3⟩ := ih _ _ s3 q3 pre a (r ++ [position]) hts1 hd1 h
        refine ⟨k + 1, position :: r1, by simpa using hk, by simp [hr1], by simpa using hdon, ?_⟩
        rw [hq3]
        simp only [List.take_succ_cons, List.drop_succ_cons, List.foldl_cons,
          DistributedDualtreeTaskQueue.decrement_remaining_local_computation, vecSet_vecSet]

/-- C12. For every completed `push_back` call on a slot whose queue holds the tasks `ts`,
there is a number `k` such that exactly the first `k` tasks were popped, the counter of
remaining local computation is the one obtained by calling
`decrement_remaining_local_computation` once with the work of each popped task (in
`unsigned long` arithmetic the counter plus the sum of that work is the old counter), and
`k` reference positions were appended for the query; a call that returns false popped no
task, decremented nothing and left the queue and the donated task list as they were. -/
theorem push_back_work_accounting (self : DistributedDualtreeTaskList)
    (queue : DistributedDualtreeTaskQueue) (probe_index : Int) (ts : List TaskType)
    (s1 : DistributedDualtreeTaskList) (q1 : DistributedDualtreeTaskQueue) (b : Bool)
    (hts : vecGet? queue.tasks_ probe_index = some ts)
    (h : self.push_back queue probe_index = some (s1, q1, b)) :
    ∃ (k : Nat) (refs : List Int), k ≤ ts.length ∧ refs.length = k ∧
      vecGet? q1.tasks_ probe_index = some (ts.drop k) ∧
      q1.remaining_local_computation_ =
        ((ts.take k).foldl (fun q t => q.decrement_remaining_local_computation t.work)
          queue).remaining_local_computation_ ∧
      (q1.remaining_local_computation_ + ((ts.take k).map TaskType.work).sum) % ULONG_SIZE =
        queue.remaining_local_computation_ % ULONG_SIZE ∧
      ((b = true ∧ ∃ qpos : Int,
          s1.donated_task_list_ = self.donated_task_list_ ++ [(qpos, refs)]) ∨
        (b = false ∧ k = 0 ∧ s1.donated_task_list_ = self.donated_task_list_ ∧ q1 = queue)) := by
  obtain ⟨query, selfq, qpos, hq, hpb, hcase⟩ := push_back_inv self queue probe_index s1 q1 b h
  have hframe := push_back__donated self query true selfq qpos hpb
  rcases hcase with ⟨_, hs1, hq1, hb⟩ | ⟨_, ts1, s3, q3, back, query_id, hts1, hloop, hback, _,
    hcase2⟩
  · refine ⟨0, [], Nat.zero_le _, rfl, ?_, ?_, ?_, Or.inr ⟨hb, rfl, ?_, hq1⟩⟩
    · rw [hq1]
      simpa using hts
    · rw [hq1]
      rfl
    · rw [hq1]
      simp
    · rw [hs1]
      exact hframe.1
  · rw [hts] at hts1
    have := Option.some.inj hts1
    subst this
    obtain ⟨k, r1, hk, hr1, hdon, hq3⟩ :=
      push_back_while_queue probe_index ts _ queue s3 q3 selfq.donated_task_list_ qpos [] hts rfl
        hloop
    simp only [List.nil_append] at hdon
    rw [DistributedDualtreeTaskQueue.foldl_decrement] at hq3
    have hback2 : back = (qpos, r1) := by
      rw [hdon] at hback
      simpa using hback.symm
    have htasks3 : vecGet? q3.tasks_ probe_index = some (ts.drop k) := by
      rw [hq3]
      exact vecGet?_vecSet_self _ _ _ _ hts
    have hrlc3 : q3.remaining_local_computation_ =
        ((ts.take k).foldl (fun q t => q.decrement_remaining_local_computation t.work)
          queue).remaining_local_computation_ := by
      rw [hq3, DistributedDualtreeTaskQueue.foldl_decrement]
    have hsum3 : (q3.remaining_local_computation_ +
        ((ts.take k).map TaskType.work).sum) % ULONG_SIZE =
        queue.remaining_local_computation_ % ULONG_SIZE := by
      rw [hq3]
      exact foldl_decrement_sum (ts.take k) queue.remaining_local_computation_
    rcases hcase2 with ⟨hvoid, s4, hpop, hs1, hq1, hb⟩ | ⟨_, q4, hlock, hs1, hq1, hb⟩
    · rw [hback2] at hvoid
      simp only at hvoid
      have hk0 : k = 0 := by omega
      subst hk0
      have hq3q : q3 = queue := by
        rw [hq3]
        simp only [List.take_zero, List.drop_zero, List.foldl_nil, vecSet_self _ _ _ hts]
      refine ⟨0, [], Nat.zero_le _, rfl, ?_, ?_, ?_, Or.inr ⟨hb, rfl, ?_, ?_⟩⟩
      · rw [hq1, hq3q]
        simpa using hts
      · rw [hq1, hq3q]
        rfl
      · rw [hq1, hq3q]
        simp
      · rw [hs1]
        simp only
        rw [(pop__donated s3 query_id true s4 hpop).1, hdon, List.dropLast_concat, hframe.1]
      · rw [hq1, hq3q]
    · have hq4 : q4.tasks_ = q3.tasks_ ∧
          q4.remaining_local_computation_ = q3.remaining_local_computation_ := by
        unfold DistributedDualtreeTaskQueue.LockQuerySubTable at hlock
        split at hlock
        · split at hlock
          · cases hlock
          · cases hlock
            exact ⟨rfl, rfl⟩
        · cases hlock
      refine ⟨k, r1, hk, hr1, ?_, ?_, ?_, Or.inl ⟨hb, qpos, ?_⟩⟩
      · rw [hq1, hq4.1]
        exact htasks3
      · rw [hq1, hq4.2]
        exact hrlc3
      · rw [hq1, hq4.2]
        exact hsum3
      · rw [hs1, hdon, hframe.1]

/-- C12, at a concrete input: the example scenario pops one task of work 1200; the counter
goes from 5000 to 3800 and one reference position is appended. -/
theorem push_back_work_accounting_witness :
    vecGet? example_queue.tasks_ 0 = some example_tasks ∧
    (new.Init 1 100).push_back example_queue 0 =
      some (example_bundle, example_queue_after, true) ∧
    ∃ (k : Nat) (refs : List Int), k ≤ example_tasks.length ∧ refs.length = k ∧
      vecGet? example_queue_after.tasks_ 0 = some (example_tasks.drop k) ∧
      example_queue_after.remaining_local_computation_ =
        ((example_tasks.take k).foldl
          (fun q t => q.decrement_remaining_local_computation t.work)
          example_queue).remaining_local_computation_ ∧
      (example_queue_after.remaining_local_computation_ +
          ((example_tasks.take k).map TaskType.work).sum) % ULONG_SIZE =
        example_queue.remaining_local_computation_ % ULONG_SIZE ∧
      ((true = true ∧ ∃ qpos : Int,
          example_bundle.donated_task_list_ =
            (new.Init 1 100).donated_task_list_ ++ [(qpos, refs)]) ∨
        (true = false ∧ k = 0 ∧
          example_bundle.donated_task_list_ = (new.Init 1 100).donated_task_list_ ∧
          example_queue_after = example_queue)) :=
  ⟨rfl, rfl,
    push_back_work_accounting (new.Init 1 100) example_queue 0 example_tasks example_bundle
      example_queue_after true rfl rfl⟩

theorem pop__eq_of_kept (self : DistributedDualtreeTaskList) (id : KeyType) (q : Bool)
    (p : Int) (slot : SlotType) (hfind : self.FindSubTable_ id = some p)
    (hslot : vecGet? self.sub_tables_ p = some slot)
    (hkeep : ¬ ((released_slot slot q).2.1 = false ∧ (released_slot slot q).2.2 = 0)) :
    self.pop_ id q =
      some { self with sub_tables_ := vecSet self.sub_tables_ p (released_slot slot q) } := by
  have hlen : self.sub_tables_.length > 0 := by
    obtain ⟨_, h1⟩ := (vecGet?_eq_some_iff _ _ _).1 hslot
    have := (List.getElem?_eq_some.1 h1).1
    omega
  have hfind2 : self.id_to_position_map_.find id = some p := hfind
  cases q
  · simp only [released_slot, Bool.false_eq_true, if_false] at hkeep
    simp only [pop_, hlen, hfind2, hslot, if_true, Bool.false_eq_true, if_false, released_slot]
    rw [if_neg]
    simpa using hkeep
  · simp only [released_slot, if_true] at hkeep
    simp only [pop_, hlen, hfind2, hslot, if_true, released_slot]
    rw [if_neg]
    simpa using hkeep

theorem pop__eq_of_evicted (self : DistributedDualtreeTaskList) (id : KeyType) (q : Bool)
    (p : Int) (slot back : SlotType) (c : Nat) (removed_id last_id : KeyType)
    (hfind : self.FindSubTable_ id = some p)
    (hslot : vecGet? self.sub_tables_ p = some slot)
    (hevict : (released_slot slot q).2.1 = false ∧ (released_slot slot q).2.2 = 0)
    (hback : (vecSet self.sub_tables_ p (released_slot slot q)).getLast? = some back)
    (hc : slot.1.start_node_.count? = some c)
    (hrid : slot.1.subtable_id = some removed_id)
    (hlid : back.1.subtable_id = some last_id) :
    self.pop_ id q =
      some { self with
        id_to_position_map_ :=
          if (vecSet self.sub_tables_ p back).dropLast.length > 0 then
            (self.id_to_position_map_.erase removed_id).assign last_id p
          else (self.id_to_position_map_.erase removed_id).erase last_id
        remaining_extra_points_to_hold_ :=
          (self.remaining_extra_points_to_hold_ + c) % ULONG_SIZE
        sub_tables_ := (vecSet self.sub_tables_ p back).dropLast } := by
  have hlen : self.sub_tables_.length > 0 := by
    obtain ⟨_, h1⟩ := (vecGet?_eq_some_iff _ _ _).1 hslot
    have := (List.getElem?_eq_some.1 h1).1
    omega
  have hfind2 : self.id_to_position_map_.find id = some p := hfind
  cases q
  · simp only [released_slot, Bool.false_eq_true, if_false] at hevict hback
    rw [hevict.1, hevict.2] at hback
    simp only [pop_, hlen, hfind2, hslot, if_true, Bool.false_eq_true, if_false, hevict.1,
      hevict.2, Bool.not_false, decide_True, Bool.and_self, hback, hc, hrid, hlid,
      vecSet_vecSet]
  · simp only [released_slot, if_true] at hevict hback
    rw [hevict.2] at hback
    simp only [pop_, hlen, hfind2, hslot, if_true, hevict.2, Bool.not_false, decide_True,
      Bool.and_self, hback, hc, hrid, hlid, vecSet_vecSet]

theorem pop__inv (self : DistributedDualtreeTaskList) (id : KeyType) (q : Bool) (p : Int)
    (slot : SlotType) (s1 : DistributedDualtreeTaskList)
    (hfind : self.FindSubTable_ id = some p)
    (hslot : vecGet? self.sub_tables_ p = some slot) (hpop : self.pop_ id q = some s1) :
    (¬ ((released_slot slot q).2.1 = false ∧ (released_slot slot q).2.2 = 0) ∧
      s1 = { self with sub_tables_ := vecSet self.sub_tables_ p (released_slot slot q) }) ∨
    (((released_slot slot q).2.1 = false ∧ (released_slot slot q).2.2 = 0) ∧
      ∃ (back : SlotType) (c : Nat) (removed_id last_id : KeyType),
        (vecSet self.sub_tables_ p (released_slot slot q)).getLast? = some back ∧
        slot.1.start_node_.count? = some c ∧ slot.1.subtable_id = some removed_id ∧
        back.1.subtable_id = some last_id ∧
        s1 = { self with
          id_to_position_map_ :=
            if (vecSet self.sub_tables_ p back).dropLast.length > 0 then
              (self.id_to_position_map_.erase removed_id).assign last_id p
            else (self.id_to_position_map_.erase removed_id).erase last_id
          remaining_extra_points_to_hold_ :=
            (self.remaining_extra_points_to_hold_ + c) % ULONG_SIZE
          sub_tables_ := (vecSet self.sub_tables_ p back).dropLast }) := by
  by_cases hevict : (released_slot slot q).2.1 = false ∧ (released_slot slot q).2.2 = 0
  · right
    refine ⟨hevict, ?_⟩
    have hlen : self.sub_tables_.length > 0 := by
      obtain ⟨_, h1⟩ := (vecGet?_eq_some_iff _ _ _).1 hslot
      have := (List.getElem?_eq_some.1 h1).1
      omega
    have hfind2 : self.id_to_position_map_.find id = some p := hfind
    have hrel1 : (released_slot slot q).1 = slot.1 := by
      unfold released_slot
      split <;> rfl
    have hnone : ∀ (ob : Option SlotType) (oc : Option Nat) (orid : Option SubTableIDType),
        (vecSet self.sub_tables_ p (released_slot slot q)).getLast? = ob →
        slot.1.start_node_.count? = oc → slot.1.subtable_id = orid →
        (ob = none ∨ oc = none ∨ orid = none ∨ ∃ b, ob = some b ∧ b.1.subtable_id = none) →
        self.pop_ id q = none := by
      intro ob oc orid hob hoc horid hbad
      have hcond : (!(released_slot slot q).2.1 && decide ((released_slot slot q).2.2 = 0)) =
          true := by
        simp [hevict.1, hevict.2]
      have hunfold : self.pop_ id q =
          match (vecSet self.sub_tables_ p (released_slot slot q)).getLast?,
              (released_slot slot q).1.start_node_.count?,
              (released_slot slot q).1.subtable_id with
          | some back, some count, some removed_id =>
            match back.1.subtable_id with
            | none => none
            | some last_subtable_id =>
              some { self with
                id_to_position_map_ :=
                  if ((vecSet (vecSet self.sub_tables_ p (released_slot slot q)) p
                      back).dropLast).length > 0 then
                    (self.id_to_position_map_.erase removed_id).assign last_subtable_id p
                  else (self.id_to_position_map_.erase removed_id).erase last_subtable_id
                remaining_extra_points_to_hold_ :=
                  (self.remaining_extra_points_to_hold_ + count) % ULONG_SIZE
                sub_tables_ :=
                  (vecSet (vecSet self.sub_tables_ p (released_slot slot q)) p back).dropLast }
          | _, _, _ => none := by
        unfold pop_
        simp only [hlen, hfind2, hslot, if_true]
        unfold released_slot at hcond ⊢
        rw [if_pos hcond]
      rw [hunfold, hrel1, hob, hoc, horid]
      rcases hbad with h | h | h | ⟨b, h, hb⟩
      · rw [h]
      · rw [h]
        cases ob <;> rfl
      · rw [h]
        cases ob <;> cases oc <;> rfl
      · rw [h]
        cases oc with
        | none => rfl
        | some c =>
          cases orid with
          | none => rfl
          | some rid => simp only [hb]
    cases hback : (vecSet self.sub_tables_ p (released_slot slot q)).getLast? with
    | none =>
      rw [hnone _ _ _ hback rfl rfl (Or.inl rfl)] at hpop
      exact Option.noConfusion hpop
    | some back =>
      cases hc : slot.1.start_node_.count? with
      | none =>
        rw [hnone _ _ _ hback hc rfl (Or.inr (Or.inl rfl))] at hpop
        exact Option.noConfusion hpop
      | some c =>
        cases hrid : slot.1.subtable_id with
        | none =>
          rw [hnone _ _ _ hback hc hrid (Or.inr (Or.inr (Or.inl rfl)))] at hpop
          exact Option.noConfusion hpop
        | some removed_id =>
          cases hlid : back.1.subtable_id with
          | none =>
            rw [hnone _ _ _ hback hc hrid (Or.inr (Or.inr (Or.inr ⟨back, rfl, hlid⟩)))] at hpop
            exact Option.noConfusion hpop
          | some last_id =>
            rw [pop__eq_of_evicted self id q p slot back c removed_id last_id hfind hslot hevict
              hback hc hrid hlid] at hpop
            exact ⟨back, c, removed_id, last_id, rfl, rfl, rfl, hlid, (Option.some.inj hpop).symm⟩
  · left
    rw [pop__eq_of_kept self id q p slot hfind hslot hevict] at hpop
    exact ⟨hevict, (Option.some.inj hpop).symm⟩

theorem vecGet?_vecSet_ne {α : Type} (v : List α) (i j : Int) (x : α) (hi : 0 ≤ i)
    (hij : i ≠ j) : vecGet? (vecSet v i x) j = vecGet? v j := by
  unfold vecGet?
  by_cases hj : j < 0
  · simp [hj]
  · simp only [hj, if_false, vecSet]
    rw [List.getElem?_set_ne]
    omega

theorem vecGet?_dropLast {α : Type} (v : List α) (j : Int) (hj : j < (v.length : Int) - 1) :
    vecGet? v.dropLast j = vecGet? v j := by
  unfold vecGet?
  by_cases hj0 : j < 0
  · simp [hj0]
  · simp only [hj0, if_false, List.getElem?_dropLast]
    rw [if_pos]
    omega

theorem vecGet?_lt_length {α : Type} (v : List α) (i : Int) (x : α)
    (h : vecGet? v i = some x) : 0 ≤ i ∧ i < (v.length : Int) := by
  obtain ⟨h0, h1⟩ := (vecGet?_eq_some_iff _ _ _).1 h
  have := (List.getElem?_eq_some.1 h1).1
  exact ⟨h0, by omega⟩

theorem vecSet_getLast? {α : Type} (v : List α) (i : Int) (x y : α)
    (hi : vecGet? v i = some y) :
    (vecSet v i x).getLast? =
      if i = (v.length : Int) - 1 then some x else vecGet? v ((v.length : Int) - 1) := by
  obtain ⟨h0, hlt⟩ := vecGet?_lt_length v i y hi
  rw [List.getLast?_eq_getElem?]
  simp only [vecSet, List.length_set]
  by_cases hil : i = (v.length : Int) - 1
  · rw [if_pos hil]
    have : v.length - 1 = i.toNat := by omega
    rw [this, List.getElem?_set_self (by omega)]
  · rw [if_neg hil, List.getElem?_set_ne (by omega)]
    unfold vecGet?
    rw [if_neg (by omega)]
    congr 1
    omega

/-- C15, counterexample. A subtable taken in as a query only has reference count 0;
releasing it as a reference leaves the slot in place with reference count -1. -/
theorem pop__refcount_below_zero :
    (run_cache_calls (new.Init 1 100)
        [.push (leaf_subtable 0 0 10) true, .pop (0, 0, 10) false]).map
      (fun s => s.sub_tables_.map (fun slot : SlotType => (slot.1.subtable_id, slot.2))) =
      some [(some (0, 0, 10), true, -1)] := by
  rfl

/-- C15, as amended. For a task list whose map sends X to a position `p` whose slot has a
reference count of at least 1, a completed `pop_` of X as a reference either keeps the slot
at `p` with the count lowered by one, which is not negative, or, when the slot is not a
query and the count was 1, removes it. -/
theorem pop__refcount_nonneg (self : DistributedDualtreeTaskList) (X : KeyType) (p : Int)
    (slot : SlotType) (s1 : DistributedDualtreeTaskList)
    (hfind : self.FindSubTable_ X = some p)
    (hslot : vecGet? self.sub_tables_ p = some slot) (hheld : 1 ≤ slot.2.2)
    (hpop : self.pop_ X false = some s1) :
    (s1.sub_tables_.length = self.sub_tables_.length ∧
      vecGet? s1.sub_tables_ p = some (slot.1, slot.2.1, slot.2.2 - 1) ∧ 0 ≤ slot.2.2 - 1) ∨
    (s1.sub_tables_.length + 1 = self.sub_tables_.length ∧ slot.2.1 = false ∧
      slot.2.2 = 1) := by
  obtain ⟨_, hlt⟩ := vecGet?_lt_length _ _ _ hslot
  rcases pop__inv self X false p slot s1 hfind hslot hpop with
    ⟨_, hs1⟩ | ⟨hevict, back, c, rid, lid, _, _, _, _, hs1⟩
  · left
    rw [hs1]
    refine ⟨by simp [vecSet], ?_, by omega⟩
    exact vecGet?_vecSet_self _ _ _ _ hslot
  · right
    simp only [released_slot, Bool.false_eq_true, if_false] at hevict
    rw [hs1]
    refine ⟨?_, hevict.1, by omega⟩
    simp only [List.length_dropLast, vecSet, List.length_set]
    omega

/-- C15 as amended, at a concrete input: the example bundle releases its reference subtable,
whose reference count is 1. -/
theorem pop__refcount_nonneg_witness :
    example_bundle.FindSubTable_ (0, 40, 30) = some 1 ∧
    vecGet? example_bundle.sub_tables_ 1 =
      some (SubTable.new.Alias (leaf_subtable 0 40 30), false, 1) ∧
    (1 : Int) ≤ 1 ∧
    example_bundle.pop_ (0, 40, 30) false =
      some { new.Init 1 60 with
        donated_task_list_ := [(0, [1])]
        id_to_position_map_ := [((0, 0, 40), 0), ((0, 40, 30), 1)]
        sub_tables_ := [(SubTable.new.Alias (leaf_subtable 0 0 40), true, 0)] } ∧
    ((([(SubTable.new.Alias (leaf_subtable 0 0 40), true, 0)] : List SlotType).length =
        example_bundle.sub_tables_.length ∧
      vecGet? ([(SubTable.new.Alias (leaf_subtable 0 0 40), true, 0)] : List SlotType) 1 =
        some (SubTable.new.Alias (leaf_subtable 0 40 30), false, 1 - 1) ∧ (0 : Int) ≤ 1 - 1) ∨
    (([(SubTable.new.Alias (leaf_subtable 0 0 40), true, 0)] : List SlotType).length + 1 =
        example_bundle.sub_tables_.length ∧ false = false ∧ (1 : Int) = 1)) :=
  ⟨rfl, rfl, le_refl _, rfl,
    pop__refcount_nonneg example_bundle (0, 40, 30) 1
      (SubTable.new.Alias (leaf_subtable 0 40 30), false, 1)
      { new.Init 1 60 with
        donated_task_list_ := [(0, [1])]
        id_to_position_map_ := [((0, 0, 40), 0), ((0, 40, 30), 1)]
        sub_tables_ := [(SubTable.new.Alias (leaf_subtable 0 0 40), true, 0)] }
      rfl rfl (le_refl _) rfl⟩

/-- C17, counterexample. With X in slot 0 and Y in slot 1, releasing X evicts it and moves Y:
Y is found at position 1 before the call and at position 0 after it. -/
theorem pop__moves_last_slot :
    (run_cache_calls (new.Init 1 100)
        [.push (leaf_subtable 0 0 10) false, .push (leaf_subtable 0 10 20) false]).bind
      (fun before => (before.pop_ (0, 0, 10) false).map
        (fun after => (before.FindSubTable_ (0, 10, 20), after.FindSubTable_ (0, 10, 20),
          after.sub_tables_.map (fun slot : SlotType => slot.1.subtable_id)))) =
      some (some 1, some 0, [some (0, 10, 20)]) := by
  rfl

/-- C17, as amended. In a task list whose map and vector agree, let X and Y be distinct IDs
found at positions `p` and `pY`, and let `pop_` of X complete. If the call evicts a slot and
Y occupies the last slot, Y is moved: afterwards it is found at `p`, the former position of
X, and slot `p` holds what slot `pY` held. In every other case Y is found at `pY` as before
and slot `pY` is unchanged. -/
theorem pop__other_identity (self : DistributedDualtreeTaskList) (X Y : KeyType) (q : Bool)
    (p pY : Int) (s1 : DistributedDualtreeTaskList) (hcons : Consistent self)
    (hX : self.FindSubTable_ X = some p) (hY : self.FindSubTable_ Y = some pY) (hXY : X ≠ Y)
    (hpop : self.pop_ X q = some s1) :
    ((s1.sub_tables_.length < self.sub_tables_.length ∧
        pY = (self.sub_tables_.length : Int) - 1) →
      s1.FindSubTable_ Y = some p ∧
      vecGet? s1.sub_tables_ p = vecGet? self.sub_tables_ pY) ∧
    (¬ (s1.sub_tables_.length < self.sub_tables_.length ∧
        pY = (self.sub_tables_.length : Int) - 1) →
      s1.FindSubTable_ Y = some pY ∧
      vecGet? s1.sub_tables_ pY = vecGet? self.sub_tables_ pY) := by
  obtain ⟨slotX, hslotX, hidX⟩ := hcons.1 X p hX
  obtain ⟨slotY, hslotY, hidY⟩ := hcons.1 Y pY hY
  obtain ⟨hp0, hplt⟩ := vecGet?_lt_length _ _ _ hslotX
  obtain ⟨hpY0, hpYlt⟩ := vecGet?_lt_length _ _ _ hslotY
  have hppY : p ≠ pY := by
    intro heq
    rw [heq, hslotY] at hslotX
    have := Option.some.inj hslotX
    subst this
    rw [hidY] at hidX
    exact hXY (Option.some.inj hidX).symm
  rcases pop__inv self X q p slotX s1 hX hslotX hpop with
    ⟨_, hs1⟩ | ⟨_, back, c, rid, lid, hback, _, hrid, hlid, hs1⟩
  · have hlen : s1.sub_tables_.length = self.sub_tables_.length := by
      rw [hs1]
      simp [vecSet]
    constructor
    · rintro ⟨hlt, _⟩
      omega
    · intro _
      rw [hs1]
      exact ⟨hY, vecGet?_vecSet_ne _ _ _ _ hp0 hppY⟩
  · rw [hidX] at hrid
    have hridX := Option.some.inj hrid
    subst hridX
    have hlen : s1.sub_tables_.length + 1 = self.sub_tables_.length := by
      rw [hs1]
      simp only [List.length_dropLast, vecSet, List.length_set]
      omega
    have hlen2 : ((vecSet self.sub_tables_ p back).dropLast).length + 1 =
        self.sub_tables_.length := by
      simp only [List.length_dropLast, vecSet, List.length_set]
      omega
    have hsetlen : ((vecSet self.sub_tables_ p back).length : Int) =
        (self.sub_tables_.length : Int) := by
      simp [vecSet]
    rw [vecSet_getLast? _ _ _ _ hslotX] at hback
    constructor
    · rintro ⟨_, hlast⟩
      have hpl : p ≠ (self.sub_tables_.length : Int) - 1 := by
        rw [← hlast]
        exact hppY
      rw [if_neg hpl, ← hlast, hslotY] at hback
      have hb := Option.some.inj hback
      subst hb
      rw [hidY] at hlid
      have hl := Option.some.inj hlid
      subst hl
      have hpos : ((vecSet self.sub_tables_ p slotY).dropLast).length > 0 := by omega
      rw [hs1]
      constructor
      · simp only [FindSubTable_, hpos, if_true, MapType.find_assign]
      · simp only
        rw [vecGet?_dropLast _ _ (by omega), vecGet?_vecSet_self _ _ _ _ hslotX, hslotY]
    · intro hn
      have hpYl : pY ≠ (self.sub_tables_.length : Int) - 1 := by
        intro heq
        apply hn
        exact ⟨by omega, heq⟩
      have hlidY : lid ≠ Y := by
        intro heq
        subst heq
        by_cases hpl : p = (self.sub_tables_.length : Int) - 1
        · rw [if_pos hpl] at hback
          have hb := Option.some.inj hback
          rw [← hb] at hlid
          have hrel1 : (released_slot slotX q).1 = slotX.1 := by
            unfold released_slot
            split <;> rfl
          rw [hrel1, hidX] at hlid
          exact hXY (Option.some.inj hlid)
        · rw [if_neg hpl] at hback
          obtain ⟨hb0, hb1⟩ := (vecGet?_eq_some_iff _ _ _).1 hback
          obtain ⟨id2, hid2, hf2⟩ := hcons.2 _ back hb1
          rw [hlid] at hid2
          have := Option.some.inj hid2
          subst this
          rw [hY] at hf2
          have := Option.some.inj hf2
          omega
      rw [hs1]
      constructor
      · have hYX : Y ≠ X := fun h => hXY h.symm
        have hYl : Y ≠ lid := fun h => hlidY h.symm
        simp only [FindSubTable_]
        split
        · simp only [MapType.find_assign, MapType.find_erase, hYX, hYl, if_false]
          exact hY
        · simp only [MapType.find_erase, hYX, hYl, if_false]
          exact hY
      · simp only
        rw [vecGet?_dropLast _ _ (by omega), vecGet?_vecSet_ne _ _ _ _ hp0 hppY]

/-- C17 as amended, at a concrete input: in the example bundle, releasing the query (0, 0, 40)
evicts slot 0 and moves the reference subtable (0, 40, 30) from the last slot to
position 0. -/
theorem pop__other_identity_witness :
    example_bundle.FindSubTable_ (0, 0, 40) = some 0 ∧
    example_bundle.FindSubTable_ (0, 40, 30) = some 1 ∧
    ((0, 0, 40) : KeyType) ≠ (0, 40, 30) ∧
    example_bundle.pop_ (0, 0, 40) true =
      some { new.Init 1 70 with
        donated_task_list_ := [(0, [1])]
        id_to_position_map_ := [((0, 40, 30), 0)]
        sub_tables_ := [(SubTable.new.Alias (leaf_subtable 0 40 30), false, 1)] } ∧
    ((([(SubTable.new.Alias (leaf_subtable 0 40 30), false, 1)] : List SlotType).length <
          example_bundle.sub_tables_.length ∧
        (1 : Int) = (example_bundle.sub_tables_.length : Int) - 1) →
      ({ new.Init 1 70 with
        donated_task_list_ := [(0, [1])]
        id_to_position_map_ := [((0, 40, 30), 0)]
        sub_tables_ := [(SubTable.new.Alias (leaf_subtable 0 40 30), false, 1)] } :
        DistributedDualtreeTaskList).FindSubTable_ (0, 40, 30) = some 0 ∧
      vecGet? ([(SubTable.new.Alias (leaf_subtable 0 40 30), false, 1)] : List SlotType) 0 =
        vecGet? example_bundle.sub_tables_ 1) :=
  ⟨rfl, rfl, by decide, rfl,
    (pop__other_identity example_bundle (0, 0, 40) (0, 40, 30) true 0 1
      { new.Init 1 70 with
        donated_task_list_ := [(0, [1])]
        id_to_position_map_ := [((0, 40, 30), 0)]
        sub_tables_ := [(SubTable.new.Alias (leaf_subtable 0 40 30), false, 1)] }
      (by
        constructor
        · intro id p h
          simp only [FindSubTable_, example_bundle, MapType.find, keyEquiv_eq_decide] at h
          by_cases h1 : id = (0, 0, 40)
          · simp only [h1, decide_True, if_true, Option.some.injEq] at h
            subst h
            exact ⟨_, rfl, by rw [h1]; rfl⟩
          · by_cases h2 : id = (0, 40, 30)
            · subst h2
              simp only [Option.some.injEq] at h
              have h := h
              simp at h
              subst h
              exact ⟨_, rfl, rfl⟩
            · simp [h1, h2] at h
        · intro i slot h
          match i, h with
          | 0, h =>
            simp only [example_bundle, List.getElem?_cons_zero, Option.some.injEq] at h
            subst h
            exact ⟨(0, 0, 40), rfl, rfl⟩
          | 1, h =>
            simp only [example_bundle, List.getElem?_cons_succ, List.getElem?_cons_zero,
              Option.some.injEq] at h
            subst h
            exact ⟨(0, 40, 30), rfl, rfl⟩
          | n + 2, h => simp [example_bundle] at h)
      rfl rfl (by decide) rfl).1⟩

/-- C14, evaluated at a failing input. Every release of the sequence matches an earlier,
not yet released `push_back_` of the same ID in the same role. A (10 points) is taken in as
a reference and X as a query; X is released from the last slot, so `pop_` leaves
`id_to_position_map_[X] = 1` behind. Y is stored at position 1 and X, offered as a
reference, is counted on Y's slot. Releasing A moves Y to position 0; W is taken in as a
query at position 1. Releasing X as a reference now lowers the count of W's slot to -1, and
releasing W as a query leaves that slot in place with the query flag false and reference
count -1. -/
theorem retention_fails_after_last_slot_eviction :
    releases_matched []
        [.push (leaf_subtable 0 0 10) false, .push (leaf_subtable 0 10 20) true,
          .pop (0, 10, 20) true, .push (leaf_subtable 0 30 5) false,
          .push (leaf_subtable 0 10 20) false, .pop (0, 0, 10) false,
          .push (leaf_subtable 0 35 7) true, .pop (0, 10, 20) false, .pop (0, 35, 7) true] =
      true ∧
    (run_cache_ops (new.Init 1 100)
        [.push (leaf_subtable 0 0 10) false, .push (leaf_subtable 0 10 20) true,
          .pop (0, 10, 20) true, .push (leaf_subtable 0 30 5) false,
          .push (leaf_subtable 0 10 20) false, .pop (0, 0, 10) false,
          .push (leaf_subtable 0 35 7) true, .pop (0, 10, 20) false,
          .pop (0, 35, 7) true]).map
      (fun s => s.sub_tables_.map (fun slot : SlotType => (slot.1.subtable_id, slot.2))) =
      some [(some (0, 30, 5), false, 2), (some (0, 35, 7), false, -1)] := by
  constructor <;> rfl

/-- C18, evaluated at a failing input. A (10 points) and B (20 points) are taken in as
references and B is released. B was evicted from the last slot, is no longer resident, and
`sub_tables_` has one element, yet `FindSubTable_` reports B at position 1. -/
theorem evicted_identity_still_found :
    (run_cache_calls (new.Init 1 100)
        [.push (leaf_subtable 0 0 10) false, .push (leaf_subtable 0 10 20) false,
          .pop (0, 10, 20) false]).map
      (fun s => (s.FindSubTable_ (0, 10, 20), s.resident (0, 10, 20), s.sub_tables_.length,
        s.sub_tables_.map (fun slot : SlotType => slot.1.subtable_id))) =
      some (some 1, false, 1, [some (0, 0, 10)]) := by
  rfl

/-- C19, evaluated at a failing input. On `three_query_queue` with 100 points, the first probe
donates query (0, 0, 40) with its reference task; the second takes query (0, 200, 5) in at
position 2 and back out, which leaves `id_to_position_map_[(0, 200, 5)] = 2` behind; the
third stores query (0, 300, 10) at position 2, and its reference task, whose reference
subtable is (0, 200, 5), is found at position 2 and recorded there. The donated task list
ends as [(0, [1]), (2, [2])]: the reference position of the second entry holds the subtable
(0, 300, 10), not the reference subtable (0, 200, 5) of the task that was popped. -/
theorem donated_position_holds_other_identity :
    (run_push_back (new.Init 1 100, three_query_queue) [0, 1, 2]).map
      (fun r => (r.1.donated_task_list_,
        r.1.sub_tables_.map (fun slot : SlotType => slot.1.subtable_id),
        r.2.tasks_.map (fun tasks : List TaskType => tasks.length))) =
      some ([(0, [1]), (2, [2])], [some (0, 0, 40), some (0, 40, 30), some (0, 300, 10)],
        [0, 1, 0]) := by
  rfl

/-- C13, evaluated at a failing input. The task list is built on `three_query_queue` with 100
points by probing the slots 0, 1 and 2 (work estimates are products of point counts), and
is exported to an empty receiving queue. The build popped the tasks (query (0, 0, 40),
reference (0, 40, 30)) and (query (0, 300, 10), reference (0, 200, 5)), of work 1200 and 50.
`Export` pushes (query (0, 0, 40), reference (0, 40, 30)) and (query (0, 300, 10),
reference (0, 300, 10)), of work 1200 and 100: the second reference position was recorded
through the map entry that `pop_` left behind for (0, 200, 5). -/
theorem export_pushes_other_tasks :
    (run_push_back (new.Init 1 100, three_query_queue) [0, 1, 2]).bind
      (fun built => (built.1.Export point_product 0
          { subtable_cache_ := []
            queue_ := { query_subtables_ := [], tasks_ := [],
                        remaining_local_computation_ := 0 } }).map
        (fun dest => (popped_tasks three_query_queue built.2,
          task_identities dest.queue_,
          dest.queue_.tasks_.map (fun tasks : List TaskType => tasks.map TaskType.work)))) =
      some ([((some (0, 0, 40), some (0, 40, 30)), 1200),
             ((some (0, 300, 10), some (0, 200, 5)), 50)],
        [(some (0, 0, 40), some (0, 40, 30)), (some (0, 300, 10), some (0, 300, 10))],
        [[1200], [100]]) := by
  rfl

theorem load_sublist_save (values : List Int) (rest : List ArchiveItem) :
    load_sublist values.length (values.map ArchiveItem.int ++ rest) = some (values, rest) := by
  induction values with
  | nil => rfl
  | cons v vs ih =>
    simp only [List.length_cons, List.map_cons, List.cons_append, load_sublist,
      List.append_eq, ih]

theorem load_donated_save (entries : List (Int × List Int)) (rest : List ArchiveItem) :
    load_donated entries.length (save_donated entries ++ rest) = some (entries, rest) := by
  induction entries with
  | nil => rfl
  | cons e es ih =>
    have hneg : ¬ ((e.2.length : Int) < 0) := by omega
    simp only [List.length_cons, save_donated, List.cons_append, List.append_assoc,
      load_donated, hneg, if_false, Int.toNat_ofNat, List.append_eq, load_sublist_save, ih]

theorem load_sub_tables_save (load_subtable : Int → SubTable → SubTable) (old : List SlotType)
    (slots : List SlotType) :
    ∀ (i : Nat) (rest : List ArchiveItem),
      ∃ loaded, load_sub_tables load_subtable old slots.length i
          (save_sub_tables slots ++ rest) = some (loaded, rest) ∧
        loaded.map (fun slot : SlotType => slot.2.2) =
          slots.map (fun slot : SlotType => slot.2.2) := by
  induction slots with
  | nil => intro i rest; exact ⟨[], rfl, rfl⟩
  | cons slot slots ih =>
    intro i rest
    obtain ⟨loaded, hl, hm⟩ := ih (i + 1) rest
    refine ⟨(load_subtable (i : Int) slot.1,
        (match old[i]? with
          | some slot => slot.2.1
          | none => false), slot.2.2) :: loaded, ?_, ?_⟩
    · simp only [List.length_cons, save_sub_tables, List.cons_append, load_sub_tables,
        List.append_eq, hl]
    · simp only [List.map_cons, hm]

/-- C20. For every task list that holds at least one subtable, `load` applied to a
default-constructed task list reads all of what `save` wrote and yields the same number of
subtables, the same reference count at every position and a `donated_task_list_` equal to
the original one. -/
theorem load_save_task_structure (load_subtable : Int → SubTable → SubTable)
    (self : DistributedDualtreeTaskList) (hne : self.sub_tables_ ≠ []) :
    ∃ loaded, load load_subtable new self.save = some (loaded, []) ∧
      loaded.sub_tables_.length = self.sub_tables_.length ∧
      (∀ i : Nat, (loaded.sub_tables_[i]?).map (fun slot : SlotType => slot.2.2) =
        (self.sub_tables_[i]?).map (fun slot : SlotType => slot.2.2)) ∧
      loaded.donated_task_list_ = self.donated_task_list_ := by
  have hlen : self.sub_tables_.length > 0 := List.length_pos.2 hne
  have hpos : ((self.sub_tables_.length : Nat) : Int) > 0 := by omega
  obtain ⟨slots, hl, hm⟩ := load_sub_tables_save load_subtable new.sub_tables_ self.sub_tables_ 0
    (.int (self.donated_task_list_.length : Int) :: save_donated self.donated_task_list_)
  have hd := load_donated_save self.donated_task_list_ []
  rw [List.append_nil] at hd
  have hneg : ¬ ((self.donated_task_list_.length : Int) < 0) := by omega
  refine ⟨{ new with sub_tables_ := slots, donated_task_list_ := self.donated_task_list_ },
    ?_, ?_, ?_, rfl⟩
  · simp only [save, hlen, if_true, load, hpos, Int.toNat_ofNat, hl, hneg, if_false, hd]
  · have := congrArg List.length hm
    simpa using this
  · intro i
    have := congrArg (fun l : List Int => l[i]?) hm
    simpa [List.getElem?_map] using this

/-- C20, at a concrete input: the example bundle. -/
theorem load_save_task_structure_witness :
    example_bundle.sub_tables_ ≠ [] ∧
    ∃ loaded, load (fun _ written => written) new example_bundle.save = some (loaded, []) ∧
      loaded.sub_tables_.length = example_bundle.sub_tables_.length ∧
      (∀ i : Nat, (loaded.sub_tables_[i]?).map (fun slot : SlotType => slot.2.2) =
        (example_bundle.sub_tables_[i]?).map (fun slot : SlotType => slot.2.2)) ∧
      loaded.donated_task_list_ = example_bundle.donated_task_list_ :=
  ⟨by decide, load_save_task_structure (fun _ written => written) example_bundle (by decide)⟩

end DistributedDualtreeTaskList

/-- C29. The comparator of the map is the strict lexicographic order on (rank, begin, count):
`ComparatorType k1 k2` holds exactly when `k1` is smaller than `k2` in the lexicographic
order of the triples. It is irreflexive and transitive, any two different keys are ordered
one way or the other, and two keys are equivalent (neither ordered before the other) only
when they are equal in all three components. -/
theorem ComparatorType_lexicographic :
    (∀ k1 k2 : KeyType, ComparatorType k1 k2 = true ↔
      toLex (k1.1, toLex (k1.2.1, k1.2.2)) < toLex (k2.1, toLex (k2.2.1, k2.2.2))) ∧
    (∀ k : KeyType, ComparatorType k k = false) ∧
    (∀ k1 k2 k3 : KeyType, ComparatorType k1 k2 = true → ComparatorType k2 k3 = true →
      ComparatorType k1 k3 = true) ∧
    (∀ k1 k2 : KeyType, k1 ≠ k2 → ComparatorType k1 k2 = true ∨ ComparatorType k2 k1 = true) ∧
    (∀ k1 k2 : KeyType, keyEquiv k1 k2 = true ↔
      (k1.1 = k2.1 ∧ k1.2.1 = k2.2.1 ∧ k1.2.2 = k2.2.2)) := by
  refine ⟨?_, ComparatorType_irrefl, ?_, ?_, ?_⟩
  · rintro ⟨a1, a2, a3⟩ ⟨b1, b2, b3⟩
    simp only [ComparatorType, Prod.Lex.lt_iff, Bool.or_eq_true, Bool.and_eq_true,
      decide_eq_true_eq]
    constructor
    · rintro ((h | h) | h)
      · exact Or.inl h
      · exact Or.inr ⟨h.1, Or.inl h.2⟩
      · exact Or.inr ⟨h.1.1, Or.inr ⟨h.1.2, h.2⟩⟩
    · rintro (h | ⟨h1, h | ⟨h2, h3⟩⟩)
      · exact Or.inl (Or.inl h)
      · exact Or.inl (Or.inr ⟨h1, h⟩)
      · exact Or.inr ⟨⟨h1, h2⟩, h3⟩
  · rintro ⟨a1, a2, a3⟩ ⟨b1, b2, b3⟩ ⟨c1, c2, c3⟩
    simp only [ComparatorType, Bool.or_eq_true, Bool.and_eq_true, decide_eq_true_eq]
    intro h1 h2
    omega
  · rintro ⟨a1, a2, a3⟩ ⟨b1, b2, b3⟩ hne
    simp only [ne_eq, Prod.mk.injEq] at hne
    simp only [ComparatorType, Bool.or_eq_true, Bool.and_eq_true, decide_eq_true_eq]
    omega
  · intro k1 k2
    rw [keyEquiv_iff]
    obtain ⟨a1, a2, a3⟩ := k1
    obtain ⟨b1, b2, b3⟩ := k2
    simp only [Prod.mk.injEq]

/-- C30. The call `Destruct` releases the underlying table exactly when the handle is not an alias and
its table is not null. Afterwards the handle is an alias with a null table, so a second
`Destruct` releases nothing and neither does the destructor: over `Destruct`, `Destruct`
and the destructor, an alias releases nothing and an owning handle with a table releases it
exactly once. -/
theorem SubTable_Destruct_ownership (t : SubTable) :
    (t.Destruct.2 = true ↔ (t.is_alias_ = false ∧ t.table_ ≠ none)) ∧
    t.Destruct.1.is_alias_ = true ∧ t.Destruct.1.table_ = none ∧
    t.Destruct.1.Destruct.2 = false ∧ t.Destruct.1.destructor = false ∧
    (t.is_alias_ = true → t.Destruct.2 = false ∧ t.destructor = false) ∧
    ([t.Destruct.2, t.Destruct.1.Destruct.2, t.Destruct.1.Destruct.1.destructor].count true =
      if t.is_alias_ = false ∧ t.table_ ≠ none then 1 else 0) := by
  cases ha : t.is_alias_ <;> cases ht : t.table_ <;>
    simp [SubTable.Destruct, SubTable.destructor, ha, ht]

namespace DistributedDualtreeTaskList

/-- The two outcomes of `push_back` on a locked slot, on the queue the example scenario ends
with (the query locked for rank 1, the 50-point and the 10-point task left). A task list
for rank 2 with room for 60 points takes in the query, cannot take in the 50-point
reference subtable, releases the query and returns false; the queue is as before. A task
list with room for 100 points takes in the query and the 50-point reference subtable and
then asks the queue to pop from the locked slot, which fails: `push_back` does not test
`is_locked` itself. -/
theorem push_back_on_locked_slot_runs :
    ((new.Init 2 60).push_back example_queue_after 0).map (fun res => res.2) =
      some (example_queue_after, false) ∧
    (new.Init 2 100).push_back example_queue_after 0 = none := by
  refine ⟨rfl, rfl⟩

theorem ReleaseCache_record (slots : List SlotType) :
    ∀ (self : DistributedDualtreeTaskList) (calls : List (Int × Int)),
      self.sub_tables_ = slots →
      self.ReleaseCache record_release calls =
        calls ++ slots.map (fun slot : SlotType => (slot.1.cache_block_id_, slot.2.2)) := by
  induction slots with
  | nil =>
    intro self calls h
    simp [ReleaseCache, h]
  | cons slot rest ih =>
    intro self calls h
    have := ih { self with sub_tables_ := rest } (record_release calls slot.1.cache_block_id_
      slot.2.2) rfl
    simp only [ReleaseCache, h, List.foldl_cons] at this ⊢
    rw [this]
    simp [record_release]

theorem ReleaseCache_release (slots : List SlotType) :
    ∀ (self : DistributedDualtreeTaskList) (cache : Int → Int) (id : Int),
      self.sub_tables_ = slots →
      self.ReleaseCache release_cache_block cache id = cache id - self.claimed id := by
  induction slots with
  | nil =>
    intro self cache id h
    simp [ReleaseCache, claimed, h]
  | cons slot rest ih =>
    intro self cache id h
    have := ih { self with sub_tables_ := rest }
      (release_cache_block cache slot.1.cache_block_id_ slot.2.2) id rfl
    simp only [ReleaseCache, h, List.foldl_cons, claimed] at this ⊢
    rw [this]
    by_cases hid : slot.1.cache_block_id_ = id
    · simp only [release_cache_block, hid, if_true, List.filter_cons, decide_True,
        List.map_cons, List.sum_cons]
      omega
    · have hid2 : ¬ id = slot.1.cache_block_id_ := fun h => hid h.symm
      simp only [release_cache_block, hid2, if_false, List.filter_cons, hid, decide_False,
        Bool.false_eq_true]

/-- C26. One `ReleaseCache` call asks the queue, for every slot in order, to release the
cache block id of the subtable of the slot by the reference count recorded in the slot, and
nothing else. So the amounts add up to the sum of the recorded reference counts, a slot
with reference count 0 (a subtable held only as a query) asks for a release of 0, and in a
cache that decrements on release every cache block loses exactly what the task list
records for it. -/
theorem ReleaseCache_returns_claims (self : DistributedDualtreeTaskList) :
    self.ReleaseCache record_release [] =
      self.sub_tables_.map (fun slot : SlotType => (slot.1.cache_block_id_, slot.2.2)) ∧
    ((self.ReleaseCache record_release []).map Prod.snd).sum =
      (self.sub_tables_.map (fun slot : SlotType => slot.2.2)).sum ∧
    (∀ (i : Nat) (slot : SlotType), self.sub_tables_[i]? = some slot → slot.2.2 = 0 →
      (self.ReleaseCache record_release [])[i]? = some (slot.1.cache_block_id_, 0)) ∧
    (∀ (cache : Int → Int) (id : Int),
      self.ReleaseCache release_cache_block cache id = cache id - self.claimed id) := by
  have h1 := ReleaseCache_record self.sub_tables_ self [] rfl
  rw [List.nil_append] at h1
  refine ⟨h1, ?_, ?_, fun cache id => ReleaseCache_release self.sub_tables_ self cache id rfl⟩
  · rw [h1, List.map_map]
    rfl
  · intro i slot hslot hzero
    rw [h1, List.getElem?_map, hslot, Option.map_some', hzero]

/-- C27, counterexample. The example bundle records one claim on cache block 0. With a cache
that holds 5 claims on that block, one `ReleaseCache` call leaves 4 and a second call on the
same bundle leaves 3: the second call asks for the same releases again. -/
theorem ReleaseCache_twice_releases_twice :
    example_bundle.claimed 0 = 1 ∧
    example_bundle.ReleaseCache release_cache_block (fun _ => 5) 0 = 4 ∧
    example_bundle.ReleaseCache release_cache_block
      (example_bundle.ReleaseCache release_cache_block (fun _ => 5)) 0 = 3 ∧
    example_bundle.ReleaseCache record_release
      (example_bundle.ReleaseCache record_release []) = [(0, 0), (0, 1), (0, 0), (0, 1)] := by
  refine ⟨rfl, rfl, rfl, rfl⟩

/-- C27, as amended. `ReleaseCache` has no single-use guard and leaves the task list as it
is: a second call on the same task list asks for the same releases as the first, so every
cache block loses twice what the task list records for it. -/
theorem ReleaseCache_twice (self : DistributedDualtreeTaskList) :
    (∀ calls : List (Int × Int),
      self.ReleaseCache record_release (self.ReleaseCache record_release calls) =
        calls ++ self.sub_tables_.map (fun slot : SlotType => (slot.1.cache_block_id_, slot.2.2))
          ++ self.sub_tables_.map (fun slot : SlotType => (slot.1.cache_block_id_, slot.2.2))) ∧
    (∀ (cache : Int → Int) (id : Int),
      self.ReleaseCache release_cache_block (self.ReleaseCache release_cache_block cache) id =
        cache id - 2 * self.claimed id) := by
  constructor
  · intro calls
    rw [ReleaseCache_record self.sub_tables_ self calls rfl,
      ReleaseCache_record self.sub_tables_ self _ rfl]
  · intro cache id
    rw [ReleaseCache_release self.sub_tables_ self _ id rfl,
      ReleaseCache_release self.sub_tables_ self cache id rfl]
    omega

theorem load_sub_tables_flags (load_subtable : Int → SubTable → SubTable)
    (slots : List SlotType) :
    ∀ (i : Nat) (rest : List ArchiveItem),
      ∃ loaded, load_sub_tables load_subtable [] slots.length i
          (save_sub_tables slots ++ rest) = some (loaded, rest) ∧
        ∀ slot ∈ loaded, slot.2.1 = false := by
  induction slots with
  | nil => intro i rest; exact ⟨[], rfl, fun _ h => absurd h (List.not_mem_nil _)⟩
  | cons slot slots ih =>
    intro i rest
    obtain ⟨loaded, hl, hm⟩ := ih (i + 1) rest
    refine ⟨(load_subtable (i : Int) slot.1, false, slot.2.2) :: loaded, ?_, ?_⟩
    · simp only [List.length_cons, save_sub_tables, List.cons_append, load_sub_tables,
        List.append_eq, hl, List.getElem?_nil]
    · intro s hs
      rcases List.mem_cons.1 hs with h | h
      · rw [h]
      · exact hm s h

/-- C21, counterexample. The example bundle holds its first subtable as a query (flag true).
After `save` and `load` into a default-constructed task list both flags are false. -/
theorem load_save_drops_query_flag :
    example_bundle.sub_tables_.map (fun slot : SlotType => slot.2.1) = [true, false] ∧
    (load (fun _ written => written) new example_bundle.save).map
      (fun r => r.1.sub_tables_.map (fun slot : SlotType => slot.2.1)) =
      some [false, false] := by
  refine ⟨rfl, rfl⟩

/-- C21, as amended. `save` writes, for every slot, the subtable and the reference count, not
the query flag: for every task list, `load` into a default-constructed task list reads all
of what `save` wrote, and the query flag it leaves at every position is false. -/
theorem load_save_query_flags (load_subtable : Int → SubTable → SubTable)
    (self : DistributedDualtreeTaskList) :
    ∃ loaded, load load_subtable new self.save = some (loaded, []) ∧
      loaded.sub_tables_.length = self.sub_tables_.length ∧
      ∀ slot ∈ loaded.sub_tables_, slot.2.1 = false := by
  by_cases hlen : self.sub_tables_.length > 0
  · have hpos : ((self.sub_tables_.length : Nat) : Int) > 0 := by omega
    obtain ⟨slots, hl, hm⟩ := load_sub_tables_flags load_subtable self.sub_tables_ 0
      (.int (self.donated_task_list_.length : Int) :: save_donated self.donated_task_list_)
    obtain ⟨slots2, hl2, hm2⟩ := load_sub_tables_save load_subtable [] self.sub_tables_ 0
      (.int (self.donated_task_list_.length : Int) :: save_donated self.donated_task_list_)
    rw [hl] at hl2
    simp only [Option.some.injEq, Prod.mk.injEq, and_true] at hl2
    subst hl2
    have hd := load_donated_save self.donated_task_list_ []
    rw [List.append_nil] at hd
    have hneg : ¬ ((self.donated_task_list_.length : Int) < 0) := by omega
    have hnew : new.sub_tables_ = [] := rfl
    refine ⟨{ new with sub_tables_ := slots, donated_task_list_ := self.donated_task_list_ },
      ?_, ?_, hm⟩
    · simp only [save, hlen, if_true, load, hpos, Int.toNat_ofNat, hnew, hl, hneg, if_false, hd]
    · have := congrArg List.length hm2
      simpa using this
  · have h0 : self.sub_tables_.length = 0 := by omega
    have hnil : self.sub_tables_ = [] := List.length_eq_zero.1 h0
    refine ⟨new, ?_, ?_, ?_⟩
    · simp [save, load, hnil]
    · rw [hnil]
      rfl
    · intro slot hslot
      exact absurd hslot (List.not_mem_nil _)

theorem Export_subtables_eq (slots : List SlotType) :
    ∀ (dest : ReceivingQueue) (assigned : List Int),
      Export_subtables slots (dest, assigned) =
        ({ dest with
            subtable_cache_ := dest.subtable_cache_ ++
              slots.map (fun slot : SlotType => (slot.1, slot.2.2)) },
          assigned ++ (List.range slots.length).map
            (fun i => ((dest.subtable_cache_.length + i : Nat) : Int))) := by
  induction slots with
  | nil =>
    intro dest assigned
    simp [Export_subtables]
  | cons slot rest ih =>
    intro dest assigned
    simp only [Export_subtables, ih, ReceivingQueue.push_subtable, List.length_append,
      List.length_singleton, List.append_assoc, List.singleton_append, List.map_cons,
      List.length_cons, List.range_succ_eq_map, List.map_map]
    refine Prod.ext rfl ?_
    simp only [List.append_cancel_left_eq, Nat.add_zero, List.cons.injEq, true_and]
    apply List.map_congr_left
    intro i _
    simp only [Function.comp_apply, List.length_nil]
    omega

theorem vecGet?_assigned (c0 n : Nat) (position : Int) (h0 : 0 ≤ position)
    (hlt : position < (n : Int)) :
    vecGet? ((List.range n).map (fun i => ((c0 + i : Nat) : Int))) position =
      some (((c0 + position.toNat : Nat)) : Int) := by
  rw [vecGet?_eq_some_iff]
  refine ⟨h0, ?_⟩
  rw [List.getElem?_map, List.getElem?_range (by omega)]
  rfl

theorem FindSubTable_assigned (dest : ReceivingQueue) (pre : List (SubTable × Int))
    (slots : List SlotType)
    (hcache : dest.subtable_cache_ =
      pre ++ slots.map (fun slot : SlotType => (slot.1, slot.2.2)))
    (position : Int) (h0 : 0 ≤ position) (hlt : position < (slots.length : Int)) :
    dest.FindSubTable (((pre.length + position.toNat : Nat)) : Int) =
      some (subtable_at slots position) := by
  have hlt2 : position.toNat < slots.length := by omega
  simp only [ReceivingQueue.FindSubTable, hcache, vecGet?_natCast, subtable_at]
  rw [List.getElem?_append_right (by omega)]
  simp only [Nat.add_sub_cancel_left, List.getElem?_map]
  have hv : vecGet? slots position = slots[position.toNat]? := by
    unfold vecGet?
    rw [if_neg (by omega)]
  rw [hv, List.getElem?_eq_getElem hlt2]
  rfl

theorem Export_tasks_eq (work : SubTable → SubTable → Nat) (pre : List (SubTable × Int))
    (slots : List SlotType) (new_position : Int) (query : SubTable) (refs : List Int) :
    ∀ (dest : ReceivingQueue) (tasks : List TaskType),
      dest.subtable_cache_ = pre ++ slots.map (fun slot : SlotType => (slot.1, slot.2.2)) →
      (∀ r ∈ refs, 0 ≤ r ∧ r < (slots.length : Int)) →
      vecGet? dest.queue_.query_subtables_ new_position = some query →
      vecGet? dest.queue_.tasks_ new_position = some tasks →
      Export_tasks work
          ((List.range slots.length).map (fun i => ((pre.length + i : Nat) : Int)))
          new_position refs dest =
        some { dest with
          queue_ := { dest.queue_ with
            tasks_ := vecSet dest.queue_.tasks_ new_position
              (tasks ++ refs.map (fun r =>
                ({ reference_subtable_ := subtable_at slots r
                   work_ := work query (subtable_at slots r) } : TaskType))) } } := by
  induction refs with
  | nil =>
    intro dest tasks _ _ _ htasks
    simp only [Export_tasks, List.map_nil, List.append_nil, vecSet_self _ _ _ htasks]
  | cons r rest ih =>
    intro dest tasks hcache hvalid hquery htasks
    obtain ⟨hr0, hrlt⟩ := hvalid r (List.mem_cons_self _ _)
    have hpush : dest.PushTask work new_position (subtable_at slots r) =
        some { dest with
          queue_ := { dest.queue_ with
            tasks_ := vecSet dest.queue_.tasks_ new_position
              (tasks ++ [({ reference_subtable_ := subtable_at slots r
                            work_ := work query (subtable_at slots r) } : TaskType)]) } } := by
      simp only [ReceivingQueue.PushTask, hquery, htasks]
    have hstep := ih
      { dest with
        queue_ := { dest.queue_ with
          tasks_ := vecSet dest.queue_.tasks_ new_position
            (tasks ++ [({ reference_subtable_ := subtable_at slots r
                          work_ := work query (subtable_at slots r) } : TaskType)]) } }
      (tasks ++ [({ reference_subtable_ := subtable_at slots r
                    work_ := work query (subtable_at slots r) } : TaskType)]) hcache
      (fun x hx => hvalid x (List.mem_cons_of_mem _ hx)) hquery
      (vecGet?_vecSet_self _ _ _ _ htasks)
    simp only [Export_tasks, vecGet?_assigned pre.length slots.length r hr0 hrlt,
      FindSubTable_assigned dest pre slots hcache r hr0 hrlt, hpush, hstep]
    simp only [vecSet_vecSet, List.map_cons, List.append_assoc, List.singleton_append]

theorem vecGet?_append_length {α : Type} (v : List α) (x : α) :
    vecGet? (v ++ [x]) (v.length : Int) = some x := by
  rw [vecGet?_natCast]
  simp

theorem vecSet_append_length {α : Type} (v : List α) (x y : α) (n : Nat) (h : n = v.length) :
    vecSet (v ++ [x]) (n : Int) y = v ++ [y] := by
  subst h
  simp [vecSet]

theorem Export_queues_eq (work : SubTable → SubTable → Nat) (source_rank_in : Int)
    (pre : List (SubTable × Int)) (slots : List SlotType) (entries : List (Int × List Int)) :
    ∀ dest : ReceivingQueue,
      dest.subtable_cache_ = pre ++ slots.map (fun slot : SlotType => (slot.1, slot.2.2)) →
      (∀ entry ∈ entries, (0 ≤ entry.1 ∧ entry.1 < (slots.length : Int)) ∧
        ∀ r ∈ entry.2, 0 ≤ r ∧ r < (slots.length : Int)) →
      dest.queue_.tasks_.length = dest.queue_.query_subtables_.length →
      Export_queues work source_rank_in
          ((List.range slots.length).map (fun i => ((pre.length + i : Nat) : Int)))
          entries dest =
        some { dest with
          queue_ := { dest.queue_ with
            query_subtables_ := dest.queue_.query_subtables_ ++
              entries.map (fun entry => tagged_query source_rank_in (subtable_at slots entry.1))
            tasks_ := dest.queue_.tasks_ ++
              entries.map (fun entry => entry.2.map (fun r =>
                ({ reference_subtable_ := subtable_at slots r
                   work_ := work (tagged_query source_rank_in (subtable_at slots entry.1))
                     (subtable_at slots r) } : TaskType))) } } := by
  induction entries with
  | nil =>
    intro dest _ _ _
    simp [Export_queues]
  | cons entry rest ih =>
    intro dest hcache hvalid halign
    obtain ⟨⟨hq0, hqlt⟩, hrefs⟩ := hvalid entry (List.mem_cons_self _ _)
    have htasks := Export_tasks_eq work pre slots
      (dest.PushNewQueue source_rank_in (subtable_at slots entry.1)).2
      (tagged_query source_rank_in (subtable_at slots entry.1)) entry.2
      (dest.PushNewQueue source_rank_in (subtable_at slots entry.1)).1 [] hcache hrefs
      (vecGet?_append_length _ _)
      (by
        simp only [ReceivingQueue.PushNewQueue]
        rw [← halign]
        exact vecGet?_append_length _ _)
    have hmid : Export_tasks work
        ((List.range slots.length).map (fun i => ((pre.length + i : Nat) : Int)))
        (dest.PushNewQueue source_rank_in (subtable_at slots entry.1)).2 entry.2
        (dest.PushNewQueue source_rank_in (subtable_at slots entry.1)).1 =
        some
          { subtable_cache_ := dest.subtable_cache_
            queue_ :=
              { query_subtables_ := dest.queue_.query_subtables_ ++
                  [tagged_query source_rank_in (subtable_at slots entry.1)]
                tasks_ := dest.queue_.tasks_ ++
                  [entry.2.map (fun r =>
                    ({ reference_subtable_ := subtable_at slots r
                       work_ := work (tagged_query source_rank_in (subtable_at slots entry.1))
                         (subtable_at slots r) } : TaskType))]
                remaining_local_computation_ := dest.queue_.remaining_local_computation_ } } := by
      rw [htasks]
      simp only [ReceivingQueue.PushNewQueue, List.nil_append,
        vecSet_append_length _ _ _ _ halign.symm, tagged_query]
    have hstep := ih
      { subtable_cache_ := dest.subtable_cache_
        queue_ :=
          { query_subtables_ := dest.queue_.query_subtables_ ++
              [tagged_query source_rank_in (subtable_at slots entry.1)]
            tasks_ := dest.queue_.tasks_ ++
              [entry.2.map (fun r =>
                ({ reference_subtable_ := subtable_at slots r
                   work_ := work (tagged_query source_rank_in (subtable_at slots entry.1))
                     (subtable_at slots r) } : TaskType))]
            remaining_local_computation_ := dest.queue_.remaining_local_computation_ } }
      hcache (fun x hx => hvalid x (List.mem_cons_of_mem _ hx))
      (by simp only [List.length_append, List.length_singleton, halign])
    simp only [Export_queues, vecGet?_assigned pre.length slots.length entry.1 hq0 hqlt,
      FindSubTable_assigned dest pre slots hcache entry.1 hq0 hqlt, hmid, hstep]
    simp only [List.map_cons, List.append_assoc, List.singleton_append]

/-- C25. For a task list whose donated positions are positions of `sub_tables_`, `Export` into
a receiving queue (with one task list per query subtable) completes, and its effect is
that of the following calls and of no others. The subtable cache has received the `n`
subtables in position order, each with its recorded reference count, so `push_subtable`
was called once per slot and slot `p` was assigned cache block `c + p`, `c` being the
former size of the cache. The queue has received `m` new entries in the order of the
donated entries: the query subtable of the `i`-th is the cache subtable assigned to the
query position of the `i`-th entry, tagged with `source_rank_in`, and its tasks are one per
reference position, in list order, each on the cache subtable assigned to that position. -/
theorem Export_wiring (self : DistributedDualtreeTaskList) (work : SubTable → SubTable → Nat)
    (source_rank_in : Int) (dest : ReceivingQueue)
    (hvalid : ∀ entry ∈ self.donated_task_list_,
      (0 ≤ entry.1 ∧ entry.1 < (self.sub_tables_.length : Int)) ∧
        ∀ r ∈ entry.2, 0 ≤ r ∧ r < (self.sub_tables_.length : Int))
    (halign : dest.queue_.tasks_.length = dest.queue_.query_subtables_.length) :
    ∃ dest1, self.Export work source_rank_in dest = some dest1 ∧
      dest1.subtable_cache_ = dest.subtable_cache_ ++
        self.sub_tables_.map (fun slot : SlotType => (slot.1, slot.2.2)) ∧
      (∀ p : Int, 0 ≤ p → p < (self.sub_tables_.length : Int) →
        dest1.FindSubTable (((dest.subtable_cache_.length + p.toNat : Nat)) : Int) =
          some (subtable_at self.sub_tables_ p)) ∧
      dest1.queue_.query_subtables_ = dest.queue_.query_subtables_ ++
        self.donated_task_list_.map
          (fun entry => tagged_query source_rank_in (subtable_at self.sub_tables_ entry.1)) ∧
      dest1.queue_.tasks_ = dest.queue_.tasks_ ++
        self.donated_task_list_.map (fun entry => entry.2.map (fun r =>
          ({ reference_subtable_ := subtable_at self.sub_tables_ r
             work_ := work (tagged_query source_rank_in (subtable_at self.sub_tables_ entry.1))
               (subtable_at self.sub_tables_ r) } : TaskType))) ∧
      dest1.queue_.remaining_local_computation_ = dest.queue_.remaining_local_computation_ := by
  have hq := Export_queues_eq work source_rank_in dest.subtable_cache_ self.sub_tables_
    self.donated_task_list_
    { dest with
      subtable_cache_ := dest.subtable_cache_ ++
        self.sub_tables_.map (fun slot : SlotType => (slot.1, slot.2.2)) } rfl hvalid halign
  have hexp : self.Export work source_rank_in dest =
      Export_queues work source_rank_in
        ((List.range self.sub_tables_.length).map
          (fun i => ((dest.subtable_cache_.length + i : Nat) : Int)))
        self.donated_task_list_
        { dest with
          subtable_cache_ := dest.subtable_cache_ ++
            self.sub_tables_.map (fun slot : SlotType => (slot.1, slot.2.2)) } := by
    simp only [Export, Export_subtables_eq, List.nil_append]
  exact ⟨_, hexp.trans hq, rfl,
    fun p hp0 hplt =>
      FindSubTable_assigned _ dest.subtable_cache_ self.sub_tables_ rfl p hp0 hplt,
    rfl, rfl, rfl⟩

/-- C25, at a concrete input: the example bundle exported to an empty receiving queue. -/
theorem Export_wiring_witness :
    (∀ entry ∈ example_bundle.donated_task_list_,
      (0 ≤ entry.1 ∧ entry.1 < (example_bundle.sub_tables_.length : Int)) ∧
        ∀ r ∈ entry.2, 0 ≤ r ∧ r < (example_bundle.sub_tables_.length : Int)) ∧
    ∃ dest1, example_bundle.Export point_product 0
        { subtable_cache_ := []
          queue_ := { query_subtables_ := [], tasks_ := [],
                      remaining_local_computation_ := 0 } } = some dest1 ∧
      dest1.subtable_cache_ = [] ++
        example_bundle.sub_tables_.map (fun slot : SlotType => (slot.1, slot.2.2)) ∧
      (∀ p : Int, 0 ≤ p → p < (example_bundle.sub_tables_.length : Int) →
        dest1.FindSubTable (((([] : List (SubTable × Int)).length + p.toNat : Nat)) : Int) =
          some (subtable_at example_bundle.sub_tables_ p)) ∧
      dest1.queue_.query_subtables_ = [] ++
        example_bundle.donated_task_list_.map
          (fun entry => tagged_query 0 (subtable_at example_bundle.sub_tables_ entry.1)) ∧
      dest1.queue_.tasks_ = [] ++
        example_bundle.donated_task_list_.map (fun entry => entry.2.map (fun r =>
          ({ reference_subtable_ := subtable_at example_bundle.sub_tables_ r
             work_ := point_product
               (tagged_query 0 (subtable_at example_bundle.sub_tables_ entry.1))
               (subtable_at example_bundle.sub_tables_ r) } : TaskType))) ∧
      dest1.queue_.remaining_local_computation_ = 0 :=
  ⟨by decide,
    Export_wiring example_bundle point_product 0
      { subtable_cache_ := []
        queue_ := { query_subtables_ := [], tasks_ := [],
                    remaining_local_computation_ := 0 } }
      (by decide) rfl⟩

end DistributedDualtreeTaskList

end parallel

end core

namespace core

namespace table

open core.parallel

theorem sorted_nodes_of_length (t : TreeType) :
    ∀ (p : Int) (position : Nat), (sorted_nodes_of t p position).length = t.size := by
  induction t with
  | null => intro p position; rfl
  | node b c left right ihl ihr =>
    intro p position
    simp only [sorted_nodes_of, List.length_cons, List.length_append, ihl, ihr, TreeType.size]
    omega

theorem fresh_nodes_of_length (t : TreeType) :
    ∀ (p : Int) (position : Nat), (fresh_nodes_of t p position).length = t.size := by
  induction t with
  | null => intro p position; rfl
  | node b c left right ihl ihr =>
    intro p position
    simp only [fresh_nodes_of, List.length_cons, List.length_append, ihl, ihr, TreeType.size]
    omega

theorem linked_nodes_of_length (t : TreeType) :
    ∀ (p : Int) (position : Nat), (linked_nodes_of t p position).length = t.size := by
  induction t with
  | null => intro p position; rfl
  | node b c left right ihl ihr =>
    intro p position
    simp only [linked_nodes_of, List.length_cons, List.length_append, ihl, ihr, TreeType.size]
    omega

theorem load_tree_nodes_sorted_nodes_of (t : TreeType) :
    ∀ (p : Int) (position : Nat),
      SubTable.load_tree_nodes ((sorted_nodes_of t p position).map
        (fun entry => ((entry.1.begin?.getD 0, entry.1.count?.getD 0), entry.2))) =
        fresh_nodes_of t p position := by
  induction t with
  | null => intro p position; rfl
  | node b c left right ihl ihr =>
    intro p position
    have hl := ihl (position : Int) (position + 1)
    have hr := ihr (position : Int) (position + 1 + left.size)
    simp only [SubTable.load_tree_nodes] at hl hr
    simp only [SubTable.load_tree_nodes, sorted_nodes_of, fresh_nodes_of, List.map_cons,
      List.map_append]
    rw [hl, hr]
    rfl

theorem archived_of_load_tree_nodes (archived : List ((Int × Nat) × Int)) :
    archived_of (SubTable.load_tree_nodes archived) = archived := by
  induction archived with
  | nil => rfl
  | cons entry rest ih =>
    simp only [archived_of, SubTable.load_tree_nodes, List.map_cons] at ih ⊢
    rw [ih]

theorem FillTreeNodes__eq (t : TreeType) :
    ∀ (p : Int) (sorted_nodes : List (TreeType × Int)) (ranges : List PointSerializeFlagType)
      (add : Bool),
      SubTable.FillTreeNodes_ t p (sorted_nodes, ranges) add =
        (sorted_nodes ++ sorted_nodes_of t p sorted_nodes.length,
          if p < 0 ∧ add = true then ranges ++ root_range t else ranges) := by
  induction t with
  | null =>
    intro p sorted_nodes ranges add
    simp [SubTable.FillTreeNodes_, sorted_nodes_of, root_range]
  | node b c left right ihl ihr =>
    intro p sorted_nodes ranges add
    have hlen : (((sorted_nodes ++ [(TreeType.node b c left right, p)]).length : Nat) : Int) - 1 =
        (sorted_nodes.length : Int) := by
      simp
    have hnot : ¬ ((sorted_nodes.length : Int) < 0 ∧ add = true) := by
      intro h
      have := h.1
      omega
    by_cases hleaf : (TreeType.node b c left right).is_leaf = false
    · have step : SubTable.FillTreeNodes_ (.node b c left right) p (sorted_nodes, ranges) add =
          SubTable.FillTreeNodes_ right (sorted_nodes.length : Int)
            (SubTable.FillTreeNodes_ left (sorted_nodes.length : Int)
              (sorted_nodes ++ [(TreeType.node b c left right, p)],
                if p < 0 ∧ add = true then ranges ++ [{ begin_ := b, count_ := (c : Int) }]
                else ranges) add) add := by
        simp only [SubTable.FillTreeNodes_, hleaf, if_true, hlen]
      rw [step, ihl, ihr]
      simp only [hnot, if_false, List.length_append, sorted_nodes_of_length,
        List.length_singleton, sorted_nodes_of, root_range, List.append_assoc,
        List.singleton_append, List.length_cons, List.cons_append, List.length_nil,
        List.nil_append, Nat.zero_add]
      rw [show sorted_nodes.length + (left.size + 1) = sorted_nodes.length + 1 + left.size
        from by omega]
    · have hl : left = .null := by
        cases left with
        | null => rfl
        | node _ _ _ _ => simp [TreeType.is_leaf] at hleaf
      have hr : right = .null := by
        cases right with
        | null => rfl
        | node _ _ _ _ => subst hl; simp [TreeType.is_leaf] at hleaf
      subst hl hr
      simp [SubTable.FillTreeNodes_, TreeType.is_leaf, sorted_nodes_of, root_range]

theorem sorted_nodes_of_parent (t : TreeType) :
    ∀ (p : Int) (position : Nat) (entry : TreeType × Int),
      entry ∈ sorted_nodes_of t p position →
        entry.2 = p ∨ ((position : Int) ≤ entry.2 ∧ entry.2 < (position : Int) + t.size) := by
  induction t with
  | null => intro p position entry h; simp [sorted_nodes_of] at h
  | node b c left right ihl ihr =>
    intro p position entry h
    simp only [sorted_nodes_of, List.mem_cons, List.mem_append] at h
    simp only [TreeType.size]
    rcases h with h | h | h
    · left; rw [h]
    · right
      rcases ihl _ _ _ h with h1 | h1
      · omega
      · push_cast at h1; omega
    · right
      rcases ihr _ _ _ h with h1 | h1
      · omega
      · push_cast at h1; omega

theorem load_pointer_corrections_append (first second : List Nat) :
    ∀ tree_nodes : List (LoadedNode × Int),
      SubTable.load_pointer_corrections (first ++ second) tree_nodes =
        (SubTable.load_pointer_corrections first tree_nodes).bind
          (SubTable.load_pointer_corrections second) := by
  induction first with
  | nil => intro tree_nodes; rfl
  | cons i rest ih =>
    intro tree_nodes
    simp only [List.cons_append, SubTable.load_pointer_corrections]
    cases SubTable.load_pointer_correction tree_nodes i with
    | none => rfl
    | some tree_nodes1 => exact ih tree_nodes1

theorem load_pointer_correction_at (pre mid post : List (LoadedNode × Int))
    (parent child : LoadedNode) (p : Int) (i : Nat) (hi : i = pre.length + 1 + mid.length) :
    SubTable.load_pointer_correction
        (pre ++ (parent, p) :: (mid ++ (child, (pre.length : Int)) :: post)) i =
      some (pre ++
        ((if parent.begin_ = child.begin_ then { parent with left_ := some i }
          else { parent with right_ := some i }), p) ::
          (mid ++ (child, (pre.length : Int)) :: post)) := by
  subst hi
  have hchild : (pre ++ (parent, p) :: (mid ++ (child, (pre.length : Int)) :: post))[
      pre.length + 1 + mid.length]? = some (child, (pre.length : Int)) := by
    rw [List.getElem?_append_right (by omega)]
    rw [show pre.length + 1 + mid.length - pre.length = mid.length + 1 from by omega]
    rw [List.getElem?_cons_succ, List.getElem?_append_right (by omega)]
    simp
  have hparent : vecGet? (pre ++ (parent, p) :: (mid ++ (child, (pre.length : Int)) :: post))
      (pre.length : Int) = some (parent, p) := by
    rw [vecGet?_natCast, List.getElem?_append_right (by omega)]
    simp
  simp only [SubTable.load_pointer_correction, hchild, hparent]
  have hset : ∀ x : LoadedNode × Int,
      vecSet (pre ++ (parent, p) :: (mid ++ (child, (pre.length : Int)) :: post))
        (pre.length : Int) x = pre ++ x :: (mid ++ (child, (pre.length : Int)) :: post) := by
    intro x
    simp [vecSet]
  split <;> simp only [hset]

theorem range'_add (a : Nat) :
    ∀ (s b : Nat), List.range' s (a + b) = List.range' s a ++ List.range' (s + a) b := by
  induction a with
  | zero => intro s b; simp
  | succ a ih =>
    intro s b
    rw [Nat.succ_add, List.range'_succ, List.range'_succ, ih (s + 1) b, List.cons_append]
    rw [show s + 1 + a = s + (a + 1) from by omega]

theorem load_pointer_corrections_cons_of {tree_nodes tree_nodes1 : List (LoadedNode × Int)}
    {i : Nat} (rest : List Nat)
    (h : SubTable.load_pointer_correction tree_nodes i = some tree_nodes1) :
    SubTable.load_pointer_corrections (i :: rest) tree_nodes =
      SubTable.load_pointer_corrections rest tree_nodes1 := by
  simp only [SubTable.load_pointer_corrections, h]

theorem load_pointer_corrections_append_of {tree_nodes tree_nodes1 : List (LoadedNode × Int)}
    {first : List Nat} (second : List Nat)
    (h : SubTable.load_pointer_corrections first tree_nodes = some tree_nodes1) :
    SubTable.load_pointer_corrections (first ++ second) tree_nodes =
      SubTable.load_pointer_corrections second tree_nodes1 := by
  rw [load_pointer_corrections_append, h]
  rfl

theorem fresh_nodes_of_head (t : TreeType) (b : Int) (h : t.begin? = some b) (p : Int)
    (position : Nat) :
    ∃ (c : Nat) (rest : List (LoadedNode × Int)),
      fresh_nodes_of t p position =
        ({ begin_ := b, count_ := c, left_ := none, right_ := none }, p) :: rest ∧
      t ≠ .null ∧ 1 ≤ t.size := by
  cases t with
  | null => simp [TreeType.begin?] at h
  | node b1 c1 left right =>
    simp only [TreeType.begin?, Option.some.injEq] at h
    subst h
    exact ⟨c1, _, rfl, by simp, by simp only [TreeType.size]; omega⟩

theorem load_pointer_corrections_subtree (t : TreeType) :
    t.binary_shape = true →
      ∀ (p : Int) (pre post : List (LoadedNode × Int)),
        SubTable.load_pointer_corrections (List.range' (pre.length + 1) (t.size - 1))
            (pre ++ (fresh_nodes_of t p pre.length ++ post)) =
          some (pre ++ (linked_nodes_of t p pre.length ++ post)) := by
  induction t with
  | null => intro h; simp [TreeType.binary_shape] at h
  | node b c left right ihl ihr =>
    intro hshape p pre post
    simp only [TreeType.binary_shape, Bool.or_eq_true, Bool.and_eq_true,
      decide_eq_true_eq] at hshape
    rcases hshape with ⟨hl, hr⟩ | ⟨⟨⟨hlb, hrb⟩, hls⟩, hrs⟩
    · subst hl hr
      simp [TreeType.size, fresh_nodes_of, linked_nodes_of, SubTable.load_pointer_corrections]
    · cases hrb1 : right.begin? with
      | none => rw [hrb1] at hrb; simp at hrb
      | some br =>
        rw [hrb1] at hrb
        simp only [decide_eq_true_eq] at hrb
        obtain ⟨cl, tll, hfl, hlnull, hsl⟩ :=
          fresh_nodes_of_head left b hlb (pre.length : Int) (pre.length + 1)
        obtain ⟨cr, tlr, hfr, hrnull, hsr⟩ :=
          fresh_nodes_of_head right br hrb1 (pre.length : Int) (pre.length + 1 + left.size)
        have hidx : List.range' (pre.length + 1) ((TreeType.node b c left right).size - 1) =
            (pre.length + 1) :: (List.range' (pre.length + 1 + 1) (left.size - 1) ++
              ((pre.length + 1 + left.size) ::
                List.range' (pre.length + 1 + left.size + 1) (right.size - 1))) := by
          have e : (TreeType.node b c left right).size - 1 =
              1 + ((left.size - 1) + (1 + (right.size - 1))) := by
            simp only [TreeType.size]; omega
          rw [e, range'_add 1, range'_add (left.size - 1), range'_add 1]
          rw [show pre.length + 1 + 1 + (left.size - 1) = pre.length + 1 + left.size
            from by omega]
          rfl
        have hlen1 : (pre ++ [(LoadedNode.mk b c (some (pre.length + 1)) none, p)]).length = pre.length + 1 := by simp
        have hlen2 : (pre ++ (LoadedNode.mk b c (some (pre.length + 1)) (some (pre.length + 1 + left.size)), p) ::
              linked_nodes_of left (pre.length : Int) (pre.length + 1)).length =
            pre.length + 1 + left.size := by
          simp [linked_nodes_of_length]; omega
        have h1 := load_pointer_correction_at pre [] (tll ++ (fresh_nodes_of right
            (pre.length : Int) (pre.length + 1 + left.size) ++ post))
          { begin_ := b, count_ := c, left_ := none, right_ := none }
          { begin_ := b, count_ := cl, left_ := none, right_ := none } p (pre.length + 1)
          (by simp)
        have h2 := ihl hls (pre.length : Int)
          (pre ++ [(LoadedNode.mk b c (some (pre.length + 1)) none, p)])
          (fresh_nodes_of right (pre.length : Int) (pre.length + 1 + left.size) ++ post)
        have h3 := load_pointer_correction_at pre
          (linked_nodes_of left (pre.length : Int) (pre.length + 1)) (tlr ++ post)
          { begin_ := b, count_ := c, left_ := some (pre.length + 1), right_ := none }
          { begin_ := br, count_ := cr, left_ := none, right_ := none } p
          (pre.length + 1 + left.size) (by rw [linked_nodes_of_length])
        have h4 := ihr hrs (pre.length : Int)
          (pre ++ (LoadedNode.mk b c (some (pre.length + 1)) (some (pre.length + 1 + left.size)), p) ::
              linked_nodes_of left (pre.length : Int) (pre.length + 1)) post
        rw [hlen1] at h2
        rw [hlen2] at h4
        have hne : ¬ b = br := by omega
        simp only [if_true, hne, if_false] at h1 h3
        rw [hfl] at h2
        rw [hfr] at h1 h2 h4
        rw [hidx]
        simp only [fresh_nodes_of, linked_nodes_of, hfl, hfr, hlnull, hrnull, if_false,
          List.cons_append, List.append_assoc, List.nil_append,
          List.singleton_append] at h1 h2 h3 h4 ⊢
        rw [load_pointer_corrections_cons_of _ h1, load_pointer_corrections_append_of _ h2,
          load_pointer_corrections_cons_of _ h3, h4]

theorem LoadedNode_tree_none (tree_nodes : List (LoadedNode × Int)) (depth : Nat) :
    LoadedNode.tree tree_nodes depth none = .null := by
  cases depth <;> rfl

theorem LoadedNode_tree_linked_nodes_of (t : TreeType) :
    ∀ (p : Int) (pre post : List (LoadedNode × Int)) (depth : Nat),
      t ≠ .null → t.size ≤ depth →
        LoadedNode.tree (pre ++ (linked_nodes_of t p pre.length ++ post)) depth
          (some pre.length) = t := by
  induction t with
  | null => intro p pre post depth h; exact absurd rfl h
  | node b c left right ihl ihr =>
    intro p pre post depth _ hdepth
    simp only [TreeType.size] at hdepth
    obtain ⟨depth1, rfl⟩ : ∃ d, depth = d + 1 := ⟨depth - 1, by omega⟩
    have hroot : (pre ++ (linked_nodes_of (TreeType.node b c left right) p pre.length ++
        post))[pre.length]? =
        some (LoadedNode.mk b c (if left = .null then none else some (pre.length + 1))
          (if right = .null then none else some (pre.length + 1 + left.size)), p) := by
      rw [List.getElem?_append_right (by omega)]
      simp [linked_nodes_of]
    simp only [LoadedNode.tree, hroot]
    congr 1
    · by_cases hl : left = .null
      · simp only [hl, if_true, LoadedNode_tree_none]
      · have h := ihl (pre.length : Int)
          (pre ++ [(LoadedNode.mk b c (if left = .null then none else some (pre.length + 1))
            (if right = .null then none else some (pre.length + 1 + left.size)), p)])
          (linked_nodes_of right (pre.length : Int) (pre.length + 1 + left.size) ++ post)
          depth1 hl (by omega)
        simp only [List.length_append, List.length_singleton, List.append_assoc,
          List.singleton_append] at h
        simp only [hl, if_false, linked_nodes_of, List.cons_append, List.append_assoc] at h ⊢
        exact h
    · by_cases hr : right = .null
      · simp only [hr, if_true, LoadedNode_tree_none]
      · have h := ihr (pre.length : Int)
          (pre ++ (LoadedNode.mk b c (if left = .null then none else some (pre.length + 1))
            (if right = .null then none else some (pre.length + 1 + left.size)), p) ::
            linked_nodes_of left (pre.length : Int) (pre.length + 1))
          post depth1 hr (by omega)
        simp only [List.length_append, List.length_cons, linked_nodes_of_length,
          List.append_assoc, List.cons_append] at h
        rw [show pre.length + (left.size + 1) = pre.length + 1 + left.size from by omega] at h
        simp only [hr, if_false, linked_nodes_of, List.cons_append, List.append_assoc] at h ⊢
        exact h

theorem load_tree_of_binary_shape (t : TreeType) (hshape : t.binary_shape = true) :
    SubTable.load_tree ((sorted_nodes_of t (-1) 0).map
      (fun entry => ((entry.1.begin?.getD 0, entry.1.count?.getD 0), entry.2))) =
      some (linked_nodes_of t (-1) 0) := by
  have hnull : t ≠ .null := by
    intro h
    subst h
    simp [TreeType.binary_shape] at hshape
  have hsub := load_pointer_corrections_subtree t hshape (-1) [] []
  simp only [List.length_nil, List.nil_append, List.append_nil, Nat.zero_add] at hsub
  have hzero : (linked_nodes_of t (-1) 0)[0]? ≠ none := by
    cases t with
    | null => exact absurd rfl hnull
    | node b c left right => simp [linked_nodes_of]
  simp only [SubTable.load_tree, List.length_map, sorted_nodes_of_length,
    load_tree_nodes_sorted_nodes_of, hsub]
  cases h : (linked_nodes_of t (-1) 0)[0]? with
  | none => exact absurd h hzero
  | some _ => rfl

theorem archived_of_length (tree_nodes : List (LoadedNode × Int)) :
    (archived_of tree_nodes).length = tree_nodes.length := by
  simp [archived_of]

theorem load_pointer_correction_some (tree_nodes : List (LoadedNode × Int)) (i : Nat)
    (entry : (Int × Nat) × Int) (hentry : (archived_of tree_nodes)[i]? = some entry)
    (h0 : 0 ≤ entry.2) (hlt : entry.2 < (tree_nodes.length : Int)) :
    ∃ tree_nodes1, SubTable.load_pointer_correction tree_nodes i = some tree_nodes1 ∧
      archived_of tree_nodes1 = archived_of tree_nodes := by
  simp only [archived_of, List.getElem?_map, Option.map_eq_some'] at hentry
  obtain ⟨child, hchild, hce⟩ := hentry
  have hp : child.2 = entry.2 := by rw [← hce]
  have hin : entry.2.toNat < tree_nodes.length := by omega
  have hparent : vecGet? tree_nodes child.2 = some (tree_nodes.get ⟨entry.2.toNat, hin⟩) := by
    rw [hp, vecGet?_eq_some_iff]
    exact ⟨h0, List.getElem?_eq_getElem hin⟩
  have hkeep : ∀ x : LoadedNode × Int,
      ((x.1.begin_, x.1.count_), x.2) =
        (((tree_nodes.get ⟨entry.2.toNat, hin⟩).1.begin_,
          (tree_nodes.get ⟨entry.2.toNat, hin⟩).1.count_),
          (tree_nodes.get ⟨entry.2.toNat, hin⟩).2) →
        archived_of (vecSet tree_nodes child.2 x) = archived_of tree_nodes := by
    intro x hx
    simp only [archived_of, vecSet, List.map_set, hp]
    apply DistributedDualtreeTaskList.List_set_of_getElem?
    rw [List.getElem?_map, List.getElem?_eq_getElem hin, hx]
    rfl
  simp only [SubTable.load_pointer_correction, hchild, hparent]
  split
  · exact ⟨_, rfl, hkeep _ rfl⟩
  · exact ⟨_, rfl, hkeep _ rfl⟩

theorem load_pointer_corrections_some (indices : List Nat) :
    ∀ tree_nodes : List (LoadedNode × Int),
      (∀ i ∈ indices, ∃ entry, (archived_of tree_nodes)[i]? = some entry ∧
        0 ≤ entry.2 ∧ entry.2 < (tree_nodes.length : Int)) →
      ∃ tree_nodes1, SubTable.load_pointer_corrections indices tree_nodes = some tree_nodes1 ∧
        archived_of tree_nodes1 = archived_of tree_nodes := by
  induction indices with
  | nil => intro tree_nodes _; exact ⟨tree_nodes, rfl, rfl⟩
  | cons i rest ih =>
    intro tree_nodes h
    obtain ⟨entry, hentry, h0, hlt⟩ := h i (List.mem_cons_self _ _)
    obtain ⟨tree_nodes1, h1, hk1⟩ := load_pointer_correction_some tree_nodes i entry hentry h0 hlt
    have hlen : tree_nodes1.length = tree_nodes.length := by
      rw [← archived_of_length, hk1, archived_of_length]
    obtain ⟨tree_nodes2, h2, hk2⟩ := ih tree_nodes1 (by
      intro j hj
      rw [hk1, hlen]
      exact h j (List.mem_cons_of_mem _ hj))
    exact ⟨tree_nodes2, by simp only [SubTable.load_pointer_corrections, h1, h2],
      hk2.trans hk1⟩

theorem load_tree_some (archived : List ((Int × Nat) × Int)) (hne : archived ≠ [])
    (hrange : ∀ (i : Nat) (entry : (Int × Nat) × Int), 1 ≤ i → archived[i]? = some entry →
      0 ≤ entry.2 ∧ entry.2 < (archived.length : Int)) :
    ∃ tree_nodes, SubTable.load_tree archived = some tree_nodes ∧
      archived_of tree_nodes = archived := by
  have hlen0 : (SubTable.load_tree_nodes archived).length = archived.length := by
    simp [SubTable.load_tree_nodes]
  obtain ⟨tree_nodes, h1, hk⟩ := load_pointer_corrections_some
    (List.range' 1 (archived.length - 1)) (SubTable.load_tree_nodes archived) (by
      intro i hi
      rw [List.mem_range'_1] at hi
      have hpos : 0 < archived.length := List.length_pos.2 hne
      have hi2 : i < archived.length := by omega
      refine ⟨archived.get ⟨i, hi2⟩, ?_, ?_⟩
      · rw [archived_of_load_tree_nodes]
        exact List.getElem?_eq_getElem hi2
      · rw [hlen0]
        exact hrange i _ hi.1 (List.getElem?_eq_getElem hi2))
  rw [archived_of_load_tree_nodes] at hk
  have hlen : tree_nodes.length = archived.length := by
    rw [← archived_of_length, hk]
  have hpos : 0 < tree_nodes.length := by
    rw [hlen]
    exact List.length_pos.2 hne
  refine ⟨tree_nodes, ?_, hk⟩
  simp only [SubTable.load_tree, h1, List.getElem?_eq_getElem hpos]

theorem sorted_nodes_of_in_range (t : TreeType) (i : Nat) (entry : (Int × Nat) × Int)
    (hi : 1 ≤ i)
    (hentry : ((sorted_nodes_of t (-1) 0).map
      (fun entry => ((entry.1.begin?.getD 0, entry.1.count?.getD 0), entry.2)))[i]? =
        some entry) :
    0 ≤ entry.2 ∧ entry.2 < (t.size : Int) := by
  cases t with
  | null => simp [sorted_nodes_of] at hentry
  | node b c left right =>
    obtain ⟨j, rfl⟩ : ∃ j, i = j + 1 := ⟨i - 1, by omega⟩
    simp only [sorted_nodes_of, List.map_cons, List.getElem?_cons_succ, List.getElem?_map,
      Option.map_eq_some'] at hentry
    obtain ⟨node, hnode, hce⟩ := hentry
    have hmem : node ∈ sorted_nodes_of left ((0 : Nat) : Int) (0 + 1) ++
        sorted_nodes_of right ((0 : Nat) : Int) (0 + 1 + left.size) := by
      obtain ⟨hj, hget⟩ := List.getElem?_eq_some.1 hnode
      rw [← hget]
      exact List.getElem_mem hj
    rw [← hce]
    simp only [TreeType.size]
    rcases List.mem_append.1 hmem with h | h
    · rcases sorted_nodes_of_parent _ _ _ _ h with h1 | h1
      · push_cast at h1 ⊢; omega
      · push_cast at h1 ⊢; omega
    · rcases sorted_nodes_of_parent _ _ _ _ h with h1 | h1
      · push_cast at h1 ⊢; omega
      · push_cast at h1 ⊢; omega

theorem save_eq (self : SubTable) (table : TableType) (htable : self.table_ = some table) :
    self.save = some
      ({ self with
          serialize_points_per_terminal_node_ :=
            if self.is_alias_ = true then
              self.serialize_points_per_terminal_node_ ++ root_range self.start_node_
            else self.serialize_points_per_terminal_node_ },
        { rank := table.rank
          tree_nodes := (sorted_nodes_of self.start_node_ (-1) 0).map
            (fun entry => ((entry.1.begin?.getD 0, entry.1.count?.getD 0), entry.2))
          serialize_points_per_terminal_node :=
            if self.is_alias_ = true then
              self.serialize_points_per_terminal_node_ ++ root_range self.start_node_
            else self.serialize_points_per_terminal_node_
          serialize_new_from_old_mapping := self.serialize_new_from_old_mapping_ }) := by
  simp only [SubTable.save, htable, FillTreeNodes__eq, List.length_nil, List.nil_append]
  simp

theorem load_eq (self : SubTable) (table : TableType) (htable : self.table_ = some table)
    (ar : SubTableArchive) (tree_nodes : List (LoadedNode × Int))
    (htree : SubTable.load_tree ar.tree_nodes = some tree_nodes) :
    self.load ar = some
      ({ self with
          table_ := some { table with rank := ar.rank }
          start_node_ := LoadedNode.tree tree_nodes tree_nodes.length (some 0)
          serialize_points_per_terminal_node_ := ar.serialize_points_per_terminal_node
          serialize_new_from_old_mapping_ := ar.serialize_new_from_old_mapping },
        tree_nodes) := by
  simp only [SubTable.load, htable, htree]

/-- C22. Tree-shape round trip. For a subtable with a table whose start node is a binary tree
in which every internal node has a left child that starts at the begin index of the node
and a right child that starts at a strictly larger begin index, `save` writes one node
record per node of the tree, and `load` of what was written, into any subtable with a table,
completes and constructs as many nodes as the tree has; the tree under the loaded start
node is the source tree: every node has the same begin index, the same count, the same left
child and the same right child. -/
theorem load_save_tree_shape (self receiver : SubTable) (htable : self.table_ ≠ none)
    (hreceiver : receiver.table_ ≠ none) (hshape : self.start_node_.binary_shape = true) :
    ∃ saved loaded, self.save = some saved ∧ receiver.load saved.2 = some loaded ∧
      saved.2.tree_nodes.length = self.start_node_.size ∧
      loaded.2.length = self.start_node_.size ∧
      loaded.1.start_node_ = self.start_node_ ∧
      ∀ depth, self.start_node_.size ≤ depth →
        LoadedNode.tree loaded.2 depth (some 0) = self.start_node_ := by
  obtain ⟨table, htable1⟩ := Option.ne_none_iff_exists'.1 htable
  obtain ⟨table2, hreceiver1⟩ := Option.ne_none_iff_exists'.1 hreceiver
  have hnull : self.start_node_ ≠ .null := by
    intro h
    rw [h] at hshape
    simp [TreeType.binary_shape] at hshape
  have hread : ∀ depth, self.start_node_.size ≤ depth →
      LoadedNode.tree (linked_nodes_of self.start_node_ (-1) 0) depth (some 0) =
        self.start_node_ := by
    intro depth hdepth
    have h := LoadedNode_tree_linked_nodes_of self.start_node_ (-1) [] [] depth hnull hdepth
    simpa using h
  refine ⟨_, _, save_eq self table htable1,
    load_eq receiver table2 hreceiver1 _ _ (load_tree_of_binary_shape _ hshape), ?_, ?_, ?_, ?_⟩
  · simp only [List.length_map, sorted_nodes_of_length]
  · simp only [linked_nodes_of_length]
  · simp only [linked_nodes_of_length]
    exact hread _ (Nat.le_refl _)
  · exact hread

/-- C22, at a concrete input: the subtable over a root with two leaves. -/
theorem load_save_tree_shape_witness :
    (small_subtable.table_ ≠ none ∧ small_subtable.start_node_.binary_shape = true) ∧
    ∃ saved loaded, small_subtable.save = some saved ∧
      small_subtable.load saved.2 = some loaded ∧
      saved.2.tree_nodes.length = small_subtable.start_node_.size ∧
      loaded.2.length = small_subtable.start_node_.size ∧
      loaded.1.start_node_ = small_subtable.start_node_ ∧
      ∀ depth, small_subtable.start_node_.size ≤ depth →
        LoadedNode.tree loaded.2 depth (some 0) = small_subtable.start_node_ :=
  ⟨⟨by decide, by decide⟩,
    load_save_tree_shape small_subtable small_subtable (by decide) (by decide) (by decide)⟩

/-- C23, refuted as stated. An alias whose range list is empty when `save` is called on it
is loaded with the range of its start node; and an alias whose start node was set with
`set_start_node`, which holds the range of the start node once when `save` is called, is
loaded with that range twice. -/
theorem load_save_alias_ranges_differ :
    (small_subtable.is_alias_ = true ∧
      small_subtable.serialize_points_per_terminal_node_ = [] ∧
      ((small_subtable.save).bind (fun saved => small_subtable.load saved.2)).map
          (fun loaded => loaded.1.serialize_points_per_terminal_node_) =
        some [{ begin_ := 0, count_ := 4 }]) ∧
    ∃ aliased, small_subtable.set_start_node small_subtable.start_node_ = some aliased ∧
      aliased.serialize_points_per_terminal_node_ = [{ begin_ := 0, count_ := 4 }] ∧
      ((aliased.save).bind (fun saved => small_subtable.load saved.2)).map
          (fun loaded => loaded.1.serialize_points_per_terminal_node_) =
        some [{ begin_ := 0, count_ := 4 }, { begin_ := 0, count_ := 4 }] :=
  ⟨⟨rfl, rfl, rfl⟩, _, rfl, rfl, rfl⟩

/-- C23, amended. For a subtable with a table and a non-null start node, `save` followed by
`load`, into any subtable with a table, completes. If the subtable is not an alias, the
loaded list of point ranges is the list the subtable held when `save` was called. If it is
an alias and held no range when `save` was called, the loaded list is the single range
(begin, count) of its start node. -/
theorem load_save_point_ranges (self receiver : SubTable) (htable : self.table_ ≠ none)
    (hreceiver : receiver.table_ ≠ none) (hstart : self.start_node_ ≠ .null) :
    ∃ saved loaded, self.save = some saved ∧ receiver.load saved.2 = some loaded ∧
      (self.is_alias_ = false →
        loaded.1.serialize_points_per_terminal_node_ =
          self.serialize_points_per_terminal_node_) ∧
      (self.is_alias_ = true → self.serialize_points_per_terminal_node_ = [] →
        loaded.1.serialize_points_per_terminal_node_ = root_range self.start_node_) := by
  obtain ⟨table, htable1⟩ := Option.ne_none_iff_exists'.1 htable
  obtain ⟨table2, hreceiver1⟩ := Option.ne_none_iff_exists'.1 hreceiver
  obtain ⟨tree_nodes, htree, _⟩ := load_tree_some
    ((sorted_nodes_of self.start_node_ (-1) 0).map
      (fun entry => ((entry.1.begin?.getD 0, entry.1.count?.getD 0), entry.2)))
    (by
      cases h : self.start_node_ with
      | null => exact absurd h hstart
      | node b c left right => simp [sorted_nodes_of])
    (by
      intro i entry hi hentry
      rw [List.length_map, sorted_nodes_of_length]
      exact sorted_nodes_of_in_range _ i entry hi hentry)
  refine ⟨_, _, save_eq self table htable1, load_eq receiver table2 hreceiver1 _ _ htree,
    ?_, ?_⟩
  · intro halias
    simp [halias]
  · intro halias hempty
    simp [halias, hempty]

/-- C23 amended, at a concrete input: the alias over a root with two leaves, without ranges. -/
theorem load_save_point_ranges_witness :
    (small_subtable.table_ ≠ none ∧ small_subtable.start_node_ ≠ .null) ∧
    ∃ saved loaded, small_subtable.save = some saved ∧
      small_subtable.load saved.2 = some loaded ∧
      (small_subtable.is_alias_ = false →
        loaded.1.serialize_points_per_terminal_node_ =
          small_subtable.serialize_points_per_terminal_node_) ∧
      (small_subtable.is_alias_ = true →
        small_subtable.serialize_points_per_terminal_node_ = [] →
        loaded.1.serialize_points_per_terminal_node_ =
          root_range small_subtable.start_node_) :=
  ⟨⟨by decide, by decide⟩,
    load_save_point_ranges small_subtable small_subtable (by decide) (by decide) (by decide)⟩

/-- C24, refuted as stated. A node list whose node 1 carries the parent index 1, and a node
list whose node 1 carries the parent index 2 of a later node, are loaded without a fault: in
the first, node 1 is made its own left child; in the second, node 1 is made the right child
of node 2, and the start node has the single child 2. -/
theorem load_accepts_malformed_parent_index :
    (small_subtable.load
        { rank := 0, tree_nodes := [((0, 4), -1), ((0, 2), 1)]
          serialize_points_per_terminal_node := []
          serialize_new_from_old_mapping := false }).map Prod.snd =
      some [({ begin_ := 0, count_ := 4, left_ := none, right_ := none }, -1),
            ({ begin_ := 0, count_ := 2, left_ := some 1, right_ := none }, 1)] ∧
    (small_subtable.load
        { rank := 0, tree_nodes := [((0, 4), -1), ((0, 2), 2), ((2, 2), 0)]
          serialize_points_per_terminal_node := []
          serialize_new_from_old_mapping := false }).map Prod.snd =
      some [({ begin_ := 0, count_ := 4, left_ := none, right_ := some 2 }, -1),
            ({ begin_ := 0, count_ := 2, left_ := none, right_ := none }, 2),
            ({ begin_ := 2, count_ := 2, left_ := none, right_ := some 1 }, 0)] :=
  ⟨rfl, rfl⟩

/-- C24, amended. The function `load` does not check the parent indices. For every archive with
at least one node in which every node at a position `i ≥ 1` carries a parent index in
`0 .. n - 1`, `n` being the number of nodes (the index may be `i` itself or that of a later
node), `load` into a subtable with a table completes without a fault: it constructs `n`
nodes with the archived begin indices, counts and parent indices. -/
theorem load_parent_index_unchecked (receiver : SubTable) (ar : SubTableArchive)
    (hreceiver : receiver.table_ ≠ none) (hne : ar.tree_nodes ≠ [])
    (hrange : ∀ (i : Nat) (entry : (Int × Nat) × Int), 1 ≤ i →
      ar.tree_nodes[i]? = some entry → 0 ≤ entry.2 ∧ entry.2 < (ar.tree_nodes.length : Int)) :
    ∃ loaded, receiver.load ar = some loaded ∧ archived_of loaded.2 = ar.tree_nodes ∧
      loaded.2.length = ar.tree_nodes.length := by
  obtain ⟨table, hreceiver1⟩ := Option.ne_none_iff_exists'.1 hreceiver
  obtain ⟨tree_nodes, htree, harchived⟩ := load_tree_some ar.tree_nodes hne hrange
  refine ⟨_, load_eq receiver table hreceiver1 ar tree_nodes htree, harchived, ?_⟩
  rw [← harchived, archived_of_length]

/-- C24 amended, at a concrete input: node 1 carries the parent index 1. -/
theorem load_parent_index_unchecked_witness :
    (small_subtable.table_ ≠ none ∧
      ([((0, 4), -1), ((0, 2), 1)] : List ((Int × Nat) × Int)) ≠ [] ∧
      ∀ (i : Nat) (entry : (Int × Nat) × Int), 1 ≤ i →
        ([((0, 4), -1), ((0, 2), 1)] : List ((Int × Nat) × Int))[i]? = some entry →
          0 ≤ entry.2 ∧ entry.2 < 2) ∧
    ∃ loaded, small_subtable.load
        { rank := 0, tree_nodes := [((0, 4), -1), ((0, 2), 1)]
          serialize_points_per_terminal_node := []
          serialize_new_from_old_mapping := false } = some loaded ∧
      archived_of loaded.2 = [((0, 4), -1), ((0, 2), 1)] ∧
      loaded.2.length = 2 :=
  have hrange : ∀ (i : Nat) (entry : (Int × Nat) × Int), 1 ≤ i →
      ([((0, 4), -1), ((0, 2), 1)] : List ((Int × Nat) × Int))[i]? = some entry →
        0 ≤ entry.2 ∧ entry.2 < 2 := by
    intro i entry hi hentry
    match i, hi, hentry with
    | 1, _, hentry =>
      simp only [List.getElem?_cons_succ, List.getElem?_cons_zero, Option.some.injEq] at hentry
      rw [← hentry]
      decide
    | i + 2, _, hentry => simp at hentry
  ⟨⟨by decide, by decide, hrange⟩,
    load_parent_index_unchecked small_subtable
      { rank := 0, tree_nodes := [((0, 4), -1), ((0, 2), 1)]
        serialize_points_per_terminal_node := []
        serialize_new_from_old_mapping := false }
      (by decide) (by decide) hrange⟩

end table

end core

namespace core

namespace table

open core.parallel

/-- C31. The assignment `a = b` of two different handles leaves in `a` every field of `b`
as it was before the call, the alias flag included, and leaves `b` an alias with its other
fields unchanged; the copy constructor does the same. So, of the two handles after the
call, `a` owns the table exactly when `b` did before and `b` does not: the number of
owning handles among the two is the number of owning handles `b` stood for, and is not
larger than it was among `a` and `b` before. -/
theorem SubTable_assign_steals_ownership (a b : SubTable) :
    (a.assign b).1.is_alias_ = b.is_alias_ ∧
    (a.assign b).2.is_alias_ = true ∧
    (a.assign b).1 = b ∧
    (a.assign b).1.subtable_id = b.subtable_id ∧
    (a.assign b).1.locked_mpi_rank_ = b.locked_mpi_rank_ ∧
    (a.assign b).1.originating_rank_ = b.originating_rank_ ∧
    (a.assign b).1.cache_block_id_ = b.cache_block_id_ ∧
    (a.assign b).1.serialize_points_per_terminal_node_ =
      b.serialize_points_per_terminal_node_ ∧
    (a.assign b).2 = { b with is_alias_ := true } ∧
    SubTable.copy b = a.assign b ∧
    ([(a.assign b).1.destructor, (a.assign b).2.destructor].count true =
      [b.destructor].count true) ∧
    [(a.assign b).1.destructor, (a.assign b).2.destructor].count true ≤
      [a.destructor, b.destructor].count true := by
  refine ⟨rfl, rfl, rfl, rfl, rfl, rfl, rfl, rfl, rfl, rfl, ?_, ?_⟩
  · cases hb : b.is_alias_ <;> cases ht : b.table_ <;>
      simp [SubTable.assign, SubTable.destructor, hb, ht]
  · cases hb : b.is_alias_ <;> cases ht : b.table_ <;> cases ha : a.destructor <;>
      simp [SubTable.assign, SubTable.destructor, hb, ht]

theorem sorted_nodes_of_preorder (t : TreeType) :
    ∀ (p : Int) (position : Nat),
      (sorted_nodes_of t p position).map Prod.fst = t.preorder := by
  induction t with
  | null => intro p position; rfl
  | node b c left right ihl ihr =>
    intro p position
    simp only [sorted_nodes_of, TreeType.preorder, List.map_cons, List.map_append, ihl, ihr]

theorem sorted_nodes_of_ne_null (t : TreeType) :
    ∀ (p : Int) (position : Nat) (entry : TreeType × Int),
      entry ∈ sorted_nodes_of t p position → entry.1 ≠ .null := by
  induction t with
  | null => intro p position entry h; simp [sorted_nodes_of] at h
  | node b c left right ihl ihr =>
    intro p position entry h
    simp only [sorted_nodes_of, List.mem_cons, List.mem_append] at h
    rcases h with h | h | h
    · rw [h]; simp
    · exact ihl _ _ _ h
    · exact ihr _ _ _ h

theorem sorted_nodes_of_back_pointer (t : TreeType) :
    ∀ (p : Int) (position i : Nat) (entry : TreeType × Int),
      (sorted_nodes_of t p position)[i]? = some entry →
        (i = 0 ∧ entry = (t, p)) ∨
        (1 ≤ i ∧ ∃ (j : Nat) (parent : TreeType × Int), j < i ∧
          entry.2 = ((position + j : Nat) : Int) ∧
          (sorted_nodes_of t p position)[j]? = some parent ∧
          parent.1.has_child entry.1 = true) := by
  induction t with
  | null => intro p position i entry h; simp [sorted_nodes_of] at h
  | node b c left right ihl ihr =>
    intro p position i entry h
    cases i with
    | zero =>
      left
      simp only [sorted_nodes_of, List.getElem?_cons_zero, Option.some.injEq] at h
      exact ⟨rfl, h.symm⟩
    | succ k =>
      right
      refine ⟨by omega, ?_⟩
      simp only [sorted_nodes_of, List.getElem?_cons_succ] at h
      by_cases hk : k < (sorted_nodes_of left (position : Int) (position + 1)).length
      · rw [List.getElem?_append_left hk] at h
        rcases ihl _ _ _ _ h with ⟨hk0, he⟩ | ⟨_, j, parent, hj, hp, hparent, hchild⟩
        · refine ⟨0, (.node b c left right, p), by omega, ?_, ?_, ?_⟩
          · rw [he]; simp
          · simp [sorted_nodes_of]
          · rw [he]; simp [TreeType.has_child]
        · refine ⟨j + 1, parent, by omega, ?_, ?_, hchild⟩
          · rw [hp]; push_cast; omega
          · simp only [sorted_nodes_of, List.getElem?_cons_succ]
            rw [List.getElem?_append_left (by omega)]
            exact hparent
      · have hk2 : (sorted_nodes_of left (position : Int) (position + 1)).length ≤ k := by
          omega
        rw [List.getElem?_append_right hk2] at h
        rw [sorted_nodes_of_length] at h hk2
        rcases ihr _ _ _ _ h with ⟨hk0, he⟩ | ⟨_, j, parent, hj, hp, hparent, hchild⟩
        · refine ⟨0, (.node b c left right, p), by omega, ?_, ?_, ?_⟩
          · rw [he]; simp
          · simp [sorted_nodes_of]
          · rw [he]; simp [TreeType.has_child]
        · refine ⟨left.size + j + 1, parent, by omega, ?_, ?_, hchild⟩
          · rw [hp]; push_cast; omega
          · simp only [sorted_nodes_of, List.getElem?_cons_succ]
            rw [List.getElem?_append_right (by rw [sorted_nodes_of_length]; omega)]
            rw [sorted_nodes_of_length,
              show left.size + j - left.size = j from by omega]
            exact hparent

/-- C32. For a non-null start node, `FillTreeNodes_` called with parent index -1 on empty
vectors lists the nodes of the subtree in pre-order (the node, then its left subtree, then
its right subtree), every node once: there are as many entries as nodes. The first entry is
the start node with parent index -1. Every later entry, at a position `i ≥ 1`, holds a
non-null node and a parent index `p` with `0 ≤ p < i`, and the node of entry `p` has the
node of entry `i` as its left or right child. -/
theorem FillTreeNodes__preorder (t : TreeType) (ranges : List PointSerializeFlagType)
    (add : Bool) (ht : t ≠ .null) :
    ((SubTable.FillTreeNodes_ t (-1) ([], ranges) add).1.map Prod.fst = t.preorder) ∧
    (SubTable.FillTreeNodes_ t (-1) ([], ranges) add).1.length = t.size ∧
    (SubTable.FillTreeNodes_ t (-1) ([], ranges) add).1[0]? = some (t, -1) ∧
    ∀ (i : Nat) (entry : TreeType × Int), 1 ≤ i →
      (SubTable.FillTreeNodes_ t (-1) ([], ranges) add).1[i]? = some entry →
        entry.1 ≠ .null ∧ 0 ≤ entry.2 ∧ entry.2 < (i : Int) ∧
        ∃ parent, (SubTable.FillTreeNodes_ t (-1) ([], ranges) add).1[entry.2.toNat]? =
            some parent ∧ parent.1.has_child entry.1 = true := by
  have hfill : (SubTable.FillTreeNodes_ t (-1) ([], ranges) add).1 = sorted_nodes_of t (-1) 0 := by
    rw [FillTreeNodes__eq]
    simp
  rw [hfill]
  refine ⟨sorted_nodes_of_preorder t _ _, sorted_nodes_of_length t _ _, ?_, ?_⟩
  · cases t with
    | null => exact absurd rfl ht
    | node b c left right => simp [sorted_nodes_of]
  · intro i entry hi hentry
    have hmem : entry ∈ sorted_nodes_of t (-1) 0 := by
      obtain ⟨hlt, hget⟩ := List.getElem?_eq_some.1 hentry
      rw [← hget]
      exact List.getElem_mem hlt
    rcases sorted_nodes_of_back_pointer t _ _ _ _ hentry with ⟨h0, _⟩ |
      ⟨_, j, parent, hj, hp, hparent, hchild⟩
    · omega
    · refine ⟨sorted_nodes_of_ne_null t _ _ _ hmem, by rw [hp]; omega, by rw [hp]; omega, parent,
        ?_, hchild⟩
      rw [hp]
      simpa using hparent

/-- C32, at a concrete input: the root with two leaves. -/
theorem FillTreeNodes__preorder_witness :
    small_subtable.start_node_ ≠ .null ∧
    ((SubTable.FillTreeNodes_ small_subtable.start_node_ (-1) ([], []) true).1.map Prod.fst =
      small_subtable.start_node_.preorder) ∧
    (SubTable.FillTreeNodes_ small_subtable.start_node_ (-1) ([], []) true).1.length =
      small_subtable.start_node_.size ∧
    (SubTable.FillTreeNodes_ small_subtable.start_node_ (-1) ([], []) true).1[0]? =
      some (small_subtable.start_node_, -1) ∧
    ∀ (i : Nat) (entry : TreeType × Int), 1 ≤ i →
      (SubTable.FillTreeNodes_ small_subtable.start_node_ (-1) ([], []) true).1[i]? =
          some entry →
        entry.1 ≠ .null ∧ 0 ≤ entry.2 ∧ entry.2 < (i : Int) ∧
        ∃ parent,
          (SubTable.FillTreeNodes_ small_subtable.start_node_ (-1) ([], []) true).1[
              entry.2.toNat]? = some parent ∧
            parent.1.has_child entry.1 = true :=
  ⟨by decide, FillTreeNodes__preorder small_subtable.start_node_ [] true (by decide)⟩

end table

namespace parallel

open core.table

namespace DistributedDualtreeTaskList

/-- C33, evaluated at a failing input. The task list is built on `three_query_queue` with 100
points by probing the slots 0, 1, 2 and 1 again; slot 1 is never locked. After the first three
calls every slot mirrors the task list. The fourth call finds the query (0, 200, 5) through
the map entry that `pop_` left behind at position 2, which now holds the query of the entry
(2, [2]); as no reference fits, it clears the query flag of that slot. Position 2 is then
the query position of an entry and its query flag is false. -/
theorem role_mirror_fails_after_void_donation :
    (run_push_back (new.Init 1 100, three_query_queue) [0, 1, 2]).map
      (fun built => (built.1.role_mirrors,
        built.2.query_subtables_.map SubTable.locked_mpi_rank_)) =
      some (true, [1, -1, 1]) ∧
    (run_push_back (new.Init 1 100, three_query_queue) [0, 1, 2, 1]).map
      (fun built => (built.1.donated_task_list_,
        built.1.sub_tables_.map (fun slot : SlotType => (slot.2.1, slot.2.2)),
        built.1.is_query_position 2, built.1.slot_mirrors 2, built.1.role_mirrors,
        built.2.query_subtables_.map SubTable.locked_mpi_rank_)) =
      some ([(0, [1]), (2, [2])], [(true, 0), (false, 1), (false, 1)], true, false, false,
        [1, -1, 1]) := by
  exact ⟨rfl, rfl⟩

end DistributedDualtreeTaskList

end parallel

end core

theorem Double.lt_asymm (a b : Double) (h : a.lt b = true) : b.lt a = false := by
  cases a <;> cases b <;> simp [Double.lt] at h ⊢
  exact le_of_lt h

theorem Double.lt_false_trans (a b c : Double) (hb : b.isnan = false)
    (h1 : b.lt a = false) (h2 : c.lt b = false) : c.lt a = false := by
  cases a <;> cases b <;> cases c <;> simp [Double.lt, Double.isnan] at h1 h2 hb ⊢
  exact le_trans h1 h2

theorem vecSet?_eq_some {α : Type} (v : List α) (i : Int) (x : α) (h0 : 0 ≤ i)
    (hlt : i < (v.length : Int)) : vecSet? v i x = some (core.parallel.vecSet v i x) := by
  simp [vecSet?, h0, hlt]

theorem vecSet?_some {α : Type} {v v1 : List α} {i : Int} {x : α}
    (h : vecSet? v i x = some v1) :
    0 ≤ i ∧ i < (v.length : Int) ∧ v1 = core.parallel.vecSet v i x := by
  unfold vecSet? at h
  split at h
  · rename_i hc
    exact ⟨hc.1, hc.2, (Option.some.inj h).symm⟩
  · exact absurd h (by simp)

theorem vecSet_length {α : Type} (v : List α) (i : Int) (x : α) :
    (core.parallel.vecSet v i x).length = v.length := by
  simp [core.parallel.vecSet]

theorem vecGet?_vecSet_eq {α : Type} (v : List α) (i : Int) (x : α) (h0 : 0 ≤ i)
    (hlt : i < (v.length : Int)) :
    core.parallel.vecGet? (core.parallel.vecSet v i x) i = some x := by
  rw [core.parallel.vecGet?_eq_some_iff]
  refine ⟨h0, ?_⟩
  simp only [core.parallel.vecSet]
  rw [List.getElem?_set_self (by omega)]

theorem vecGet?_some_bounds {α : Type} {v : List α} {i : Int} {x : α}
    (h : core.parallel.vecGet? v i = some x) : 0 ≤ i ∧ i < (v.length : Int) := by
  obtain ⟨h0, h1⟩ := (core.parallel.vecGet?_eq_some_iff _ _ _).1 h
  have := (List.getElem?_eq_some.1 h1).1
  exact ⟨h0, by omega⟩

theorem vecGet?_of_bounds {α : Type} (v : List α) (i : Int) (h0 : 0 ≤ i)
    (hlt : i < (v.length : Int)) : ∃ x, core.parallel.vecGet? v i = some x := by
  have hlt2 : i.toNat < v.length := by omega
  exact ⟨v[i.toNat], (core.parallel.vecGet?_eq_some_iff _ _ _).2
    ⟨h0, List.getElem?_eq_getElem hlt2⟩⟩

namespace TrainingSet

open core.parallel

theorem Chain_congr {order order1 : List Int} :
    ∀ (L : List Int) (head : Int),
      (∀ i ∈ L, vecGet? order1 i = vecGet? order i) → Chain order L head →
        Chain order1 L head := by
  intro L
  induction L with
  | nil => intro head _ h; exact h
  | cons i rest ih =>
    intro head hagree h
    obtain ⟨h1, next, h2, h3⟩ := h
    refine ⟨h1, next, ?_, ih next (fun j hj => hagree j (List.mem_cons_of_mem _ hj)) h3⟩
    rw [hagree i (List.mem_cons_self _ _)]
    exact h2

theorem Chain_bounds {order : List Int} :
    ∀ (L : List Int) (head : Int), Chain order L head →
      ∀ i ∈ L, 0 ≤ i ∧ i < (order.length : Int) := by
  intro L
  induction L with
  | nil => intro head _ i hi; exact absurd hi (List.not_mem_nil _)
  | cons j rest ih =>
    intro head h i hi
    obtain ⟨_, next, h2, h3⟩ := h
    rcases List.mem_cons.1 hi with rfl | hi
    · exact vecGet?_some_bounds h2
    · exact ih next h3 i hi

theorem Chain_head_nonneg {order : List Int} {L : List Int} {head : Int}
    (h : Chain order L head) (hne : L ≠ []) : 0 ≤ head := by
  cases L with
  | nil => exact absurd rfl hne
  | cons i rest =>
    obtain ⟨h1, next, h2, _⟩ := h
    rw [h1]
    exact (vecGet?_some_bounds h2).1

theorem Chain_follow {order : List Int} :
    ∀ (L : List Int) (head : Int) (fuel : Nat), Chain order L head → L.length < fuel →
      follow order fuel head = some L := by
  intro L
  induction L with
  | nil =>
    intro head fuel h hfuel
    obtain ⟨f, rfl⟩ : ∃ f, fuel = f + 1 := ⟨fuel - 1, by simp at hfuel; omega⟩
    simp only [Chain] at h
    simp [follow, h]
  | cons i rest ih =>
    intro head fuel h hfuel
    obtain ⟨f, rfl⟩ : ∃ f, fuel = f + 1 := ⟨fuel - 1, by simp at hfuel; omega⟩
    obtain ⟨h1, next, h2, h3⟩ := h
    subst h1
    have hne : head ≠ -1 := by
      have := (vecGet?_some_bounds h2).1
      omega
    simp only [follow, hne, if_false, h2]
    rw [ih next f h3 (by simp at hfuel; omega)]
    rfl

end TrainingSet

namespace TrainingSet

open core.parallel

theorem value_at_of_get {row : List Double} {i : Int} {v : Double}
    (h : vecGet? row i = some v) : value_at row i = v := by
  simp [value_at, h]

theorem merge_while_spec (row : List Double) :
    ∀ (fuel : Nat) (A B : List Int) (order : List Int) (current left right : Int),
      A.length + B.length < fuel →
      Chain order A left → Chain order B right →
      (current :: (A ++ B)).Nodup →
      0 ≤ current → current < (order.length : Int) →
      (∀ i ∈ A ++ B, ∃ v, vecGet? row i = some v ∧ v.isnan = false) →
      ∃ order1 M head, merge_while row fuel order current left right = some order1 ∧
        order1.length = order.length ∧
        (∀ k, k ≠ current → k ∉ A → k ∉ B → vecGet? order1 k = vecGet? order k) ∧
        vecGet? order1 current = some head ∧ Chain order1 M head ∧
        M.Perm (A ++ B) ∧
        (A.Pairwise (le_at row) → B.Pairwise (le_at row) → M.Pairwise (le_at row)) := by
  intro fuel
  induction fuel with
  | zero => intro A B order current left right h; omega
  | succ fuel ih =>
    intro A B order current left right hfuel hA hB hnodup hc0 hclt hval
    have hcur : ∀ i ∈ A ++ B, i ≠ current := by
      intro i hi hic
      rw [hic] at hi
      exact (List.nodup_cons.1 hnodup).1 hi
    have hset : ∀ x : Int, vecSet? order current x = some (vecSet order current x) :=
      fun x => vecSet?_eq_some order current x hc0 hclt
    have hkeep : ∀ (x k : Int), k ≠ current →
        vecGet? (vecSet order current x) k = vecGet? order k :=
      fun x k hk => DistributedDualtreeTaskList.vecGet?_vecSet_ne order current k x hc0 (fun h => hk h.symm)
    have hchain : ∀ (x : Int) (L : List Int) (head : Int), (∀ i ∈ L, i ∈ A ++ B) →
        Chain order L head → Chain (vecSet order current x) L head := by
      intro x L head hsub h
      exact Chain_congr L head (fun i hi => hkeep x i (hcur i (hsub i hi))) h
    cases A with
    | nil =>
      -- the left list is empty: the loop ends and the right list is linked in
      have hleft : left = -1 := hA
      refine ⟨vecSet order current right, B, right, ?_, vecSet_length _ _ _, ?_, ?_, ?_, ?_, ?_⟩
      · simp only [merge_while, hleft, hset]
        simp
      · intro k hk _ _
        exact hkeep right k hk
      · exact vecGet?_vecSet_eq order current right hc0 hclt
      · exact hchain right B right (fun i hi => by simpa using hi) hB
      · simp
      · intro _ hB2
        exact hB2
    | cons a A1 =>
      obtain ⟨hla, nexta, hgeta, hA1⟩ := hA
      have ha0 : 0 ≤ a := (vecGet?_some_bounds hgeta).1
      cases B with
      | nil =>
        have hright : right = -1 := hB
        refine ⟨vecSet order current left, a :: A1, left, ?_, vecSet_length _ _ _, ?_, ?_, ?_,
          ?_, ?_⟩
        · have hl0 : left ≥ 0 := by omega
          simp only [merge_while, hright, hset, hl0]
          simp
        · intro k hk _ _
          exact hkeep left k hk
        · exact vecGet?_vecSet_eq order current left hc0 hclt
        · exact hchain left (a :: A1) left (fun i hi => by simpa using hi)
            ⟨hla, nexta, hgeta, hA1⟩
        · simp
        · intro hA2 _
          exact hA2
      | cons b B1 =>
        obtain ⟨hrb, nextb, hgetb, hB1⟩ := hB
        have hb0 : 0 ≤ b := (vecGet?_some_bounds hgetb).1
        obtain ⟨va, hva, hna⟩ := hval a (by simp)
        obtain ⟨vb, hvb, hnb⟩ := hval b (by simp)
        subst hla hrb
        have hcond : left ≥ 0 ∧ right ≥ 0 := ⟨ha0, hb0⟩
        have hnd := List.nodup_cons.1 hnodup
        have hnd2 : (left :: A1 ++ right :: B1).Nodup := hnd.2
        have hab : left ≠ right := by
          intro h
          rw [List.cons_append, List.nodup_cons] at hnd2
          exact hnd2.1 (by rw [h]; simp)
        by_cases hlt : vb.lt va = true
        · -- the right head is smaller: it is linked after `current`
          have hnd3 : (right :: (left :: A1 ++ B1)).Nodup := by
            have hperm : (right :: (left :: A1 ++ B1)).Perm (left :: A1 ++ right :: B1) :=
              (List.perm_middle).symm
            exact hperm.nodup_iff.2 hnd2
          obtain ⟨order1, M, head, hrun, hlen, hframe, hhead, hM, hperm, hsorted⟩ :=
            ih (left :: A1) B1 (vecSet order current right) right left nextb
              (by simp only [List.length_cons] at hfuel ⊢; omega)
              (hchain right (left :: A1) left (fun i hi => by
                rcases List.mem_cons.1 hi with h | h
                · rw [h]; simp
                · simp [h]) ⟨rfl, nexta, hgeta, hA1⟩)
              (hchain right B1 nextb (fun i hi => by simp [hi]) hB1)
              hnd3 hb0 (by
                rw [vecSet_length]
                exact (vecGet?_some_bounds hgetb).2)
              (fun i hi => hval i (by
                rcases List.mem_append.1 hi with h | h
                · exact List.mem_append_left _ h
                · exact List.mem_append_right _ (List.mem_cons_of_mem _ h)))
          have hrc : right ≠ current := hcur right (by simp)
          have hcr : current ≠ right := fun h => hrc h.symm
          have hcA : current ∉ left :: A1 := fun h => hnd.1 (List.mem_append_left _ h)
          have hcB : current ∉ B1 :=
            fun h => hnd.1 (List.mem_append_right _ (List.mem_cons_of_mem _ h))
          refine ⟨order1, right :: M, right, ?_, ?_, ?_, ?_, ?_, ?_, ?_⟩
          · simp only [merge_while, hcond, hvb, hva, hlt, hset, if_true, and_self]
            rw [hkeep right right hrc, hgetb]
            exact hrun
          · rw [hlen, vecSet_length]
          · intro k hk hkA hkB
            rw [hframe k (fun h => hkB (by rw [h]; simp)) hkA
              (fun h => hkB (List.mem_cons_of_mem _ h))]
            exact hkeep right k hk
          · rw [hframe current hcr hcA hcB]
            exact vecGet?_vecSet_eq order current right hc0 hclt
          · exact ⟨rfl, head, hhead, hM⟩
          · exact (List.Perm.cons right hperm).trans List.perm_middle.symm
          · intro hA2 hB2
            have hB3 := List.pairwise_cons.1 hB2
            have hM2 := hsorted hA2 hB3.2
            refine List.pairwise_cons.2 ⟨?_, hM2⟩
            intro y hy
            have hy2 := hperm.mem_iff.1 hy
            have hba : le_at row right left := by
              simp only [le_at, value_at_of_get hva, value_at_of_get hvb]
              exact Double.lt_asymm vb va hlt
            rcases List.mem_append.1 hy2 with h | h
            · rcases List.mem_cons.1 h with h | h
              · rw [h]; exact hba
              · have hay : le_at row left y := (List.pairwise_cons.1 hA2).1 y h
                simp only [le_at] at hba hay ⊢
                exact Double.lt_false_trans _ _ _
                  (by rw [value_at_of_get hva]; exact hna) hba hay
            · exact hB3.1 y h
        · -- otherwise the left head is linked after `current`
          have hlt2 : vb.lt va = false := by simpa using hlt
          have hnd3 : (left :: (A1 ++ right :: B1)).Nodup := hnd2
          obtain ⟨order1, M, head, hrun, hlen, hframe, hhead, hM, hperm, hsorted⟩ :=
            ih A1 (right :: B1) (vecSet order current left) left nexta right
              (by simp only [List.length_cons] at hfuel ⊢; omega)
              (hchain left A1 nexta (fun i hi => by simp [hi]) hA1)
              (hchain left (right :: B1) right (fun i hi => by
                rcases List.mem_cons.1 hi with h | h
                · rw [h]; simp
                · simp [h]) ⟨rfl, nextb, hgetb, hB1⟩)
              hnd3 ha0 (by
                rw [vecSet_length]
                exact (vecGet?_some_bounds hgeta).2)
              (fun i hi => hval i (by
                rcases List.mem_append.1 hi with h | h
                · exact List.mem_append_left _ (List.mem_cons_of_mem _ h)
                · exact List.mem_append_right _ h))
          have hlc : left ≠ current := hcur left (by simp)
          have hcl : current ≠ left := fun h => hlc h.symm
          have hcA : current ∉ A1 :=
            fun h => hnd.1 (List.mem_append_left _ (List.mem_cons_of_mem _ h))
          have hcB : current ∉ right :: B1 := fun h => hnd.1 (List.mem_append_right _ h)
          refine ⟨order1, left :: M, left, ?_, ?_, ?_, ?_, ?_, ?_, ?_⟩
          · simp only [merge_while, hcond, hvb, hva, hlt2, hset, if_true, and_self]
            rw [hkeep left left hlc, hgeta]
            simpa using hrun
          · rw [hlen, vecSet_length]
          · intro k hk hkA hkB
            rw [hframe k (fun h => hkA (by rw [h]; simp))
              (fun h => hkA (List.mem_cons_of_mem _ h)) hkB]
            exact hkeep left k hk
          · rw [hframe current hcl hcA hcB]
            exact vecGet?_vecSet_eq order current left hc0 hclt
          · exact ⟨rfl, head, hhead, hM⟩
          · exact List.Perm.cons left hperm
          · intro hA2 hB2
            have hA3 := List.pairwise_cons.1 hA2
            have hM2 := hsorted hA3.2 hB2
            refine List.pairwise_cons.2 ⟨?_, hM2⟩
            intro y hy
            have hy2 := hperm.mem_iff.1 hy
            have hab2 : le_at row left right := by
              simp only [le_at, value_at_of_get hva, value_at_of_get hvb]
              exact hlt2
            rcases List.mem_append.1 hy2 with h | h
            · exact hA3.1 y h
            · rcases List.mem_cons.1 h with h | h
              · rw [h]; exact hab2
              · have hby : le_at row right y := (List.pairwise_cons.1 hB2).1 y h
                simp only [le_at] at hab2 hby ⊢
                exact Double.lt_false_trans _ _ _
                  (by rw [value_at_of_get hvb]; exact hnb) hab2 hby

end TrainingSet

namespace TrainingSet

open core.parallel

theorem is_int_of_bounds (x : Int) (h0 : -2147483648 ≤ x) (h1 : x ≤ 2147483647) :
    is_int x = true := by
  simp [is_int, INT_MIN, INT_MAX, h0, h1]

theorem value_at_get (row : List Double) (i : Int) (h0 : 0 ≤ i)
    (hlt : i < (row.length : Int)) : vecGet? row i = some (value_at row i) := by
  obtain ⟨v, hv⟩ := vecGet?_of_bounds row i h0 hlt
  rw [hv, value_at_of_get hv]

theorem SortOrdinalFeature__spec (row : List Double) (hsize : row.length ≤ 2 ^ 30) :
    ∀ (fuel : Nat) (order : List Int) (s t : Int),
      order.length = row.length → 0 ≤ s → s < t → t ≤ (row.length : Int) →
      (t - s).toNat ≤ fuel →
      ∃ order1 head L, SortOrdinalFeature_ row fuel order s t = some (order1, head) ∧
        order1.length = order.length ∧
        (∀ k, (k < s ∨ t ≤ k) → vecGet? order1 k = vecGet? order k) ∧
        (L = [] → head < 0) ∧ (L ≠ [] → Chain order1 L head) ∧
        L.Nodup ∧ (L.length : Int) ≤ t - s ∧
        (∀ i, i ∈ L ↔ s ≤ i ∧ i < t ∧ (value_at row i).isnan = false) ∧
        L.Pairwise (le_at row) ∧
        (∀ i, s ≤ i → i < t → (value_at row i).isnan = true →
          vecGet? order1 i = some (-2)) := by
  intro fuel
  induction fuel with
  | zero => intro order s t _ _ hst _ hfuel; omega
  | succ fuel ih =>
    intro order s t hlen hs hst ht hfuel
    have hn : (row.length : Int) ≤ 1073741824 := by
      have : ((row.length : Nat) : Int) ≤ ((2 ^ 30 : Nat) : Int) := Int.ofNat_le.2 hsize
      simpa using this
    have hint1 : is_int (t - s) = true := is_int_of_bounds _ (by omega) (by omega)
    have hint2 : is_int (s + t) = true := is_int_of_bounds _ (by omega) (by omega)
    have hint0 : is_int 1 = true := by decide
    by_cases hone : t - s = 1
    · -- a range of one index
      have hslt : s < (row.length : Int) := by omega
      have hslt2 : s < (order.length : Int) := by rw [hlen]; exact hslt
      have hget := value_at_get row s hs hslt
      have hset : ∀ x : Int, vecSet? order s x = some (vecSet order s x) :=
        fun x => vecSet?_eq_some order s x hs hslt2
      have hkeep : ∀ (x k : Int), (k < s ∨ t ≤ k) →
          vecGet? (vecSet order s x) k = vecGet? order k :=
        fun x k hk => DistributedDualtreeTaskList.vecGet?_vecSet_ne order s k x hs (by omega)
      cases hnan : (value_at row s).isnan with
      | false =>
        refine ⟨vecSet order s (-1), s, [s], ?_, vecSet_length _ _ _, hkeep (-1), ?_, ?_, ?_, ?_,
          ?_, ?_, ?_⟩
        · simp only [SortOrdinalFeature_, hint1, hone, hint0, hget, hnan, hset]
          simp
        · intro h; exact absurd h (by simp)
        · intro _
          exact ⟨rfl, -1, vecGet?_vecSet_eq order s (-1) hs hslt2, rfl⟩
        · simp
        · simp only [List.length_singleton]; omega
        · intro i
          simp only [List.mem_singleton]
          constructor
          · intro h; subst h; exact ⟨le_refl _, by omega, hnan⟩
          · intro h; omega
        · simp
        · intro i hi1 hi2 hi3
          have : i = s := by omega
          rw [this, hnan] at hi3
          exact absurd hi3 (by simp)
      | true =>
        refine ⟨vecSet order s (-2), -2, [], ?_, vecSet_length _ _ _, hkeep (-2), ?_, ?_, ?_, ?_,
          ?_, ?_, ?_⟩
        · simp only [SortOrdinalFeature_, hint1, hone, hint0, hget, hnan, hset]
          simp
        · intro _; decide
        · intro h; exact absurd rfl h
        · simp
        · simp only [List.length_nil]; omega
        · intro i
          simp only [List.not_mem_nil, false_iff]
          intro h
          have : i = s := by omega
          rw [this, hnan] at h
          exact absurd h.2.2 (by simp)
        · simp
        · intro i hi1 hi2 _
          have : i = s := by omega
          rw [this]
          exact vecGet?_vecSet_eq order s (-2) hs hslt2
    · -- a longer range: the two halves are sorted and merged
      have hhalf : (s + t).tdiv 2 = (s + t) / 2 := Int.tdiv_eq_ediv (by omega) (by decide)
      have hsh : s < (s + t) / 2 := by omega
      have hht : (s + t) / 2 < t := by omega
      obtain ⟨order1, head1, L1, hrun1, hlen1, hframe1, hnil1, hchain1, hnd1, hcard1, hmem1,
        hsort1, hnan1⟩ := ih order s ((s + t) / 2) hlen hs hsh (by omega) (by omega)
      obtain ⟨order2, head2, L2, hrun2, hlen2, hframe2, hnil2, hchain2, hnd2, hcard2, hmem2,
        hsort2, hnan2⟩ := ih order1 ((s + t) / 2) t (hlen1.trans hlen) (by omega) hht ht
          (by omega)
      have hrun : SortOrdinalFeature_ row (fuel + 1) order s t =
          if head1 ≥ 0 then
            if head2 ≥ 0 then
              match vecGet? row head1, vecGet? row head2 with
              | some left_value, some right_value =>
                if left_value.lt right_value then
                  match vecGet? order2 head1 with
                  | none => none
                  | some left =>
                    (merge_while row (fuel + 1) order2 head1 left head2).map
                      (fun order3 => (order3, head1))
                else
                  match vecGet? order2 head2 with
                  | none => none
                  | some right =>
                    (merge_while row (fuel + 1) order2 head2 head1 right).map
                      (fun order3 => (order3, head2))
              | _, _ => none
            else some (order2, head1)
          else if head2 ≥ 0 then some (order2, head2)
          else some (order2, -1) := by
        rw [SortOrdinalFeature_]
        simp only [hint1, hone, hint2, hhalf, hrun1, hrun2]
        simp
      -- the first list, read in the vector after the second call
      have hchain12 : L1 ≠ [] → Chain order2 L1 head1 := by
        intro hne
        exact Chain_congr L1 head1
          (fun i hi => hframe2 i (Or.inl ((hmem1 i).1 hi).2.1)) (hchain1 hne)
      have hframe : ∀ k, (k < s ∨ t ≤ k) → vecGet? order2 k = vecGet? order k := by
        intro k hk
        rw [hframe2 k (by omega), hframe1 k (by omega)]
      have hnan : ∀ i, s ≤ i → i < t → (value_at row i).isnan = true →
          vecGet? order2 i = some (-2) := by
        intro i hi1 hi2 hi3
        by_cases hi : i < (s + t) / 2
        · rw [hframe2 i (Or.inl hi)]
          exact hnan1 i hi1 hi hi3
        · exact hnan2 i (by omega) hi2 hi3
      have hdisj : ∀ i, i ∈ L1 → i ∉ L2 := by
        intro i h1 h2
        have := ((hmem1 i).1 h1).2.1
        have := ((hmem2 i).1 h2).1
        omega
      have hmem : ∀ (L : List Int), L.Perm (L1 ++ L2) →
          ∀ i, i ∈ L ↔ s ≤ i ∧ i < t ∧ (value_at row i).isnan = false := by
        intro L hperm i
        rw [hperm.mem_iff, List.mem_append, hmem1, hmem2]
        constructor
        · rintro (h | h)
          · exact ⟨h.1, by omega, h.2.2⟩
          · exact ⟨by omega, h.2.1, h.2.2⟩
        · intro h
          by_cases hi : i < (s + t) / 2
          · exact Or.inl ⟨h.1, hi, h.2.2⟩
          · exact Or.inr ⟨by omega, h.2.1, h.2.2⟩
      have hnd12 : (L1 ++ L2).Nodup :=
        List.nodup_append.2 ⟨hnd1, hnd2, fun i h1 h2 => hdisj i h1 h2⟩
      have hcard12 : ((L1 ++ L2).length : Int) ≤ t - s := by
        rw [List.length_append]; push_cast; omega
      have hval12 : ∀ i ∈ L1 ++ L2, ∃ v, vecGet? row i = some v ∧ v.isnan = false := by
        intro i hi
        have h := (hmem (L1 ++ L2) (List.Perm.refl _) i).1 hi
        exact ⟨value_at row i, value_at_get row i (by omega) (by omega), h.2.2⟩
      cases hL1 : L1 with
      | nil =>
        have hh1 : ¬ head1 ≥ 0 := by
          have := hnil1 hL1
          omega
        cases hL2 : L2 with
        | nil =>
          have hh2 : ¬ head2 ≥ 0 := by
            have := hnil2 hL2
            omega
          refine ⟨order2, -1, [], ?_, hlen2.trans hlen1, hframe, fun _ => by decide,
            fun h => absurd rfl h, List.nodup_nil, by simp only [List.length_nil]; omega, ?_,
            List.Pairwise.nil, hnan⟩
          · rw [hrun]; simp only [hh1, hh2, if_false]
          · have := hmem [] (by rw [hL1, hL2]; exact List.Perm.refl _)
            exact this
        | cons b B1 =>
          have hne2 : L2 ≠ [] := by rw [hL2]; simp
          have hh2 : head2 ≥ 0 := Chain_head_nonneg (hchain2 hne2) hne2
          refine ⟨order2, head2, L2, ?_, hlen2.trans hlen1, hframe, fun h => absurd h hne2,
            fun _ => hchain2 hne2, hnd2, by omega, ?_, hsort2, hnan⟩
          · rw [hrun]; simp only [hh1, hh2, if_false, if_true]
          · exact hmem L2 (by rw [hL1]; exact List.Perm.refl _)
      | cons a A1 =>
        have hne1 : L1 ≠ [] := by rw [hL1]; simp
        have hh1 : head1 ≥ 0 := Chain_head_nonneg (hchain1 hne1) hne1
        cases hL2 : L2 with
        | nil =>
          have hh2 : ¬ head2 ≥ 0 := by
            have := hnil2 hL2
            omega
          refine ⟨order2, head1, L1, ?_, hlen2.trans hlen1, hframe, fun h => absurd h hne1,
            fun _ => hchain12 hne1, hnd1, by omega, ?_, hsort1, hnan⟩
          · rw [hrun]; simp only [hh1, hh2, if_false, if_true]
          · exact hmem L1 (by rw [hL2, List.append_nil])
        | cons b B1 =>
          have hne2 : L2 ≠ [] := by rw [hL2]; simp
          have hh2 : head2 ≥ 0 := Chain_head_nonneg (hchain2 hne2) hne2
          have hc1 := hchain12 hne1
          have hc2 := hchain2 hne2
          rw [hL1] at hc1 hsort1
          rw [hL2] at hc2 hsort2
          obtain ⟨hha, nexta, hgeta, hA1⟩ := hc1
          obtain ⟨hhb, nextb, hgetb, hB1⟩ := hc2
          rw [hL1, hL2] at hnd12 hcard12 hval12 hmem
          obtain ⟨va, hva, hna⟩ := hval12 a (by simp)
          obtain ⟨vb, hvb, hnb⟩ := hval12 b (by simp)
          have hfuel2 : A1.length + B1.length + 2 ≤ fuel + 1 := by
            simp only [List.length_append, List.length_cons] at hcard12
            push_cast at hcard12
            omega
          subst hha hhb
          by_cases hlt : va.lt vb = true
          · -- the left head starts the merged list
            obtain ⟨order3, M, head, hm, hlen3, hframe3, hhead3, hM, hperm, hsorted⟩ :=
              merge_while_spec row (fuel + 1) A1 (head2 :: B1) order2 head1 nexta head2
                (by simp only [List.length_cons]; omega) hA1 ⟨rfl, nextb, hgetb, hB1⟩
                hnd12 (vecGet?_some_bounds hgeta).1 (vecGet?_some_bounds hgeta).2
                (fun i hi => hval12 i (List.mem_cons_of_mem _ hi))
            have hpermL : (head1 :: M).Perm (head1 :: A1 ++ head2 :: B1) :=
              List.Perm.cons head1 hperm
            refine ⟨order3, head1, head1 :: M, ?_, ?_, ?_, fun h => absurd h (by simp),
              fun _ => ⟨rfl, head, hhead3, hM⟩, hpermL.nodup_iff.2 hnd12, ?_, hmem _ hpermL, ?_,
              ?_⟩
            · rw [hrun]
              simp only [hh1, hh2, if_true, hva, hvb, hlt, hgeta, hm, Option.map_some']
            · rw [hlen3, hlen2, hlen1]
            · intro k hk
              have hk1 : k ≠ head1 := by
                have := (hmem _ (List.Perm.refl _) head1).1 (by simp)
                omega
              have hk2 : ∀ j ∈ head1 :: A1 ++ head2 :: B1, k ≠ j := by
                intro j hj
                have := (hmem _ (List.Perm.refl _) j).1 hj
                omega
              rw [hframe3 k hk1 (fun h => hk2 k (by simp [h]) rfl)
                (fun h => hk2 k (by
                  rcases List.mem_cons.1 h with h | h
                  · simp [h]
                  · simp [h]) rfl)]
              exact hframe k hk
            · rw [hpermL.length_eq]; exact hcard12
            · refine List.pairwise_cons.2 ⟨?_, hsorted (List.pairwise_cons.1 hsort1).2 hsort2⟩
              intro y hy
              have hab : le_at row head1 head2 := by
                simp only [le_at, value_at_of_get hva, value_at_of_get hvb]
                exact Double.lt_asymm va vb hlt
              rcases List.mem_append.1 (hperm.mem_iff.1 hy) with h | h
              · exact (List.pairwise_cons.1 hsort1).1 y h
              · rcases List.mem_cons.1 h with h | h
                · rw [h]; exact hab
                · have hby : le_at row head2 y := (List.pairwise_cons.1 hsort2).1 y h
                  simp only [le_at] at hab hby ⊢
                  exact Double.lt_false_trans _ _ _
                    (by rw [value_at_of_get hvb]; exact hnb) hab hby
            · intro i hi1 hi2 hi3
              have hnot : ∀ j ∈ head1 :: A1 ++ head2 :: B1, i ≠ j := by
                intro j hj hij
                have := ((hmem _ (List.Perm.refl _) j).1 hj).2.2
                rw [← hij, hi3] at this
                exact absurd this (by simp)
              rw [hframe3 i (hnot head1 (by simp)) (fun h => hnot i (by simp [h]) rfl)
                (fun h => hnot i (by
                  rcases List.mem_cons.1 h with h | h
                  · simp [h]
                  · simp [h]) rfl)]
              exact hnan i hi1 hi2 hi3
          · -- the right head starts the merged list
            have hlt2 : va.lt vb = false := by simpa using hlt
            have hmiddle : (head1 :: A1 ++ head2 :: B1).Perm (head2 :: (head1 :: A1 ++ B1)) :=
              List.perm_middle
            have hnd3 : (head2 :: (head1 :: A1 ++ B1)).Nodup := hmiddle.nodup_iff.1 hnd12
            obtain ⟨order3, M, head, hm, hlen3, hframe3, hhead3, hM, hperm, hsorted⟩ :=
              merge_while_spec row (fuel + 1) (head1 :: A1) B1 order2 head2 head1 nextb
                (by simp only [List.length_cons]; omega) ⟨rfl, nexta, hgeta, hA1⟩ hB1
                hnd3 (vecGet?_some_bounds hgetb).1 (vecGet?_some_bounds hgetb).2
                (fun i hi => hval12 i (by
                  rcases List.mem_append.1 hi with h | h
                  · exact List.mem_append_left _ h
                  · exact List.mem_append_right _ (List.mem_cons_of_mem _ h)))
            have hpermL : (head2 :: M).Perm (head1 :: A1 ++ head2 :: B1) :=
              (List.Perm.cons head2 hperm).trans List.perm_middle.symm
            refine ⟨order3, head2, head2 :: M, ?_, ?_, ?_, fun h => absurd h (by simp),
              fun _ => ⟨rfl, head, hhead3, hM⟩, hpermL.nodup_iff.2 hnd12, ?_, hmem _ hpermL, ?_,
              ?_⟩
            · rw [hrun]
              simp only [hh1, hh2, if_true, hva, hvb, hlt2, hgetb, hm, Option.map_some']
              simp
            · rw [hlen3, hlen2, hlen1]
            · intro k hk
              have hk2 : ∀ j ∈ head1 :: A1 ++ head2 :: B1, k ≠ j := by
                intro j hj
                have := (hmem _ (List.Perm.refl _) j).1 hj
                omega
              rw [hframe3 k (hk2 head2 (by simp)) (fun h => hk2 k (by
                  rcases List.mem_cons.1 h with h | h
                  · simp [h]
                  · simp [h]) rfl)
                (fun h => hk2 k (by simp [h]) rfl)]
              exact hframe k hk
            · rw [hpermL.length_eq]; exact hcard12
            · refine List.pairwise_cons.2 ⟨?_, hsorted hsort1 (List.pairwise_cons.1 hsort2).2⟩
              intro y hy
              have hba : le_at row head2 head1 := by
                simp only [le_at, value_at_of_get hva, value_at_of_get hvb]
                exact hlt2
              rcases List.mem_append.1 (hperm.mem_iff.1 hy) with h | h
              · rcases List.mem_cons.1 h with h | h
                · rw [h]; exact hba
                · have hay : le_at row head1 y := (List.pairwise_cons.1 hsort1).1 y h
                  simp only [le_at] at hba hay ⊢
                  exact Double.lt_false_trans _ _ _
                    (by rw [value_at_of_get hva]; exact hna) hba hay
              · exact (List.pairwise_cons.1 hsort2).1 y h
            · intro i hi1 hi2 hi3
              have hnot : ∀ j ∈ head1 :: A1 ++ head2 :: B1, i ≠ j := by
                intro j hj hij
                have := ((hmem _ (List.Perm.refl _) j).1 hj).2.2
                rw [← hij, hi3] at this
                exact absurd this (by simp)
              rw [hframe3 i (hnot head2 (by simp)) (fun h => hnot i (by
                  rcases List.mem_cons.1 h with h | h
                  · simp [h]
                  · simp [h]) rfl)
                (fun h => hnot i (by simp [h]) rfl)]
              exact hnan i hi1 hi2 hi3

end TrainingSet

theorem Double.lt_irrefl (a : Double) : a.lt a = false := by
  cases a <;> simp [Double.lt]

namespace TrainingSet

open core.parallel

theorem merge_while_mono (row : List Double) :
    ∀ (fuel : Nat) (order : List Int) (current left right : Int) (result : List Int),
      merge_while row fuel order current left right = some result →
        merge_while row (fuel + 1) order current left right = some result := by
  intro fuel
  induction fuel with
  | zero => intro order current left right result h; simp [merge_while] at h
  | succ fuel ih =>
    intro order current left right result h
    rw [merge_while] at h ⊢
    split
    · rename_i hc
      rw [if_pos hc] at h
      split
      · rename_i right_value left_value hr hl
        simp only [hr, hl] at h
        split
        · rename_i hlt
          rw [if_pos hlt] at h
          cases h1 : vecSet? order current right with
          | none => simp [h1] at h
          | some order1 =>
            simp only [h1] at h ⊢
            cases h2 : vecGet? order1 right with
            | none => simp [h2] at h
            | some next =>
              simp only [h2] at h ⊢
              exact ih _ _ _ _ _ h
        · rename_i hlt
          rw [if_neg hlt] at h
          cases h1 : vecSet? order current left with
          | none => simp [h1] at h
          | some order1 =>
            simp only [h1] at h ⊢
            cases h2 : vecGet? order1 left with
            | none => simp [h2] at h
            | some next =>
              simp only [h2] at h ⊢
              exact ih _ _ _ _ _ h
      · rename_i hnone
        split at h
        · rename_i right_value left_value hr hl
          exact absurd hl (by
            intro hl2
            exact hnone right_value left_value hr hl2)
        · exact h
    · rename_i hc
      rw [if_neg hc] at h
      exact h

end TrainingSet

namespace TrainingSet

open core.parallel

theorem SortOrdinalFeature__mono (row : List Double) :
    ∀ (fuel : Nat) (order : List Int) (s t : Int) (result : List Int × Int),
      SortOrdinalFeature_ row fuel order s t = some result →
        SortOrdinalFeature_ row (fuel + 1) order s t = some result := by
  intro fuel
  induction fuel with
  | zero => intro order s t result h; simp [SortOrdinalFeature_] at h
  | succ fuel ih =>
    intro order s t result h
    rw [SortOrdinalFeature_] at h ⊢
    by_cases h1 : is_int (t - s) = false
    · simp [h1] at h
    · simp only [h1, if_false] at h ⊢
      by_cases h2 : t - s = 1
      · simp only [h2, if_true] at h ⊢
        exact h
      · simp only [h2, if_false] at h ⊢
        by_cases h3 : is_int (s + t) = false
        · simp [h3] at h
        · simp only [h3, if_false] at h ⊢
          cases hr1 : SortOrdinalFeature_ row fuel order s ((s + t).tdiv 2) with
          | none => simp [hr1] at h
          | some r1 =>
            obtain ⟨order1, left_start⟩ := r1
            rw [ih _ _ _ _ hr1]
            simp only [hr1] at h ⊢
            cases hr2 : SortOrdinalFeature_ row fuel order1 ((s + t).tdiv 2) t with
            | none => simp [hr2] at h
            | some r2 =>
              obtain ⟨order2, right_start⟩ := r2
              rw [ih _ _ _ _ hr2]
              simp only [hr2] at h ⊢
              by_cases hl : left_start ≥ 0
              · simp only [hl, if_true] at h ⊢
                by_cases hrs : right_start ≥ 0
                · simp only [hrs, if_true] at h ⊢
                  cases hvl : vecGet? row left_start with
                  | none => simp [hvl] at h
                  | some left_value =>
                    cases hvr : vecGet? row right_start with
                    | none => simp [hvl, hvr] at h
                    | some right_value =>
                      simp only [hvl, hvr] at h ⊢
                      by_cases hlt : left_value.lt right_value = true
                      · simp only [hlt, if_true] at h ⊢
                        cases hg : vecGet? order2 left_start with
                        | none => simp [hg] at h
                        | some left =>
                          simp only [hg] at h ⊢
                          cases hm : merge_while row (fuel + 1) order2 left_start left
                              right_start with
                          | none => simp [hm] at h
                          | some order3 =>
                            rw [merge_while_mono row _ _ _ _ _ _ hm]
                            simpa [hm] using h
                      · simp only [hlt, if_false] at h ⊢
                        cases hg : vecGet? order2 right_start with
                        | none => simp [hg] at h
                        | some right =>
                          simp only [hg] at h ⊢
                          cases hm : merge_while row (fuel + 1) order2 right_start left_start
                              right with
                          | none => simp [hm] at h
                          | some order3 =>
                            rw [merge_while_mono row _ _ _ _ _ _ hm]
                            simpa [hm] using h
                · simp only [hrs, if_false] at h ⊢
                  exact h
              · simp only [hl, if_false] at h ⊢
                exact h

theorem SortOrdinalFeature__mono_le (row : List Double) (fuel : Nat) (order : List Int)
    (s t : Int) (result : List Int × Int)
    (h : SortOrdinalFeature_ row fuel order s t = some result) :
    ∀ more : Nat, fuel ≤ more → SortOrdinalFeature_ row more order s t = some result := by
  intro more hle
  obtain ⟨d, rfl⟩ : ∃ d, more = fuel + d := ⟨more - fuel, by omega⟩
  clear hle
  induction d with
  | zero => exact h
  | succ d ih => exact SortOrdinalFeature__mono row _ _ _ _ _ ih

theorem halfway_between (s t : Int) (h : s + 2 ≤ t) :
    s < (s + t).tdiv 2 ∧ (s + t).tdiv 2 < t := by
  by_cases h0 : 0 ≤ s + t
  · rw [Int.tdiv_eq_ediv h0 (by decide)]
    constructor <;> omega
  · have h1 : (-(s + t)).tdiv 2 = (-(s + t)) / 2 := Int.tdiv_eq_ediv (by omega) (by decide)
    have h2 : (s + t).tdiv 2 = -((-(s + t)) / 2) := by rw [← h1, Int.neg_tdiv, neg_neg]
    rw [h2]
    constructor <;> omega

theorem SortOrdinalFeature__midpoint_overflow (row : List Double) (fuel : Nat)
    (order : List Int) :
    SortOrdinalFeature_ row fuel order 1073741824 1073741826 = none := by
  cases fuel with
  | zero => rfl
  | succ fuel =>
    have h1 : is_int ((1073741826 : Int) - 1073741824) = true := by decide
    have h2 : is_int ((1073741824 : Int) + 1073741826) = false := by decide
    have h3 : ¬ ((1073741826 : Int) - 1073741824 = 1) := by decide
    rw [SortOrdinalFeature_, h1, if_neg (by decide), if_neg h3, h2, if_pos rfl]

theorem long_row_length : long_row.length = 1073741826 :=
  List.length_replicate _ _

theorem value_at_long_row (i : Int) (h0 : 0 ≤ i) (h1 : i < 1073741826) :
    value_at long_row i = .finite 0 := by
  have hlt : i.toNat < 1073741826 := by omega
  have hneg : ¬ i < 0 := by omega
  rw [value_at, vecGet?, if_neg hneg, long_row, List.getElem?_replicate, if_pos hlt]
  rfl

/-- C34, counterexample. In `long_row`, a row of 2^30 + 2 values that are all 0, the range
from 2^30 to 2^30 + 2 holds two values that are not NaN. The range has more than one index,
so `SortOrdinalFeature_` computes `(start_ + stop_) / 2`, and `start_ + stop_` is 2^31 + 2,
which is not an `int`: the behaviour is undefined, and the function returns no index for any
vector `order_[dim]` and any fuel. -/
theorem SortOrdinalFeature__sorts_overflow :
    long_row.length = 1073741826 ∧
    (value_at long_row 1073741824).isnan = false ∧
    (value_at long_row 1073741825).isnan = false ∧
    is_int ((1073741824 : Int) + 1073741826) = false ∧
    ∀ (fuel : Nat) (order : List Int),
      SortOrdinalFeature_ long_row fuel order 1073741824 1073741826 = none := by
  refine ⟨long_row_length, ?_, ?_, by decide, fun fuel order =>
    SortOrdinalFeature__midpoint_overflow long_row fuel order⟩
  · rw [value_at_long_row _ (by decide) (by decide)]
    rfl
  · rw [value_at_long_row _ (by decide) (by decide)]
    rfl

/-- C34, as amended. Let the range `[start_, stop_)` lie in a row of at most 2^30 values (so
that `start_ + stop_` is an `int`) and contain an index whose value is not NaN, and let
`order_[dim]` have the length of the row. Then
`SortOrdinalFeature_` returns, and it returns an index `head` of the range whose value is not
NaN and is not larger than any value of the range that is not NaN. Following `order_[dim]`
from `head` visits a list `L` of indices and then reaches the terminator -1: `L` has no
repetition, its indices are the indices of the range whose value is not NaN, and the values
along `L` never decrease. Every index of the range whose value is NaN is marked -2 and is
not in `L`. -/
theorem SortOrdinalFeature__sorts (row : List Double) (order : List Int) (start_ stop_ : Int)
    (fuel : Nat) (hsize : row.length ≤ 2 ^ 30) (hlen : order.length = row.length)
    (hstart : 0 ≤ start_) (hrange : start_ < stop_) (hstop : stop_ ≤ (row.length : Int))
    (hfuel : (stop_ - start_).toNat ≤ fuel)
    (hsome : ∃ i, start_ ≤ i ∧ i < stop_ ∧ (value_at row i).isnan = false) :
    ∃ order1 head L, SortOrdinalFeature_ row fuel order start_ stop_ = some (order1, head) ∧
      (start_ ≤ head ∧ head < stop_ ∧ (value_at row head).isnan = false) ∧
      (∀ i, start_ ≤ i → i < stop_ → (value_at row i).isnan = false →
        (value_at row i).lt (value_at row head) = false) ∧
      follow order1 (L.length + 1) head = some L ∧
      L.Nodup ∧
      (∀ i, i ∈ L ↔ start_ ≤ i ∧ i < stop_ ∧ (value_at row i).isnan = false) ∧
      L.Pairwise (fun i j => (value_at row j).lt (value_at row i) = false) ∧
      (∀ i, start_ ≤ i → i < stop_ → (value_at row i).isnan = true →
        vecGet? order1 i = some (-2) ∧ i ∉ L) := by
  obtain ⟨order1, head, L, hrun, _, _, _, hchain, hnd, _, hmem, hsort, hnan⟩ :=
    SortOrdinalFeature__spec row hsize fuel order start_ stop_ hlen hstart hrange hstop hfuel
  obtain ⟨i0, hi0⟩ := hsome
  have hne : L ≠ [] := by
    intro h
    have := (hmem i0).2 hi0
    rw [h] at this
    exact absurd this (List.not_mem_nil _)
  have hc := hchain hne
  have hhead : head ∈ L := by
    cases L with
    | nil => exact absurd rfl hne
    | cons a rest =>
      rw [hc.1]
      exact List.mem_cons_self _ _
  refine ⟨order1, head, L, hrun, (hmem head).1 hhead, ?_, Chain_follow L head _ hc (by omega),
    hnd, hmem, hsort, ?_⟩
  · intro i hi1 hi2 hi3
    have hi : i ∈ L := (hmem i).2 ⟨hi1, hi2, hi3⟩
    cases L with
    | nil => exact absurd rfl hne
    | cons a rest =>
      have ha : head = a := hc.1
      rcases List.mem_cons.1 hi with h | h
      · rw [h, ha]
        exact Double.lt_irrefl _
      · rw [ha]
        exact (List.pairwise_cons.1 hsort).1 i h
  · intro i hi1 hi2 hi3
    refine ⟨hnan i hi1 hi2 hi3, ?_⟩
    intro hi
    have := ((hmem i).1 hi).2.2
    rw [hi3] at this
    exact absurd this (by simp)

/-- C34 as amended, at a concrete input: seven values with two NaN. -/
theorem SortOrdinalFeature__sorts_witness :
    (([Double.finite 5, .nan, .finite 3, .finite 4, .finite 1, .nan, .finite 4].length ≤ 2 ^ 30 ∧
      (0 : Int) < 7 ∧
      ∃ i : Int, 0 ≤ i ∧ i < 7 ∧
        (value_at [.finite 5, .nan, .finite 3, .finite 4, .finite 1, .nan, .finite 4]
          i).isnan = false) ∧
    ∃ order1 head L,
      SortOrdinalFeature_ [.finite 5, .nan, .finite 3, .finite 4, .finite 1, .nan, .finite 4] 7
        [0, 0, 0, 0, 0, 0, 0] 0 7 = some (order1, head) ∧
      (0 ≤ head ∧ head < 7 ∧
        (value_at [.finite 5, .nan, .finite 3, .finite 4, .finite 1, .nan, .finite 4]
          head).isnan = false) ∧
      (∀ i, 0 ≤ i → i < 7 →
        (value_at [.finite 5, .nan, .finite 3, .finite 4, .finite 1, .nan, .finite 4]
          i).isnan = false →
        (value_at [.finite 5, .nan, .finite 3, .finite 4, .finite 1, .nan, .finite 4] i).lt
          (value_at [.finite 5, .nan, .finite 3, .finite 4, .finite 1, .nan, .finite 4]
            head) = false) ∧
      follow order1 (L.length + 1) head = some L ∧
      L.Nodup ∧
      (∀ i, i ∈ L ↔ 0 ≤ i ∧ i < 7 ∧
        (value_at [.finite 5, .nan, .finite 3, .finite 4, .finite 1, .nan, .finite 4]
          i).isnan = false) ∧
      L.Pairwise (fun i j =>
        (value_at [.finite 5, .nan, .finite 3, .finite 4, .finite 1, .nan, .finite 4] j).lt
          (value_at [.finite 5, .nan, .finite 3, .finite 4, .finite 1, .nan, .finite 4]
            i) = false) ∧
      (∀ i, 0 ≤ i → i < 7 →
        (value_at [.finite 5, .nan, .finite 3, .finite 4, .finite 1, .nan, .finite 4]
          i).isnan = true →
        vecGet? order1 i = some (-2) ∧ i ∉ L)) :=
  ⟨⟨by decide, by decide, 0, by decide, by decide, rfl⟩,
    SortOrdinalFeature__sorts [.finite 5, .nan, .finite 3, .finite 4, .finite 1, .nan, .finite 4]
      [0, 0, 0, 0, 0, 0, 0] 0 7 7 (by decide) rfl (by decide) (by decide) (by decide)
      (by decide) ⟨0, by decide, by decide, rfl⟩⟩

/-- C35, counterexample. For the non-empty range from 2^30 to 2^30 + 2, whatever the row
(a row of 2^30 + 2 values included) and whatever `order_[dim]` holds, no fuel gives a
result: the first call computes `(start_ + stop_) / 2` with `start_ + stop_` = 2^31 + 2
outside `int`, which is undefined behaviour, so the run is not shown to end. -/
theorem SortOrdinalFeature__no_result_on_overflow :
    (1073741824 : Int) < 1073741826 ∧
    is_int ((1073741826 : Int) - 1073741824) = true ∧
    is_int ((1073741824 : Int) + 1073741826) = false ∧
    ∀ (row : List Double) (order : List Int),
      ¬ ∃ fuel result, SortOrdinalFeature_ row fuel order 1073741824 1073741826 = some result := by
  refine ⟨by decide, by decide, by decide, ?_⟩
  rintro row order ⟨fuel, result, h⟩
  rw [SortOrdinalFeature__midpoint_overflow row fuel order] at h
  exact Option.noConfusion h

/-- C35, as amended. For a non-empty range `[start_, stop_)` in a row of at most 2^30 values
(so that `start_ + stop_` is an `int`), `SortOrdinalFeature_` returns: there is a result that every run with a recursion depth and a
number of loop turns of at least `stop_ - start_` gives. When the range has more than one
index, its two halves are not empty and strictly shorter: `halfway` lies strictly between
`start_` and `stop_`. -/
theorem SortOrdinalFeature__terminates (row : List Double) (order : List Int)
    (start_ stop_ : Int) (hsize : row.length ≤ 2 ^ 30) (hlen : order.length = row.length)
    (hstart : 0 ≤ start_) (hrange : start_ < stop_) (hstop : stop_ ≤ (row.length : Int)) :
    (stop_ - start_ ≠ 1 →
      start_ < (start_ + stop_).tdiv 2 ∧ (start_ + stop_).tdiv 2 < stop_) ∧
    ∃ result, ∀ fuel, (stop_ - start_).toNat ≤ fuel →
      SortOrdinalFeature_ row fuel order start_ stop_ = some result := by
  refine ⟨fun h => halfway_between start_ stop_ (by omega), ?_⟩
  obtain ⟨order1, head, _, hrun, _⟩ :=
    SortOrdinalFeature__spec row hsize (stop_ - start_).toNat order start_ stop_ hlen hstart
      hrange hstop (Nat.le_refl _)
  exact ⟨(order1, head), SortOrdinalFeature__mono_le row _ order start_ stop_ _ hrun⟩

/-- C35 as amended, at a concrete input: three values that are all NaN. -/
theorem SortOrdinalFeature__terminates_witness :
    (([Double.nan, .nan, .nan].length ≤ 2 ^ 30 ∧ (0 : Int) < 3) ∧
    ((3 : Int) - 0 ≠ 1 → (0 : Int) < ((0 : Int) + 3).tdiv 2 ∧ ((0 : Int) + 3).tdiv 2 < 3) ∧
    ∃ result, ∀ fuel, ((3 : Int) - 0).toNat ≤ fuel →
      SortOrdinalFeature_ [.nan, .nan, .nan] fuel [0, 0, 0] 0 3 = some result) :=
  ⟨⟨by decide, by decide⟩,
    SortOrdinalFeature__terminates [.nan, .nan, .nan] [0, 0, 0] 0 3 (by decide) rfl (by decide)
      (by decide) (by decide)⟩

/-- C36, evaluated at a failing input. The feature has the two values 5 and 3, whatever the
new vector `order_[i]` holds. The sorted list starts at index 1, whose successor is index
0: `order_[i]` is [-1, 0] and `firsts[i]` is 1. The back-link loop stops at once, as its
condition `j_cur > 0` is false for the index 0, and `back_order_[i][0]` keeps the value -2
it was set to; the inverse of the link from 1 to 0 would be 1. -/
theorem Init_leaves_index_zero_without_back_link (a b : Int) :
    Init_feature [.finite 5, .finite 3] 2 [a, b] = some ([-1, 0], [-2, -1], 1) := by
  rfl

end TrainingSet

namespace TrainingSet

open core.parallel

theorem advance_left_all_ones (start : Int) (split : List Int)
    (hones : ∀ flag ∈ split, flag = 1) :
    ∀ (fuel k : Nat), k ≤ split.length →
      (split.length - k < fuel →
        advance_left start split (start + split.length - 1) fuel (start + k) =
          .split_out_of_range (split.length : Int)) ∧
      (advance_left start split (start + split.length - 1) fuel (start + k) =
          .split_out_of_range (split.length : Int) ∨
        advance_left start split (start + split.length - 1) fuel (start + k) =
          .unfinished) := by
  intro fuel
  induction fuel with
  | zero =>
    intro k _
    exact ⟨fun h => absurd h (by omega), Or.inr rfl⟩
  | succ fuel ih =>
    intro k hk
    have hidx : start + (k : Int) - start = (k : Int) := by omega
    by_cases hkm : k = split.length
    · have hnone : vecGet? split (k : Int) = none := by
        rw [vecGet?_natCast, hkm]
        simp
      have hrun : advance_left start split (start + split.length - 1) (fuel + 1) (start + k) =
          .split_out_of_range (split.length : Int) := by
        simp only [advance_left, hidx, hnone]
        rw [hkm]
      exact ⟨fun _ => hrun, Or.inl hrun⟩
    · have hlt : k < split.length := by omega
      have hsome : vecGet? split (k : Int) = some 1 := by
        rw [vecGet?_natCast, List.getElem?_eq_getElem hlt]
        rw [hones _ (List.getElem_mem hlt)]
      have hcond : (1 : Int) > 0 ∧ start + (k : Int) ≤ start + (split.length : Int) - 1 := by
        constructor
        · decide
        · omega
      have hstep : advance_left start split (start + split.length - 1) (fuel + 1) (start + k) =
          advance_left start split (start + split.length - 1) fuel (start + ((k + 1 : Nat) : Int)) := by
        simp only [advance_left, hidx, hsome, hcond, and_self, if_true]
        rw [show start + (k : Int) + 1 = start + ((k + 1 : Nat) : Int) from by push_cast; omega]
      rw [hstep]
      obtain ⟨h1, h2⟩ := ih (k + 1) (by omega)
      exact ⟨fun h => h1 (by omega), h2⟩

theorem partition_loop_all_ones {γ : Type} (start : Int) (split : List Int)
    (hones : ∀ flag ∈ split, flag = 1) (columns : List γ) (old_from_new : Option (List Int))
    (fuel : Nat) :
    (split.length < fuel →
      partition_loop start fuel
          { left := start, right := start + split.length - 1, split := split,
            columns := columns, old_from_new := old_from_new } =
        .split_out_of_range (split.length : Int)) ∧
    (partition_loop start fuel
          { left := start, right := start + split.length - 1, split := split,
            columns := columns, old_from_new := old_from_new } =
        .split_out_of_range (split.length : Int) ∨
      partition_loop start fuel
          { left := start, right := start + split.length - 1, split := split,
            columns := columns, old_from_new := old_from_new } = .unfinished) := by
  cases fuel with
  | zero => exact ⟨fun h => absurd h (by omega), Or.inr rfl⟩
  | succ fuel =>
    obtain ⟨h1, h2⟩ := advance_left_all_ones start split hones (fuel + 1) 0 (by omega)
    simp only [Nat.cast_zero, add_zero] at h1 h2
    constructor
    · intro hfuel
      simp only [partition_loop, h1 (by omega)]
    · rcases h2 with h | h
      · left
        simp only [partition_loop, h]
      · right
        simp only [partition_loop, h]

/-- C37, at the failing inputs. For a range `[start, stop)` and a `split` vector of length
`stop - start` whose entries are all 1 (an empty range included), `MatrixPartition` does not
return, however long it runs: its first loop reads `split[stop - start]`, an index outside
the vector, before it tests `left <= right`. -/
theorem MatrixPartition_all_ones_does_not_return {γ : Type} (columns : List γ)
    (start stop : Int) (old_from_new : Option (List Int)) (split : List Int)
    (hlen : (split.length : Int) = stop - start) (hones : ∀ flag ∈ split, flag = 1) :
    ∀ (fuel : Nat) (result : Int × List γ × Option (List Int)),
      MatrixPartition fuel columns start stop old_from_new split ≠ .returned result := by
  intro fuel result
  have hright : stop - 1 = start + (split.length : Int) - 1 := by omega
  rcases (partition_loop_all_ones start split hones columns old_from_new fuel).2 with h | h
  · simp only [MatrixPartition, hright, h]
    intro h2
    cases h2
  · simp only [MatrixPartition, hright, h]
    intro h2
    cases h2

/-- C37, at a concrete failing input: two columns, both flagged 1. -/
theorem MatrixPartition_all_ones_does_not_return_witness :
    ((([1, 1] : List Int).length : Int) = 2 - 0 ∧ ∀ flag ∈ ([1, 1] : List Int), flag = 1) ∧
    ∀ (fuel : Nat) (result : Int × List Nat × Option (List Int)),
      MatrixPartition fuel [7, 8] 0 2 none [1, 1] ≠ .returned result :=
  ⟨⟨by decide, by decide⟩,
    MatrixPartition_all_ones_does_not_return [7, 8] 0 2 none [1, 1] (by decide) (by decide)⟩

/-- An input with a flag 0: the three columns with flags 0, 1, 1 are partitioned, the second
and the third index are returned to the front and the call returns 2. -/
theorem MatrixPartition_example :
    MatrixPartition 5 [7, 8, 9] 0 3 (some [10, 11, 12]) [0, 1, 1] =
      (.returned (2, [9, 8, 7], some [12, 11, 10]) :
        PartitionOutcome (Int × List Nat × Option (List Int))) := by
  rfl

/-- C38, at the failing inputs. For a range `[start, stop)` and a `split` vector of length
`stop - start` whose entries are all 1, in particular for every non-empty range, the two-pointer loop reads `split` at the
index `stop - start`, which is outside `0 .. stop - start - 1`: the loop
`while (split[left - start] > 0 && left <= right)` reads the entry before it compares the
indices. -/
theorem MatrixPartition_reads_split_past_the_end {γ : Type} (fuel : Nat) (columns : List γ)
    (start stop : Int) (old_from_new : Option (List Int)) (split : List Int)
    (hlen : (split.length : Int) = stop - start)
    (hones : ∀ flag ∈ split, flag = 1) (hfuel : split.length < fuel) :
    MatrixPartition fuel columns start stop old_from_new split =
      .split_out_of_range (stop - start) ∧
    ¬ (0 ≤ stop - start ∧ stop - start ≤ stop - start - 1) := by
  have hright : stop - 1 = start + (split.length : Int) - 1 := by omega
  refine ⟨?_, by omega⟩
  rw [MatrixPartition, hright,
    (partition_loop_all_ones start split hones columns old_from_new fuel).1 hfuel, hlen]

/-- C38, at a concrete failing input: one column, flagged 1; the index read is 1. -/
theorem MatrixPartition_reads_split_past_the_end_witness :
    (((([1] : List Int).length : Int) = 1 - 0) ∧
      (∀ flag ∈ ([1] : List Int), flag = 1) ∧ ([1] : List Int).length < 2) ∧
    (MatrixPartition 2 [7] 0 1 none [1] =
        (.split_out_of_range (1 - 0) : PartitionOutcome (Int × List Nat × Option (List Int))) ∧
      ¬ ((0 : Int) ≤ 1 - 0 ∧ (1 : Int) - 0 ≤ 1 - 0 - 1)) :=
  ⟨⟨by decide, by decide, by decide⟩,
    MatrixPartition_reads_split_past_the_end 2 [7] 0 1 none [1] (by decide) (by decide)
      (by decide)⟩

end TrainingSet

namespace mlpack

namespace neighbor

namespace NearestNeighborSort

theorem DBL_MAX_value_eq : DBL_MAX_value = (2 ^ 53 - 1) * 2 ^ 971 := by
  norm_num [DBL_MAX_value]

/-- C39, refuted as stated. `WorstDistance()` is `DBL_MAX`, the largest finite `double`, and it
is better than the distance plus infinity. -/
theorem WorstDistance_better_than_infinity :
    IsBetter WorstDistance .pos_inf = true ∧ in_range .pos_inf = true ∧
      non_negative .pos_inf = true := by
  exact ⟨rfl, rfl, rfl⟩

/-- C39, amended. `IsBetter(value, ref)` is the comparison `value < ref` of `double` values: on
finite values it is the order of their values, it is false when one of the two is NaN, minus
infinity is better than every other value that is not NaN and plus infinity is better than
none. No value is better than itself. No value that is not negative is better than
`BestDistance()`, which is 0. `WorstDistance()`, which is `DBL_MAX`, is better than a `double`
exactly when that is plus infinity: it is not better than any finite distance. -/
theorem IsBetter_spec (d : Double) (hd : in_range d = true) :
    (∀ x y : ℚ, IsBetter (.finite x) (.finite y) = true ↔ x < y) ∧
    (∀ v : Double, IsBetter v .nan = false ∧ IsBetter .nan v = false) ∧
    (∀ v : Double, IsBetter .neg_inf v = true ↔ (v ≠ .nan ∧ v ≠ .neg_inf)) ∧
    (∀ v : Double, IsBetter .pos_inf v = false) ∧
    (∀ v : Double, IsBetter v v = false) ∧
    BestDistance = .finite 0 ∧
    (non_negative d = true → IsBetter d BestDistance = false) ∧
    (IsBetter WorstDistance d = true ↔ d = .pos_inf) := by
  refine ⟨?_, ?_, ?_, ?_, ?_, rfl, ?_, ?_⟩
  · intro x y
    simp [IsBetter, Double.lt]
  · intro v
    cases v <;> simp [IsBetter, Double.lt]
  · intro v
    cases v <;> simp [IsBetter, Double.lt]
  · intro v
    cases v <;> simp [IsBetter, Double.lt]
  · intro v
    exact Double.lt_irrefl v
  · intro h
    cases d <;> simp [IsBetter, Double.lt, BestDistance, non_negative] at h ⊢
    exact h
  · cases d with
    | nan => simp [IsBetter, Double.lt, WorstDistance, DBL_MAX]
    | neg_inf => simp [IsBetter, Double.lt, WorstDistance, DBL_MAX]
    | pos_inf => simp [IsBetter, Double.lt, WorstDistance, DBL_MAX]
    | finite x =>
      simp only [in_range, Bool.and_eq_true, decide_eq_true_eq] at hd
      simp only [IsBetter, Double.lt, WorstDistance, DBL_MAX, decide_eq_true_eq]
      constructor
      · intro h
        exact absurd h (not_lt.2 hd.2)
      · intro h
        cases h

/-- C39 amended, at a concrete input: the distance 1. -/
theorem IsBetter_spec_witness :
    in_range (.finite 1) = true ∧
    ((∀ x y : ℚ, IsBetter (.finite x) (.finite y) = true ↔ x < y) ∧
    (∀ v : Double, IsBetter v .nan = false ∧ IsBetter .nan v = false) ∧
    (∀ v : Double, IsBetter .neg_inf v = true ↔ (v ≠ .nan ∧ v ≠ .neg_inf)) ∧
    (∀ v : Double, IsBetter .pos_inf v = false) ∧
    (∀ v : Double, IsBetter v v = false) ∧
    BestDistance = .finite 0 ∧
    (non_negative (.finite 1) = true → IsBetter (.finite 1) BestDistance = false) ∧
    (IsBetter WorstDistance (.finite 1) = true ↔ Double.finite 1 = .pos_inf)) :=
  ⟨by decide, IsBetter_spec (.finite 1) (by decide)⟩

end NearestNeighborSort

end neighbor

end mlpack
